import Mathlib

/-!
The static memory pools of weos.

A shallow embedding of `memorypool.hpp` (namespace `weos`): the intrusive
`detail::free_list`, the `memory_pool` built on it and the
`counting_memory_pool` that adds a semaphore; and of `objectpool.hpp`: the
typed pools `object_pool` and `shared_object_pool`.

Modelling decisions
* Memory is byte addressed (`Memory := Nat → Fin 256`).  An address is a
  natural number, the null pointer is address `0`.  The accessor
  `next(p) = *static_cast<void**>(p)` reads or writes `sizeof(void*)`
  consecutive bytes starting at `p` (little endian), so two links whose
  addresses are closer than `sizeof(void*)` do alias in the model, exactly as
  they do on the machine.
* `sizeof(void*)`, `alignment_of<void*>`, `sizeof(TElement)`,
  `alignment_of<TElement>` and `TNumElem` are the fields of `Config`.
* The `while` loop of the `free_list` constructor is run with fuel; `none`
  means that the fuel was used up before the loop condition became false.
* The members of `memory_pool` are given for the default guard `null_mutex`,
  whose `lock_guard` does nothing.  `counting_memory_pool` instantiates the
  pool with `mutex` (header `mutex.hpp`, not among the sources);
  `memory_pool::allocate` holds its guard while it calls `memory_pool::empty`,
  which takes the guard again.  The members `allocate`, `try_allocate` and
  `try_allocate_for` of `counting_memory_pool` give the result of a completed
  call; whether a call completes is given by the members with the suffix
  `_locked`, which run the guard events of the call on a `mutex` whose
  behaviour on a second acquisition by its owner is a parameter.
* A run of calls is sequential: one call completes before the next starts.
  The section on two threads interleaves the statements of
  `counting_memory_pool::allocate` and `free`.

Further sections embed `condition_variable.cpp`, the signal functions and
`sleep_for` of the two `thread.hpp` backends, and `function` of
`functional.hpp`.
-/

namespace weos

/-! ## Memory and the `next` accessor -/

/-- Byte addressed memory. -/
abbrev Memory := Nat → Fin 256

/-- Reading `next(p)`: the pointer stored in the `P` bytes starting at `p`. -/
def next (P : Nat) (mem : Memory) (p : Nat) : Nat :=
  match P with
  | 0 => 0
  | P + 1 => (mem p).val + 256 * next P mem (p + 1)

/-- Writing `next(p) = v`: the `P` bytes starting at `p` receive the
representation of `v`; all other bytes are untouched. -/
def set_next (P : Nat) (mem : Memory) (p v : Nat) : Memory :=
  fun x =>
    if p ≤ x ∧ x < p + P then ⟨v / 256 ^ (x - p) % 256, Nat.mod_lt _ (by decide)⟩
    else mem x

/-! ## `detail::free_list` -/

/-- State of a `detail::free_list`: the member `m_first` together with the
memory in which the links are stored. -/
structure free_list where
  m_first : Nat
  mem : Memory

namespace free_list

/-- The loop `while (iter != last) { follow = iter + chunkSize;
next(iter) = follow; iter = follow; }` of the constructor. -/
def linkLoop (P chunkSize last : Nat) : Nat → Nat → Memory → Option Memory
  | 0, iter, mem => if iter = last then some mem else none
  | fuel + 1, iter, mem =>
    if iter = last then some mem
    else linkLoop P chunkSize last fuel (iter + chunkSize)
      (set_next P mem iter (iter + chunkSize))

/-- Constructor `free_list(void* memBlock, std::size_t chunkSize,
std::size_t memSize)`, run on memory `mem`. -/
def ctor (P : Nat) (mem : Memory) (memBlock chunkSize memSize : Nat) :
    Option free_list :=
  let memSize := (memSize / chunkSize) * chunkSize
  if memSize = 0 then some ⟨0, mem⟩
  else
    let last := memBlock + memSize - chunkSize
    let mem1 := set_next P mem last 0
    (linkLoop P chunkSize last (memSize / chunkSize) memBlock mem1).map
      (fun m => ⟨memBlock, m⟩)

/-- Member `empty()`: `m_first == 0`. -/
def empty (fl : free_list) : Bool := fl.m_first == 0

/-- Member `allocate()`: returns `m_first` and advances it to `next(m_first)`. -/
def allocate (P : Nat) (fl : free_list) : Nat × free_list :=
  let chunk := fl.m_first
  (chunk, ⟨next P fl.mem fl.m_first, fl.mem⟩)

/-- Member `free(chunk)`: `next(chunk) = m_first; m_first = chunk`. -/
def free (P : Nat) (fl : free_list) (chunk : Nat) : free_list :=
  ⟨chunk, set_next P fl.mem chunk fl.m_first⟩

/-- The chunks met when following the links from `p` until a null pointer,
for at most `fuel` steps. -/
def chain (P : Nat) (mem : Memory) : Nat → Nat → List Nat
  | 0, _ => []
  | fuel + 1, p => if p = 0 then [] else p :: chain P mem fuel (next P mem p)

/-- Predicate `IsChain P mem p l`: following the links from `p` visits exactly
the chunks `l`, in this order, and then reaches the null pointer. -/
def IsChain (P : Nat) (mem : Memory) : Nat → List Nat → Prop
  | p, [] => p = 0
  | p, a :: l => p = a ∧ a ≠ 0 ∧ IsChain P mem (next P mem a) l

end free_list

/-! ## `memory_pool` -/

/-- Template parameters of a pool and the sizes they depend on. -/
structure Config where
  /-- Size of a pointer, `sizeof(void*)`. -/
  ptrSize : Nat
  /-- Alignment of a pointer, `alignment_of<void*>::value`. -/
  ptrAlign : Nat
  /-- Size of an element, `sizeof(element_type)`. -/
  elemSize : Nat
  /-- Alignment of an element, `alignment_of<element_type>::value`. -/
  elemAlign : Nat
  /-- Capacity, `TNumElem`. -/
  numElem : Nat

namespace Config

/-- Constant `min_align = static_lcm<alignment_of<void*>, alignment_of<element_type>>`. -/
def min_align (c : Config) : Nat := Nat.lcm c.ptrAlign c.elemAlign

/-- Constant `chunk_size =
static_lcm<static_unsigned_max<sizeof(void*), sizeof(element_type)>, min_align>`. -/
def chunk_size (c : Config) : Nat := Nat.lcm (max c.ptrSize c.elemSize) c.min_align

/-- Constant `block_size = chunk_size * TNumElem`. -/
def block_size (c : Config) : Nat := c.chunk_size * c.numElem

end Config

/-- State of a `memory_pool`: the address of the storage `m_data` and the
free list `m_freeList`. -/
structure memory_pool where
  m_data : Nat
  m_freeList : free_list

namespace memory_pool

/-- Constructor `memory_pool()`:
`m_freeList(m_data.address(), chunk_size, block_size)`, for a pool whose
storage is placed at address `base` of the memory `mem`. -/
def ctor (c : Config) (mem : Memory) (base : Nat) : Option memory_pool :=
  (free_list.ctor c.ptrSize mem base c.chunk_size c.block_size).map
    (fun fl => ⟨base, fl⟩)

/-- Member `empty()`. -/
def empty (p : memory_pool) : Bool := p.m_freeList.empty

/-- Member `allocate()`: null if the pool is empty, else
`m_freeList.allocate()`. -/
def allocate (c : Config) (p : memory_pool) : Nat × memory_pool :=
  if p.empty then (0, p)
  else
    let r := p.m_freeList.allocate c.ptrSize
    (r.1, { p with m_freeList := r.2 })

/-- Member `free(chunk)`: `m_freeList.free(chunk)`. -/
def free (c : Config) (p : memory_pool) (chunk : Nat) : memory_pool :=
  { p with m_freeList := p.m_freeList.free c.ptrSize chunk }

/-- The free chunks of the pool: those reachable from the head of the free
list (at most `TNumElem` links are followed). -/
def free_chunks (c : Config) (p : memory_pool) : List Nat :=
  free_list.chain c.ptrSize p.m_freeList.mem c.numElem p.m_freeList.m_first

end memory_pool

/-! ## `semaphore` and `counting_memory_pool` -/

/-- Modelled from the spec: the class `semaphore` (header `semaphore.hpp`, not
part of the sources at hand), the counting gate of the specification: "a
non-negative integer token count with block/try/timed-try acquire and
release-with-wake".  The state is the token count. -/
structure semaphore where
  value : Nat

namespace semaphore

/-- Modelled from the spec: `semaphore::wait()`, "blocks until a token is
available (token count > 0), decrements it".  In the sequential model the call
returns exactly when a token is available; `none` stands for a caller that
stays blocked. -/
def wait (s : semaphore) : Option semaphore :=
  if 0 < s.value then some ⟨s.value - 1⟩ else none

/-- Modelled from the spec: `semaphore::try_wait()`, "attempts to take a token
without blocking". -/
def try_wait (s : semaphore) : Bool × semaphore :=
  if 0 < s.value then (true, ⟨s.value - 1⟩) else (false, s)

/-- Modelled from the spec: `semaphore::try_wait_for(d)`, "as try_wait but
willing to block up to the given duration"; `d` is the tick count of the
duration.  No other thread runs during the call in the sequential model, so
no token arrives while the caller waits. -/
def try_wait_for (s : semaphore) (_d : Int) : Bool × semaphore :=
  if 0 < s.value then (true, ⟨s.value - 1⟩) else (false, s)

/-- Modelled from the spec: `semaphore::post()`, "releases one token". -/
def post (s : semaphore) : semaphore := ⟨s.value + 1⟩

end semaphore

/-- State of a `counting_memory_pool`: the members `m_memoryPool` and
`m_numElements`. -/
structure counting_memory_pool where
  m_memoryPool : memory_pool
  m_numElements : semaphore

namespace counting_memory_pool

/-- Constructor `counting_memory_pool()`: the pool is default constructed and
`m_numElements(TNumElem)`. -/
def ctor (c : Config) (mem : Memory) (base : Nat) : Option counting_memory_pool :=
  (memory_pool.ctor c mem base).map (fun p => ⟨p, ⟨c.numElem⟩⟩)

/-- Member `empty()`. -/
def empty (p : counting_memory_pool) : Bool := p.m_memoryPool.empty

/-- Member `allocate()` as a completed call:
`m_numElements.wait(); return m_memoryPool.allocate();`, with the result that
the call has once the acquisitions of the guard inside
`m_memoryPool.allocate()` have returned.  The result is `none` when the caller
stays blocked in `wait()`.  Whether the acquisitions of the guard return is
the subject of `allocate_locked`. -/
def allocate (c : Config) (p : counting_memory_pool) :
    Option (Nat × counting_memory_pool) :=
  match p.m_numElements.wait with
  | none => none
  | some s =>
    let r := p.m_memoryPool.allocate c
    some (r.1, ⟨r.2, s⟩)

/-- Member `try_allocate()` as a completed call:
`if (m_numElements.try_wait()) return m_memoryPool.allocate(); else return 0;`,
with the result that the call has once the acquisitions of the guard inside
`m_memoryPool.allocate()` have returned.  Whether they return is the subject
of `try_allocate_locked`. -/
def try_allocate (c : Config) (p : counting_memory_pool) :
    Nat × counting_memory_pool :=
  let w := p.m_numElements.try_wait
  if w.1 then
    let r := p.m_memoryPool.allocate c
    (r.1, ⟨r.2, w.2⟩)
  else (0, ⟨p.m_memoryPool, w.2⟩)

/-- Member `try_allocate_for(d)` as a completed call, as `try_allocate`. -/
def try_allocate_for (c : Config) (p : counting_memory_pool) (d : Int) :
    Nat × counting_memory_pool :=
  let w := p.m_numElements.try_wait_for d
  if w.1 then
    let r := p.m_memoryPool.allocate c
    (r.1, ⟨r.2, w.2⟩)
  else (0, ⟨p.m_memoryPool, w.2⟩)

/-- First statement of `free(chunk)`: `m_memoryPool.free(chunk);`. -/
def free_push (c : Config) (p : counting_memory_pool) (chunk : Nat) :
    counting_memory_pool :=
  ⟨p.m_memoryPool.free c chunk, p.m_numElements⟩

/-- Second statement of `free(chunk)`: `m_numElements.post();`. -/
def free_post (p : counting_memory_pool) : counting_memory_pool :=
  ⟨p.m_memoryPool, p.m_numElements.post⟩

/-- Member `free(chunk)`: `m_memoryPool.free(chunk); m_numElements.post();`. -/
def free (c : Config) (p : counting_memory_pool) (chunk : Nat) :
    counting_memory_pool :=
  free_post (free_push c p chunk)

/-- The free chunks of the pool: those reachable from the head of the free
list. -/
def free_chunks (c : Config) (p : counting_memory_pool) : List Nat :=
  p.m_memoryPool.free_chunks c

/-- Modelled from the spec: the member `size()` that the tests call and the
header at hand does not declare; the specification defines it as the "number
of free chunks". -/
def size (c : Config) (p : counting_memory_pool) : Nat :=
  (p.free_chunks c).length

end counting_memory_pool

/-! ## Sequences of calls

A client is a sequence of calls.  Next to the pool the run keeps the list
`live` of the chunks that were handed out and not given back yet.  A run is
`none` when a call breaks the contract of `free` ("a chunk which must have been
allocated via allocate()") or, for the counting pool, when a blocking call
does not return. -/

/-- The calls on a `memory_pool`. -/
inductive PoolOp where
  | allocate
  | free (chunk : Nat)

/-- A `memory_pool` with the chunks currently held by the client. -/
structure PoolRun where
  pool : memory_pool
  live : List Nat

/-- One call on a `memory_pool`. -/
def PoolRun.step (c : Config) (s : PoolRun) : PoolOp → Option PoolRun
  | .allocate =>
    let r := s.pool.allocate c
    some ⟨r.2, if r.1 = 0 then s.live else r.1 :: s.live⟩
  | .free chunk =>
    if chunk ∈ s.live then some ⟨s.pool.free c chunk, s.live.erase chunk⟩
    else none

/-- A sequence of calls on a `memory_pool`. -/
def PoolRun.exec (c : Config) : PoolRun → List PoolOp → Option PoolRun
  | s, [] => some s
  | s, op :: ops =>
    match s.step c op with
    | none => none
    | some t => PoolRun.exec c t ops

/-- The calls on a `counting_memory_pool`. -/
inductive CountingOp where
  | allocate
  | try_allocate
  | try_allocate_for (d : Int)
  | free (chunk : Nat)

/-- A `counting_memory_pool` with the chunks currently held by the client. -/
structure CountingRun where
  pool : counting_memory_pool
  live : List Nat

/-- One completed call on a `counting_memory_pool`. -/
def CountingRun.step (c : Config) (s : CountingRun) : CountingOp → Option CountingRun
  | .allocate =>
    match s.pool.allocate c with
    | none => none
    | some r => some ⟨r.2, if r.1 = 0 then s.live else r.1 :: s.live⟩
  | .try_allocate =>
    let r := s.pool.try_allocate c
    some ⟨r.2, if r.1 = 0 then s.live else r.1 :: s.live⟩
  | .try_allocate_for d =>
    let r := s.pool.try_allocate_for c d
    some ⟨r.2, if r.1 = 0 then s.live else r.1 :: s.live⟩
  | .free chunk =>
    if chunk ∈ s.live then some ⟨s.pool.free c chunk, s.live.erase chunk⟩
    else none

/-- A sequence of completed calls on a `counting_memory_pool`. -/
def CountingRun.exec (c : Config) : CountingRun → List CountingOp → Option CountingRun
  | s, [] => some s
  | s, op :: ops =>
    match s.step c op with
    | none => none
    | some t => CountingRun.exec c t ops

/-- The addresses `base, base + chunkSize, ...` of the `n` chunks of a block. -/
def chunk_addrs (base chunkSize n : Nat) : List Nat :=
  (List.range n).map (fun i => base + i * chunkSize)

/-- The storage of a pool is well placed at `base`: the sizes and alignments
are positive, the block does not start at the null address and it ends inside
the address space of a `sizeof(void*)` byte pointer. -/
@[reducible]
def Config.Placed (c : Config) (base : Nat) : Prop :=
  0 < c.ptrSize ∧ 0 < c.ptrAlign ∧ 0 < c.elemSize ∧ 0 < c.elemAlign ∧
    0 < base ∧ base + c.block_size ≤ 256 ^ c.ptrSize

/-- Invariant of a pool placed at `base` whose client holds the chunks
`live`: the links that start at the head form a null terminated chain of the
free chunks, and the free chunks together with `live` are a rearrangement of
the chunks of the block. -/
def PoolInv (c : Config) (base : Nat) (p : memory_pool) (live : List Nat) : Prop :=
  free_list.IsChain c.ptrSize p.m_freeList.mem p.m_freeList.m_first (p.free_chunks c) ∧
    List.Perm (p.free_chunks c ++ live) (chunk_addrs base c.chunk_size c.numElem)

/-- Invariant of a counting pool: the invariant of the pool inside, and the
semaphore counts the free chunks. -/
def CountingInv (c : Config) (base : Nat) (p : counting_memory_pool)
    (live : List Nat) : Prop :=
  PoolInv c base p.m_memoryPool live ∧
    p.m_numElements.value = (p.free_chunks c).length

/-- The results of `k` consecutive calls of `memory_pool::allocate`, and the
pool after them. -/
def memory_pool.allocate_n (c : Config) : Nat → memory_pool → List Nat × memory_pool
  | 0, p => ([], p)
  | k + 1, p =>
    let r := p.allocate c
    let rs := memory_pool.allocate_n c k r.2
    (r.1 :: rs.1, rs.2)

/-- A pool of three four-byte elements on a machine with four-byte pointers. -/
def demoConfig : Config := ⟨4, 4, 4, 4, 3⟩

/-- A memory that holds zero in every byte. -/
def demoMemory : Memory := fun _ => 0

/-- Following the specification's words, "the smallest multiple of the maximum
required alignment that is large enough to hold either a pointer or one
element": the larger of `sizeof(void*)` and `sizeof(element_type)`, rounded up
to a multiple of `min_align`. -/
def Config.smallest_aligned_size (c : Config) : Nat :=
  (max c.ptrSize c.elemSize + c.min_align - 1) / c.min_align * c.min_align

/-- A pool of three twelve-byte elements of alignment four (a struct of three
`int`) on a machine with eight-byte pointers. -/
def wideConfig : Config := ⟨8, 8, 12, 4, 3⟩

/-- A memory that holds 255 in every byte. -/
def onesMemory : Memory := fun _ => 255

/-! ## Typed pools (`objectpool.hpp`)

The typed pools construct elements in chunks of a raw pool.  The element type
`TElement` is a parameter; the calls of its constructor and destructor are
recorded in a ghost list `events` next to the pool (latest call first).  The
two or three overloads of each `construct` member differ in the number of
forwarded arguments only; `Args` is the type of the whole argument list.
A constructor that returns writes the representation of the new element into
the `sizeof(element_type)` bytes of the chunk; a constructor that throws and
a destructor are taken to leave the memory of the pool as it is.
`objectpool.hpp` calls `memory_pool::try_allocate` and the class
`shared_memory_pool`, which the `memorypool.hpp` at hand has under the names
`memory_pool::allocate` and `counting_memory_pool`. -/

/-- What a typed pool needs from its element type: the constructor, which
yields the new element from the forwarded arguments or fails (`none`, the
constructor throws), and the object representation, byte `i` of an element
for `i < sizeof(element_type)`. -/
structure ElementType (Args Elem : Type) where
  construct : Args → Option Elem
  repr : Elem → Nat → Fin 256

/-- A call of the constructor (placement new at `addr` with `args`) or of the
destructor of the element type. -/
inductive ElemEvent (Args : Type) where
  | ctor_call (addr : Nat) (args : Args)
  | dtor_call (addr : Nat)
deriving DecidableEq

/-- How a call of a constructing member ends: it returns a pointer, or the
exception of the element constructor leaves the member. -/
inductive Completion where
  | returns (p : Nat)
  | throws
deriving DecidableEq

/-- The memory after a successful placement new of `e` at `addr`: the
`sizeof(element_type)` bytes from `addr` on hold the representation of `e`. -/
def place {Args Elem : Type} (c : Config) (E : ElementType Args Elem) (mem : Memory)
    (addr : Nat) (e : Elem) : Memory :=
  fun x => if addr ≤ x ∧ x < addr + c.elemSize then E.repr e (x - addr) else mem x

/-- The element `e` lives at `addr`: the bytes there are its representation. -/
@[reducible]
def lives_at {Args Elem : Type} (c : Config) (E : ElementType Args Elem) (mem : Memory)
    (addr : Nat) (e : Elem) : Prop :=
  ∀ i, i < c.elemSize → mem (addr + i) = E.repr e i

/-- Modelled from the spec: `memory_pool::try_allocate()`, which `objectpool.hpp`
calls and the `memorypool.hpp` at hand does not declare; the non-blocking
allocation of the raw pool, which "checks emptiness, pops a chunk or returns a
null result".  The header at hand has this member under the name `allocate`. -/
def memory_pool.try_allocate (c : Config) (p : memory_pool) : Nat × memory_pool :=
  p.allocate c

/-- The pool after the client has changed the memory to `m`. -/
def memory_pool.with_mem (p : memory_pool) (m : Memory) : memory_pool :=
  ⟨p.m_data, ⟨p.m_freeList.m_first, m⟩⟩

/-- The pool after the client has changed the memory to `m`. -/
def counting_memory_pool.with_mem (p : counting_memory_pool) (m : Memory) :
    counting_memory_pool :=
  ⟨p.m_memoryPool.with_mem m, p.m_numElements⟩

/-- Modelled from the spec: the member `capacity()` that the tests call on a
`counting_memory_pool` and the header at hand does not declare; the capacity
of the pool, which "never changes". -/
def counting_memory_pool.capacity (c : Config) (_p : counting_memory_pool) : Nat :=
  c.numElem

/-- State of an `object_pool`: the member `m_memoryPool` (a `memory_pool` with
the default `null_mutex`) and the ghost list of constructor and destructor
calls. -/
structure object_pool (Args : Type) where
  m_memoryPool : memory_pool
  events : List (ElemEvent Args)

namespace object_pool

variable {Args Elem : Type}

/-- The implicit constructor: `m_memoryPool` is default constructed. -/
def ctor (c : Config) (mem : Memory) (base : Nat) : Option (object_pool Args) :=
  (memory_pool.ctor c mem base).map (fun p => ⟨p, []⟩)

/-- Destructor `~object_pool()`.  Its body holds a todo comment and no
statement.  The result says whether a check failed (none is made) and gives
the pool as the destructor leaves it. -/
def dtor (p : object_pool Args) : Bool × object_pool Args := (false, p)

/-- Member `capacity()`: `return TNumElem;`. -/
def capacity (c : Config) (_p : object_pool Args) : Nat := c.numElem

/-- Member `empty()`: `return m_memoryPool.empty();`. -/
def empty (p : object_pool Args) : Bool := p.m_memoryPool.empty

/-- Member `try_allocate()`: `m_memoryPool.try_allocate()`. -/
def try_allocate (c : Config) (p : object_pool Args) : Nat × object_pool Args :=
  let r := p.m_memoryPool.try_allocate c
  (r.1, ⟨r.2, p.events⟩)

/-- Member `free(element)`: `m_memoryPool.free(element)`. -/
def free (c : Config) (p : object_pool Args) (element : Nat) : object_pool Args :=
  ⟨p.m_memoryPool.free c element, p.events⟩

/-- Member `try_construct(args...)`: `void* mem = this->try_allocate();
if (!mem) return 0; element = new (mem) element_type(args...); return element;`.
No statement of the member handles an exception of the constructor. -/
def try_construct (c : Config) (E : ElementType Args Elem) (p : object_pool Args)
    (args : Args) : Completion × object_pool Args :=
  let r := p.try_allocate c
  if r.1 = 0 then (.returns 0, r.2)
  else
    match E.construct args with
    | none => (.throws, ⟨r.2.m_memoryPool, .ctor_call r.1 args :: r.2.events⟩)
    | some e =>
      (.returns r.1,
        ⟨r.2.m_memoryPool.with_mem (place c E r.2.m_memoryPool.m_freeList.mem r.1 e),
          .ctor_call r.1 args :: r.2.events⟩)

/-- First statement of `destroy(element)`: `element->~element_type();`. -/
def destroy_dtor (p : object_pool Args) (element : Nat) : object_pool Args :=
  ⟨p.m_memoryPool, .dtor_call element :: p.events⟩

/-- Member `destroy(element)`: `element->~element_type(); this->free(element);`. -/
def destroy (c : Config) (p : object_pool Args) (element : Nat) : object_pool Args :=
  (p.destroy_dtor element).free c element

end object_pool

/-- Modelled from the spec: the class `shared_memory_pool` that
`shared_object_pool` uses and that is not among the sources: the blocking
resource pool, a raw pool wrapped "with a token count initialized to
capacity".  The header at hand has this class under the name
`counting_memory_pool`. -/
abbrev shared_memory_pool := counting_memory_pool

/-- State of a `shared_object_pool`: the member `m_memoryPool` and the ghost
list of constructor and destructor calls. -/
structure shared_object_pool (Args : Type) where
  m_memoryPool : shared_memory_pool
  events : List (ElemEvent Args)

namespace shared_object_pool

variable {Args Elem : Type}

/-- The implicit constructor: `m_memoryPool` is default constructed. -/
def ctor (c : Config) (mem : Memory) (base : Nat) : Option (shared_object_pool Args) :=
  (counting_memory_pool.ctor c mem base).map (fun p => ⟨p, []⟩)

/-- Destructor `~shared_object_pool()`.  Its body holds a todo comment and no
statement.  The result says whether a check failed (none is made) and gives
the pool as the destructor leaves it. -/
def dtor (p : shared_object_pool Args) : Bool × shared_object_pool Args := (false, p)

/-- Member `capacity()`: `return TNumElem;`. -/
def capacity (c : Config) (_p : shared_object_pool Args) : Nat := c.numElem

/-- Member `empty()`: `return m_memoryPool.empty();`. -/
def empty (p : shared_object_pool Args) : Bool := p.m_memoryPool.empty

/-- Member `size()`: `return m_memoryPool.size();`. -/
def size (c : Config) (p : shared_object_pool Args) : Nat := p.m_memoryPool.size c

/-- Member `allocate()`: `m_memoryPool.allocate()`; `none` when the caller
stays blocked. -/
def allocate (c : Config) (p : shared_object_pool Args) :
    Option (Nat × shared_object_pool Args) :=
  match p.m_memoryPool.allocate c with
  | none => none
  | some r => some (r.1, ⟨r.2, p.events⟩)

/-- Member `try_allocate()`: `m_memoryPool.try_allocate()`. -/
def try_allocate (c : Config) (p : shared_object_pool Args) :
    Nat × shared_object_pool Args :=
  let r := p.m_memoryPool.try_allocate c
  (r.1, ⟨r.2, p.events⟩)

/-- Member `try_allocate_for(d)`: `m_memoryPool.try_allocate_for(d)`. -/
def try_allocate_for (c : Config) (p : shared_object_pool Args) (d : Int) :
    Nat × shared_object_pool Args :=
  let r := p.m_memoryPool.try_allocate_for c d
  (r.1, ⟨r.2, p.events⟩)

/-- Member `free(element)`: `m_memoryPool.free(element)`. -/
def free (c : Config) (p : shared_object_pool Args) (element : Nat) :
    shared_object_pool Args :=
  ⟨p.m_memoryPool.free c element, p.events⟩

/-- The statement `element = new (mem) element_type(args...)` followed by
`return element;`, common to all constructing members. -/
def construct_at (c : Config) (E : ElementType Args Elem) (p : shared_object_pool Args)
    (mem : Nat) (args : Args) : Completion × shared_object_pool Args :=
  match E.construct args with
  | none => (.throws, ⟨p.m_memoryPool, .ctor_call mem args :: p.events⟩)
  | some e =>
    (.returns mem,
      ⟨p.m_memoryPool.with_mem
          (place c E p.m_memoryPool.m_memoryPool.m_freeList.mem mem e),
        .ctor_call mem args :: p.events⟩)

/-- Member `construct(args...)`: `void* mem = this->allocate();
element = new (mem) element_type(args...); return element;`; `none` when the
caller stays blocked in `allocate`. -/
def construct (c : Config) (E : ElementType Args Elem) (p : shared_object_pool Args)
    (args : Args) : Option (Completion × shared_object_pool Args) :=
  match p.allocate c with
  | none => none
  | some r => some (r.2.construct_at c E r.1 args)

/-- Member `try_construct(args...)`: `void* mem = this->try_allocate();
if (!mem) return 0; element = new (mem) element_type(args...); return element;`. -/
def try_construct (c : Config) (E : ElementType Args Elem) (p : shared_object_pool Args)
    (args : Args) : Completion × shared_object_pool Args :=
  let r := p.try_allocate c
  if r.1 = 0 then (.returns 0, r.2) else r.2.construct_at c E r.1 args

/-- Member `try_construct_for(d, args...)`: as `try_construct`, with
`this->try_allocate_for(d)`. -/
def try_construct_for (c : Config) (E : ElementType Args Elem)
    (p : shared_object_pool Args) (d : Int) (args : Args) :
    Completion × shared_object_pool Args :=
  let r := p.try_allocate_for c d
  if r.1 = 0 then (.returns 0, r.2) else r.2.construct_at c E r.1 args

/-- First statement of `destroy(element)`: `element->~element_type();`. -/
def destroy_dtor (p : shared_object_pool Args) (element : Nat) : shared_object_pool Args :=
  ⟨p.m_memoryPool, .dtor_call element :: p.events⟩

/-- Member `destroy(element)`: `element->~element_type(); this->free(element);`. -/
def destroy (c : Config) (p : shared_object_pool Args) (element : Nat) :
    shared_object_pool Args :=
  (p.destroy_dtor element).free c element

end shared_object_pool

/-- An element type for the examples: a number built from one argument; its
constructor throws on the argument zero, and byte `i` of the representation
is the `i`-th base 256 digit of the number. -/
def demoElement : ElementType Nat Nat :=
  ⟨fun n => if n = 0 then none else some n,
    fun e i => ⟨e / 256 ^ i % 256, Nat.mod_lt _ (by decide)⟩⟩

/-- Deciding `free_list.IsChain` by following the list. -/
instance free_list.IsChain.decide (P : Nat) (mem : Memory) :
    (p : Nat) → (l : List Nat) → Decidable (free_list.IsChain P mem p l)
  | p, [] => inferInstanceAs (Decidable (p = 0))
  | p, a :: l =>
    have := free_list.IsChain.decide P mem (next P mem a) l
    inferInstanceAs (Decidable (p = a ∧ a ≠ 0 ∧ free_list.IsChain P mem (next P mem a) l))

instance PoolInv.decide (c : Config) (base : Nat) (p : memory_pool) (live : List Nat) :
    Decidable (PoolInv c base p live) :=
  inferInstanceAs (Decidable (_ ∧ _))

instance CountingInv.decide (c : Config) (base : Nat) (p : counting_memory_pool)
    (live : List Nat) : Decidable (CountingInv c base p live) :=
  inferInstanceAs (Decidable (_ ∧ _))

/-! ## The exclusion guard of `memory_pool`

The members of `memory_pool` once more, now with the list of guard events
(`lock_guard<mutex_type> lock(*this)` acquires, the end of the scope
releases) that a call produces. -/

/-- An event on the exclusion guard of a pool. -/
inductive GuardEvent where
  | acquire
  | release
deriving DecidableEq

/-- Member `memory_pool::empty()` with its guard events:
`lock_guard<mutex_type> lock(*this); return m_freeList.empty();`. -/
def memory_pool.empty_guarded (p : memory_pool) : Bool × List GuardEvent :=
  (p.m_freeList.empty, [.acquire, .release])

/-- Member `memory_pool::allocate()` with its guard events:
`lock_guard<mutex_type> lock(*this); if (empty()) return 0;
else return m_freeList.allocate();`.  The condition calls the member `empty()`
of the pool, whose own guard events happen inside the scope of `lock`. -/
def memory_pool.allocate_guarded (c : Config) (p : memory_pool) :
    (Nat × memory_pool) × List GuardEvent :=
  let e := p.empty_guarded
  if e.1 then ((0, p), [.acquire] ++ e.2 ++ [.release])
  else
    let r := p.m_freeList.allocate c.ptrSize
    ((r.1, { p with m_freeList := r.2 }), [.acquire] ++ e.2 ++ [.release])

/-- Member `memory_pool::free(chunk)` with its guard events:
`lock_guard<mutex_type> lock(*this); m_freeList.free(chunk);`. -/
def memory_pool.free_guarded (c : Config) (p : memory_pool) (chunk : Nat) :
    memory_pool × List GuardEvent :=
  ({ p with m_freeList := p.m_freeList.free c.ptrSize chunk }, [.acquire, .release])

/-- A guard that is not recursive, run on a list of events by one thread
that starts without holding it: `none` when the thread acquires the guard
while it holds it (the thread blocks on itself) or releases a guard it does
not hold; otherwise whether the guard is held at the end. -/
def GuardEvent.run_non_recursive : Bool → List GuardEvent → Option Bool
  | held, [] => some held
  | held, .acquire :: es => if held then none else GuardEvent.run_non_recursive true es
  | held, .release :: es => if held then GuardEvent.run_non_recursive false es else none

/-! ## The guard of `counting_memory_pool`

`counting_memory_pool` instantiates its pool as
`memory_pool<TElement, TNumElem, mutex>`.  The members of this pool return
when every acquisition of the guard that the call makes returns. -/

/-- The class `mutex` is declared in `mutex.hpp`, which is not among the
sources.  What its `lock()` does when the calling thread holds the mutex
already is a parameter of the model: `relock_returns` is `true` when the call
returns (the owner may lock again) and `false` when the caller blocks. -/
structure mutex where
  relock_returns : Bool
deriving DecidableEq

/-- One thread runs a list of guard events on the mutex `m`, which no other
thread holds and which it holds `depth` times itself: the depth at the end,
or `none` when an acquisition does not return (the thread holds the mutex and
`m` does not let its owner lock again) or a release finds the mutex not
held. -/
def GuardEvent.run (m : mutex) : Nat → List GuardEvent → Option Nat
  | depth, [] => some depth
  | depth, .acquire :: es =>
    if depth = 0 ∨ m.relock_returns = true then GuardEvent.run m (depth + 1) es else none
  | depth, .release :: es =>
    if depth = 0 then none else GuardEvent.run m (depth - 1) es

/-- Member `memory_pool::empty()` of a pool with the guard `m`; `none` when
the caller blocks in an acquisition of the guard. -/
def memory_pool.empty_locked (m : mutex) (p : memory_pool) : Option Bool :=
  match GuardEvent.run m 0 p.empty_guarded.2 with
  | none => none
  | some _ => some p.empty_guarded.1

/-- Member `memory_pool::allocate()` of a pool with the guard `m`; `none` when
the caller blocks in an acquisition of the guard. -/
def memory_pool.allocate_locked (m : mutex) (c : Config) (p : memory_pool) :
    Option (Nat × memory_pool) :=
  match GuardEvent.run m 0 (p.allocate_guarded c).2 with
  | none => none
  | some _ => some (p.allocate_guarded c).1

/-- Member `memory_pool::free(chunk)` of a pool with the guard `m`; `none`
when the caller blocks in an acquisition of the guard. -/
def memory_pool.free_locked (m : mutex) (c : Config) (p : memory_pool) (chunk : Nat) :
    Option memory_pool :=
  match GuardEvent.run m 0 (p.free_guarded c chunk).2 with
  | none => none
  | some _ => some (p.free_guarded c chunk).1

namespace counting_memory_pool

/-- Member `allocate()` with the guard `m` of the pool inside:
`m_numElements.wait(); return m_memoryPool.allocate();`.  The result is `none`
when the caller stays blocked, in `wait()` or in an acquisition of the
guard. -/
def allocate_locked (m : mutex) (c : Config) (p : counting_memory_pool) :
    Option (Nat × counting_memory_pool) :=
  match p.m_numElements.wait with
  | none => none
  | some s =>
    match p.m_memoryPool.allocate_locked m c with
    | none => none
    | some r => some (r.1, ⟨r.2, s⟩)

/-- Member `try_allocate()` with the guard `m` of the pool inside:
`if (m_numElements.try_wait()) return m_memoryPool.allocate(); else return 0;`.
The result is `none` when the caller blocks in an acquisition of the guard. -/
def try_allocate_locked (m : mutex) (c : Config) (p : counting_memory_pool) :
    Option (Nat × counting_memory_pool) :=
  let w := p.m_numElements.try_wait
  if w.1 then
    match p.m_memoryPool.allocate_locked m c with
    | none => none
    | some r => some (r.1, ⟨r.2, w.2⟩)
  else some (0, ⟨p.m_memoryPool, w.2⟩)

/-- Member `free(chunk)` with the guard `m` of the pool inside:
`m_memoryPool.free(chunk); m_numElements.post();`. -/
def free_locked (m : mutex) (c : Config) (p : counting_memory_pool) (chunk : Nat) :
    Option counting_memory_pool :=
  match p.m_memoryPool.free_locked m c chunk with
  | none => none
  | some q => some ⟨q, p.m_numElements.post⟩

end counting_memory_pool

/-! ## Signals of a thread, C++11 backend (`cxx11/thread.hpp`)

A `signal_set` is a `std::uint32_t`, a natural number below `2 ^ 32`.  The
functions take the `signalFlags` of the thread data and give the new flags;
the mutex and the condition variable of the thread data do not change the
flags. -/

namespace cxx11

/-- The operator `~` on a `std::uint32_t`. -/
def bit_not (x : Nat) : Nat := x ^^^ 4294967295

/-- Member `thread::clear_signals(flags)`: `m_data->signalFlags &= ~flags;`. -/
def clear_signals (signalFlags flags : Nat) : Nat := signalFlags &&& bit_not flags

/-- Member `thread::set_signals(flags)`: `m_data->signalFlags |= flags;`. -/
def set_signals (signalFlags flags : Nat) : Nat := signalFlags ||| flags

/-- Function `this_thread::try_wait_for_any_signal()`:
`temp = data->signalFlags; data->signalFlags = 0; return temp;`.  The result
is the returned value and the new flags. -/
def try_wait_for_any_signal (signalFlags : Nat) : Nat × Nat :=
  let temp := signalFlags
  (temp, 0)

/-- Function `this_thread::try_wait_for_all_signals(flags)`:
`temp = (data->signalFlags & flags) == flags ? flags : 0;
data->signalFlags &= ~temp; return temp;`.  The result is the returned value
and the new flags. -/
def try_wait_for_all_signals (signalFlags flags : Nat) : Nat × Nat :=
  let temp := if signalFlags &&& flags = flags then flags else 0
  (temp, signalFlags &&& bit_not temp)

end cxx11

/-! ## Signals of a thread, CMSIS backend (`keil_cmsis_rtos/thread.hpp`) -/

namespace cmsis

/-- The status codes `osStatus` of CMSIS-RTOS. -/
inductive osStatus where
  | osOK
  | osEventSignal
  | osEventMessage
  | osEventMail
  | osEventTimeout
  | osErrorParameter
  | osErrorResource
  | osErrorTimeoutResource
  | osErrorISR
  | osErrorISRRecursive
  | osErrorPriority
  | osErrorNoMemory
  | osErrorValue
  | osErrorOS
deriving DecidableEq

/-- The result `osEvent` of `osSignalWait`, as far as the wrapper reads it:
the status and `value.signals`. -/
structure osEvent where
  status : osStatus
  signals : Nat

/-- Conversion to `thread::signal_set`, a `std::uint16_t`. -/
def to_signal_set (x : Nat) : Nat := x % 65536

/-- Function `this_thread::try_wait_for_any_signal()`, as a function of the
result of `osSignalWait(0, 0)`.  `Except.error s` stands for
`WEOS_THROW_SYSTEM_ERROR(cmsis_error::cmsis_error_t(s), ...)`. -/
def try_wait_for_any_signal (result : osEvent) : Except osStatus Nat :=
  if result.status = .osEventSignal then .ok (to_signal_set result.signals)
  else if result.status ≠ .osOK ∧ result.status ≠ .osEventTimeout then .error result.status
  else .ok 0

/-- Function `this_thread::try_wait_for_all_signals(flags)`, as a function of
the result of `osSignalWait(flags, 0)`. -/
def try_wait_for_all_signals (result : osEvent) : Except osStatus Bool :=
  if result.status = .osEventSignal then .ok true
  else if result.status ≠ .osOK ∧ result.status ≠ .osEventTimeout then .error result.status
  else .ok false

end cmsis

/-! ## `condition_variable` (`keil_cmsis_rtos/condition_variable.cpp`)

The waiter nodes live on the stacks of the waiting threads; the model keeps
them in a map from addresses to nodes, the null pointer is address `0`.  The
loops run with fuel, `none` means that the fuel was used up.  Every access to
a field of a node is recorded, in the order of execution, in the ghost list
`events`.  `lock_guard<mutex> locker(m_mutex)` is transparent: a member runs
from its first to its last statement without another member in between. -/

deriving instance DecidableEq for semaphore

/-- Modelled from the spec: the struct `WaitingThread` that
`condition_variable.hpp` declares (the header is not among the sources): "a
forward link to the next waiter, a private binary wait/signal, and a dequeued
flag". -/
structure WaitingThread where
  next : Nat
  signal : semaphore
  dequeued : Bool
deriving DecidableEq

/-- Modelled from the spec: the constructor of `WaitingThread`; a new waiter
has no successor, no signal pending and is not dequeued. -/
def WaitingThread.ctor : WaitingThread := ⟨0, ⟨0⟩, false⟩

/-- An access to a waiter node, or an operation on the lock of the caller of
`wait`. -/
inductive CvEvent where
  | read_next (w : Nat)
  | write_next (w : Nat)
  | read_dequeued (w : Nat)
  | write_dequeued (w : Nat)
  | post (w : Nat)
  | wait (w : Nat)
  | release_lock
  | acquire_lock
deriving DecidableEq

/-- The node of a `post` event. -/
def CvEvent.post_target : CvEvent → Option Nat
  | .post w => some w
  | _ => none

/-- A call that ends normally with a result, or in a failed `WEOS_ASSERT`. -/
inductive Checked (α : Type) where
  | ok (a : α)
  | assertion_failed
deriving DecidableEq

/-- State of a `condition_variable`: the member `m_waitingThreads`, the
waiter nodes in memory and the ghost list of events. -/
structure condition_variable where
  m_waitingThreads : Nat
  nodes : Nat → WaitingThread
  events : List CvEvent

namespace condition_variable

/-- Constructor `condition_variable()`: `m_waitingThreads(0)`. -/
def ctor (nodes : Nat → WaitingThread) : condition_variable := ⟨0, nodes, []⟩

/-- Destructor `~condition_variable()`: `WEOS_ASSERT(m_waitingThreads == 0);`. -/
def dtor (cv : condition_variable) : Checked Unit :=
  if cv.m_waitingThreads = 0 then .ok () else .assertion_failed

/-- The block `next = m_waitingThreads->next; m_waitingThreads->dequeued = true;
m_waitingThreads->signal.post(); m_waitingThreads = next;`, which is the body
of the `if` in `notify_one` and of the `while` in `notify_all`. -/
def signal_head (cv : condition_variable) : condition_variable :=
  let w := cv.m_waitingThreads
  let next := (cv.nodes w).next
  let n1 := Function.update cv.nodes w { cv.nodes w with dequeued := true }
  let n2 := Function.update n1 w { n1 w with signal := (n1 w).signal.post }
  ⟨next, n2, cv.events ++ [.read_next w, .write_dequeued w, .post w]⟩

/-- Member `notify_one()`. -/
def notify_one (cv : condition_variable) : condition_variable :=
  if cv.m_waitingThreads ≠ 0 then cv.signal_head else cv

/-- Member `notify_all()`: `while (m_waitingThreads) { ... }`. -/
def notify_all : Nat → condition_variable → Option condition_variable
  | 0, cv => if cv.m_waitingThreads = 0 then some cv else none
  | fuel + 1, cv =>
    if cv.m_waitingThreads = 0 then some cv else notify_all fuel cv.signal_head

/-- The loop `while (iter->next) iter = iter->next;` of `enqueue`; the result
is the last value of `iter` and the events. -/
def enqueue_loop (nodes : Nat → WaitingThread) :
    Nat → Nat → List CvEvent → Option (Nat × List CvEvent)
  | 0, iter, ev =>
    if (nodes iter).next = 0 then some (iter, ev ++ [.read_next iter]) else none
  | fuel + 1, iter, ev =>
    if (nodes iter).next = 0 then some (iter, ev ++ [.read_next iter])
    else enqueue_loop nodes fuel (nodes iter).next
      (ev ++ [.read_next iter, .read_next iter])

/-- Member `enqueue(w)`. -/
def enqueue (fuel : Nat) (cv : condition_variable) (w : Nat) : Option condition_variable :=
  if cv.m_waitingThreads = 0 then some ⟨w, cv.nodes, cv.events⟩
  else
    match enqueue_loop cv.nodes fuel cv.m_waitingThreads cv.events with
    | none => none
    | some r =>
      some ⟨cv.m_waitingThreads,
        Function.update cv.nodes r.1 { cv.nodes r.1 with next := w },
        r.2 ++ [.write_next r.1]⟩

/-- The loop `while (iter->next != &w) { iter = iter->next; WEOS_ASSERT(iter); }`
of `maybeDequeue`. -/
def dequeue_loop (nodes : Nat → WaitingThread) (w : Nat) :
    Nat → Nat → List CvEvent → Option (Checked (Nat × List CvEvent))
  | 0, iter, ev =>
    if (nodes iter).next = w then some (.ok (iter, ev ++ [.read_next iter])) else none
  | fuel + 1, iter, ev =>
    if (nodes iter).next = w then some (.ok (iter, ev ++ [.read_next iter]))
    else if (nodes iter).next = 0 then some .assertion_failed
    else dequeue_loop nodes w fuel (nodes iter).next
      (ev ++ [.read_next iter, .read_next iter])

/-- Member `maybeDequeue(w)`. -/
def maybeDequeue (fuel : Nat) (cv : condition_variable) (w : Nat) :
    Option (Checked condition_variable) :=
  if (cv.nodes w).dequeued then
    some (.ok ⟨cv.m_waitingThreads, cv.nodes, cv.events ++ [.read_dequeued w]⟩)
  else if cv.m_waitingThreads = 0 then some .assertion_failed
  else if cv.m_waitingThreads = w then
    some (.ok ⟨(cv.nodes w).next, cv.nodes,
      cv.events ++ [.read_dequeued w, .read_next w]⟩)
  else
    match dequeue_loop cv.nodes w fuel cv.m_waitingThreads
        (cv.events ++ [.read_dequeued w]) with
    | none => none
    | some .assertion_failed => some .assertion_failed
    | some (.ok r) =>
      some (.ok ⟨cv.m_waitingThreads,
        Function.update cv.nodes r.1 { cv.nodes r.1 with next := (cv.nodes w).next },
        r.2 ++ [.read_next w, .write_next r.1]⟩)

/-- The declaration `WaitingThread w;` in `wait`: a new node at address `w`. -/
def new_waiter (cv : condition_variable) (w : Nat) : condition_variable :=
  ⟨cv.m_waitingThreads, Function.update cv.nodes w WaitingThread.ctor, cv.events⟩

/-- Modelled from the spec: the constructor of `detail::lock_releaser` (declared
in the absent `condition_variable.hpp`), which "releases the externally held
lock".  The lock of the caller is the flag next to the condition variable. -/
def release_lock (s : condition_variable × Bool) : condition_variable × Bool :=
  (⟨s.1.m_waitingThreads, s.1.nodes, s.1.events ++ [.release_lock]⟩, false)

/-- Modelled from the spec: the destructor of `detail::lock_releaser`, which
"re-acquires the externally held lock before returning". -/
def acquire_lock (s : condition_variable × Bool) : condition_variable × Bool :=
  (⟨s.1.m_waitingThreads, s.1.nodes, s.1.events ++ [.acquire_lock]⟩, true)

/-- The statements of `wait(lock)` up to the point where the caller blocks:
`WaitingThread w; enqueue(w); detail::lock_releaser releaser(lock);`. -/
def wait_enter (fuel : Nat) (s : condition_variable × Bool) (w : Nat) :
    Option (condition_variable × Bool) :=
  match enqueue fuel (s.1.new_waiter w) w with
  | none => none
  | some cv => some (release_lock (cv, s.2))

/-- The statement `w.signal.wait();` of `wait(lock)`; `none` while the signal
of the node has not been posted (the caller stays blocked). -/
def wait_signal (s : condition_variable × Bool) (w : Nat) :
    Option (condition_variable × Bool) :=
  match (s.1.nodes w).signal.wait with
  | none => none
  | some sem =>
    some (⟨s.1.m_waitingThreads,
      Function.update s.1.nodes w { s.1.nodes w with signal := sem },
      s.1.events ++ [.wait w]⟩, s.2)

/-- Member `wait(lock)`, with what the other threads do while the caller is
blocked given as `others`: `WaitingThread w; enqueue(w);
detail::lock_releaser releaser(lock); w.signal.wait();` and the end of the
scope, where the releaser locks the lock again. -/
def wait (fuel : Nat) (s : condition_variable × Bool) (w : Nat)
    (others : condition_variable → condition_variable) :
    Option (condition_variable × Bool) :=
  match wait_enter fuel s w with
  | none => none
  | some s1 =>
    match wait_signal (others s1.1, s1.2) w with
    | none => none
    | some s2 => some (acquire_lock s2)

/-- The nodes whose signal was posted, in the order of the posts. -/
def posted (cv : condition_variable) : List Nat :=
  cv.events.filterMap CvEvent.post_target

/-- The nodes met when following the `next` links from `p` until a null
pointer, for at most `fuel` steps. -/
def queue_from (nodes : Nat → WaitingThread) : Nat → Nat → List Nat
  | 0, _ => []
  | fuel + 1, p => if p = 0 then [] else p :: queue_from nodes fuel (nodes p).next

/-- Predicate `IsQueue nodes p l`: following the `next` links from `p` visits
exactly the nodes `l`, in this order, and then reaches the null pointer. -/
def IsQueue (nodes : Nat → WaitingThread) : Nat → List Nat → Prop
  | p, [] => p = 0
  | p, a :: l => p = a ∧ a ≠ 0 ∧ IsQueue nodes (nodes a).next l

/-- Predicate `IsSeg nodes p l q`: following the `next` links from `p` visits
exactly the nodes `l`, in this order, and then arrives at `q`. -/
def IsSeg (nodes : Nat → WaitingThread) : Nat → List Nat → Nat → Prop
  | p, [], q => p = q
  | p, a :: l, q => p = a ∧ a ≠ 0 ∧ IsSeg nodes (nodes a).next l q

/-- Enqueueing new nodes at the addresses `ws`, one after the other. -/
def enqueue_all (fuel : Nat) : condition_variable → List Nat → Option condition_variable
  | cv, [] => some cv
  | cv, w :: ws =>
    match enqueue fuel (cv.new_waiter w) w with
    | none => none
    | some cv1 => enqueue_all fuel cv1 ws

end condition_variable

/-- Deciding `condition_variable.IsQueue` by following the list. -/
instance condition_variable.IsQueue.decide (nodes : Nat → WaitingThread) :
    (p : Nat) → (l : List Nat) → Decidable (condition_variable.IsQueue nodes p l)
  | p, [] => inferInstanceAs (Decidable (p = 0))
  | p, a :: l =>
    have := condition_variable.IsQueue.decide nodes (nodes a).next l
    inferInstanceAs
      (Decidable (p = a ∧ a ≠ 0 ∧ condition_variable.IsQueue nodes (nodes a).next l))

/-- The calls on a `condition_variable`: a thread enqueues a new node (the
start of a wait), a notification, or a waiter that gives up (the end of a
timed wait). -/
inductive CvOp where
  | enqueue (w : Nat)
  | notify_one
  | notify_all
  | maybeDequeue (w : Nat)

/-- A `condition_variable` with the list of the nodes that wait in it. -/
structure CvRun where
  cv : condition_variable
  waiting : List Nat

/-- One call on a `condition_variable`.  The result is `none` when the caller
breaks the contract (a node at the null address or at the address of a node
that is still queued; `maybeDequeue` for a node that never was enqueued) or
when the call does not return normally. -/
def CvRun.step (s : CvRun) : CvOp → Option CvRun
  | .enqueue w =>
    if w = 0 ∨ w ∈ s.waiting then none
    else
      match condition_variable.enqueue s.waiting.length (s.cv.new_waiter w) w with
      | none => none
      | some cv => some ⟨cv, s.waiting ++ [w]⟩
  | .notify_one => some ⟨s.cv.notify_one, s.waiting.tail⟩
  | .notify_all =>
    match s.cv.notify_all s.waiting.length with
    | none => none
    | some cv => some ⟨cv, []⟩
  | .maybeDequeue w =>
    if w ∈ s.waiting ∨ (s.cv.nodes w).dequeued = true then
      match s.cv.maybeDequeue s.waiting.length w with
      | some (.ok cv) =>
        some ⟨cv, if (s.cv.nodes w).dequeued then s.waiting else s.waiting.erase w⟩
      | _ => none
    else none

/-- A sequence of calls on a `condition_variable`. -/
def CvRun.exec : CvRun → List CvOp → Option CvRun
  | s, [] => some s
  | s, op :: ops =>
    match s.step op with
    | none => none
    | some t => CvRun.exec t ops

/-- Waiter nodes that are all new. -/
def demoNodes : Nat → WaitingThread := fun _ => WaitingThread.ctor

/-- A queue of three waiters at the addresses 10, 20 and 30, none of them
signalled. -/
def demoQueue : condition_variable :=
  ⟨10, fun a =>
    if a = 10 then ⟨20, ⟨0⟩, false⟩
    else if a = 20 then ⟨30, ⟨0⟩, false⟩
    else WaitingThread.ctor, []⟩

/-- The waiter node that an event accesses; the operations on the lock of the
caller of `wait` access no node. -/
def CvEvent.node : CvEvent → Option Nat
  | .read_next w => some w
  | .write_next w => some w
  | .read_dequeued w => some w
  | .write_dequeued w => some w
  | .post w => some w
  | .wait w => some w
  | .release_lock => none
  | .acquire_lock => none

/-- In a list of events, in the order of execution, no node is accessed after
its signal was posted. -/
def CvEvent.quiet_after_post : List CvEvent → Prop
  | [] => True
  | e :: es =>
    (∀ w, e = .post w → ∀ e2 ∈ es, CvEvent.node e2 ≠ some w) ∧ CvEvent.quiet_after_post es

/-! ## The sets of all signals (`cxx11/thread.hpp`, `keil_cmsis_rtos/thread.hpp`) -/

/-- Member `thread::signals_count()` of the C++11 backend: `return 32;`. -/
def cxx11.signals_count : Nat := 32

/-- Member `thread::all_signals()` of the C++11 backend:
`return std::numeric_limits<signal_set>::max();` with `signal_set` a
`std::uint32_t`. -/
def cxx11.all_signals : Nat := 2 ^ 32 - 1

/-- Constant `native_thread_traits::signals_count = osFeature_Signals`. -/
def cmsis.signals_count (osFeature_Signals : Nat) : Nat := osFeature_Signals

/-- Constant `native_thread_traits::all_signals
= (std::uint32_t(1) << osFeature_Signals) - 1`: the shift and the subtraction
are those of a `std::uint32_t`, the result is converted to the
`std::uint16_t` of `signal_set`. -/
def cmsis.all_signals (osFeature_Signals : Nat) : Nat :=
  cmsis.to_signal_set (((1 <<< osFeature_Signals) % 2 ^ 32 + (2 ^ 32 - 1)) % 2 ^ 32)

/-! ## `this_thread::sleep_for` and `sleep_until` (`keil_cmsis_rtos/thread.hpp`)

`RepT` is a signed integer type of `w` bits.  The input of `sleep_for` is the
value of `chrono::duration_cast<chrono::milliseconds>(d).count()`, which the
function converts to `RepT`; `osDelay` is a parameter, a function from the
delay to the status it returns. -/

namespace cmsis

/-- The value that a `RepT` of `w` bits holds after an operation with the
exact result `x` (two's complement). -/
def wrap (w : Nat) (x : Int) : Int := (x + 2 ^ (w - 1)) % 2 ^ w - 2 ^ (w - 1)

/-- One round of the loop of `sleep_for` or `sleep_until`: the value of
`delay`, the argument that `osDelay` receives (a `uint32_t`), the value of the
variable `ticks` that the assertion reads and the status that `osDelay`
returned. -/
structure SleepRound where
  delay : Int
  millisec : Nat
  ticks : Int
  status : osStatus
deriving DecidableEq

/-- The condition of the assertion in the loops of `sleep_for` and
`sleep_until`: `(ticks == 0 && status == osOK)
|| (ticks != 0 && status == osEventTimeout)`. -/
def SleepRound.asserted (r : SleepRound) : Bool :=
  (decide (r.ticks = 0) && decide (r.status = .osOK))
    || (decide (r.ticks ≠ 0) && decide (r.status = .osEventTimeout))

/-- Conversion of a `RepT` to the `uint32_t` parameter of `osDelay`. -/
def to_millisec (x : Int) : Nat := (x % 2 ^ 32).toNat

/-- The loop `while (true) { RepT delay = ticks; if (delay > 0xFFFE)
delay = 0xFFFE; ticks -= delay; osStatus status = osDelay(delay);
WEOS_ASSERT(...); if (delay == 0) return; }` of `sleep_for`; one unit of fuel
per round, `none` when the fuel is used up.  The result lists the rounds. -/
def sleep_for_loop (w : Nat) (osDelay : Nat → osStatus) :
    Nat → Int → List SleepRound → Option (List SleepRound)
  | 0, _, _ => none
  | fuel + 1, ticks, rounds =>
    let delay := if ticks > 65534 then 65534 else ticks
    let ticks := wrap w (ticks - delay)
    let status := osDelay (to_millisec delay)
    let rounds := rounds ++ [⟨delay, to_millisec delay, ticks, status⟩]
    if delay = 0 then some rounds else sleep_for_loop w osDelay fuel ticks rounds

/-- Function `this_thread::sleep_for(d)`: `RepT ticks =
duration_cast<milliseconds>(d).count(); if (ticks <= 0) ticks = 0;
else ++ticks;` and the loop.  The initialisation converts `count`, the value
of `count()` in the representation type of `chrono::milliseconds`, to
`RepT`. -/
def sleep_for (w : Nat) (osDelay : Nat → osStatus) (fuel : Nat) (count : Int) :
    Option (List SleepRound) :=
  let ticks := wrap w count
  let ticks := if ticks ≤ 0 then 0 else wrap w (ticks + 1)
  sleep_for_loop w osDelay fuel ticks []

/-- One round of the loop of `this_thread::sleep_until(timePoint)`, for the
value `ticks` of `timePoint - ClockT::now()` in milliseconds: `if (ticks < 0)
ticks = 0; else if (ticks > 0xFFFE) ticks = 0xFFFE; status = osDelay(ticks);
WEOS_ASSERT(...)`.  Here the assertion reads the delay itself. -/
def sleep_until_round (osDelay : Nat → osStatus) (ticks : Int) : SleepRound :=
  let ticks := if ticks < 0 then 0 else if ticks > 65534 then 65534 else ticks
  ⟨ticks, to_millisec ticks, ticks, osDelay (to_millisec ticks)⟩

/-- The behaviour of `osDelay` that the assertion of `sleep_until` encodes:
`osOK` for a delay of zero, `osEventTimeout` for every other delay. -/
def osDelay_model (millisec : Nat) : osStatus :=
  if millisec = 0 then .osOK else .osEventTimeout

end cmsis

/-! ## `function` (`common/functional.hpp`)

The state of a `function<TResult(TArgs...)>` is the pointer `m_invoker`; the
address of the member `m_storage` is a constant of the object.  The calls of
the virtual members `destroy` and `destroyAndDeallocate`, which end the life
of the target, are recorded in the ghost list `events`. -/

/-- A call that releases a target: `invoker->destroy()` or
`invoker->destroyAndDeallocate()`. -/
inductive InvokerEvent where
  | destroy (invoker : Nat)
  | destroyAndDeallocate (invoker : Nat)
deriving DecidableEq

/-- State of a `function`: the address of `m_storage`, the member `m_invoker`
and the ghost list of events. -/
structure function where
  storage : Nat
  m_invoker : Nat
  events : List InvokerEvent
deriving DecidableEq

namespace function

/-- Constructors `function()` and `function(nullptr_t)`: `m_invoker(0)`. -/
def ctor (storage : Nat) : function := ⟨storage, 0, []⟩

/-- Constructor `function(TCallable f)`: nothing is stored for a null function
pointer (`notNull` is false); a small callable is constructed in `m_storage`,
every other one in memory from `new`, at the address `heap`. -/
def ctor_callable (storage : Nat) (notNull canStoreInplace : Bool) (heap : Nat) : function :=
  if notNull then
    if canStoreInplace then ⟨storage, storage, []⟩ else ⟨storage, heap, []⟩
  else ⟨storage, 0, []⟩

/-- Member `release()`: `if (m_invoker == &m_storage) m_invoker->destroy();
else if (m_invoker) m_invoker->destroyAndDeallocate();`. -/
def release (f : function) : function :=
  if f.m_invoker = f.storage then
    { f with events := f.events ++ [.destroy f.m_invoker] }
  else if f.m_invoker ≠ 0 then
    { f with events := f.events ++ [.destroyAndDeallocate f.m_invoker] }
  else f

/-- Operator `operator=(nullptr_t)`: `release(); return *this;`. -/
def assign_nullptr (f : function) : function := f.release

/-- Operator `explicit operator bool()`: `return m_invoker != 0;`. -/
def operator_bool (f : function) : Bool := f.m_invoker != 0

/-- Destructor `~function()`: `release();`. -/
def dtor (f : function) : function := f.release

end function

/-! ## Two threads on one `counting_memory_pool`

Each of the two threads runs the client code `p = pool.allocate(); ...
pool.free(p);` again and again, and may write into the chunk it holds (as the
placement `new` of `shared_object_pool::construct` does).  The statements of
`counting_memory_pool::allocate` and `free` are the atomic steps: the wait on
the semaphore, `m_memoryPool.allocate()` under the guard `m`,
`m_memoryPool.free(chunk)` under the guard `m`, and the post.  A statement on
the pool runs from the acquisition of the guard to its release without a
statement of the other thread in between.  A schedule is a list of actions; a
thread that is blocked, in the wait or in an acquisition of the guard, cannot
act. -/

/-- Where a thread stands: outside of any call and without a chunk, in
`allocate` after `m_numElements.wait()` returned, holding the chunk that
`allocate` returned, or in `free` after `m_memoryPool.free(chunk)`. -/
inductive RacePc where
  | start
  | waited
  | holding (chunk : Nat)
  | pushed
deriving DecidableEq

/-- An action of a schedule: thread `t` runs its next statement, or thread `t`
stores the byte `v` at the address `x` inside the chunk it holds. -/
inductive RaceAct where
  | run (t : Bool)
  | store (t : Bool) (x : Nat) (v : Fin 256)

/-- The pool shared by the two threads and where each thread stands. -/
structure Race where
  pool : counting_memory_pool
  pc : Bool → RacePc

/-- The chunk that a thread holds. -/
def RacePc.held : RacePc → List Nat
  | .holding chunk => [chunk]
  | _ => []

/-- The chunks held by the two threads. -/
def Race.live (s : Race) : List Nat := (s.pc false).held ++ (s.pc true).held

/-- One action; `none` when the thread cannot act: it is blocked in
`m_numElements.wait()` or in an acquisition of the guard `m`, or it stores
outside a chunk it holds. -/
def Race.step (m : mutex) (c : Config) (s : Race) : RaceAct → Option Race
  | .run t =>
    match s.pc t with
    | .start =>
      match s.pool.m_numElements.wait with
      | none => none
      | some sem => some ⟨⟨s.pool.m_memoryPool, sem⟩, Function.update s.pc t .waited⟩
    | .waited =>
      match s.pool.m_memoryPool.allocate_locked m c with
      | none => none
      | some r =>
        some ⟨⟨r.2, s.pool.m_numElements⟩, Function.update s.pc t (.holding r.1)⟩
    | .holding chunk =>
      match s.pool.m_memoryPool.free_locked m c chunk with
      | none => none
      | some q => some ⟨⟨q, s.pool.m_numElements⟩, Function.update s.pc t .pushed⟩
    | .pushed => some ⟨s.pool.free_post, Function.update s.pc t .start⟩
  | .store t x v =>
    match s.pc t with
    | .holding chunk =>
      if chunk ≤ x ∧ x < chunk + c.chunk_size then
        some ⟨s.pool.with_mem (Function.update s.pool.m_memoryPool.m_freeList.mem x v), s.pc⟩
      else none
    | _ => none

/-- A schedule of actions. -/
def Race.exec (m : mutex) (c : Config) : Race → List RaceAct → Option Race
  | s, [] => some s
  | s, a :: as =>
    match s.step m c a with
    | none => none
    | some t => Race.exec m c t as

theorem next_congr (P : Nat) (m1 m2 : Memory) :
    ∀ p : Nat, (∀ x, p ≤ x → x < p + P → m1 x = m2 x) → next P m1 p = next P m2 p := by
  induction P with
  | zero => intro p _; rfl
  | succ P ih =>
    intro p h
    have h0 : m1 p = m2 p := h p (Nat.le_refl p) (by omega)
    have h1 : next P m1 (p + 1) = next P m2 (p + 1) :=
      ih (p + 1) (fun x hx1 hx2 => h x (by omega) (by omega))
    simp only [next, h0, h1]

theorem next_lt (P : Nat) (mem : Memory) : ∀ p : Nat, next P mem p < 256 ^ P := by
  induction P with
  | zero => intro p; simp [next]
  | succ P ih =>
    intro p
    have h1 := ih (p + 1)
    have h2 := (mem p).isLt
    simp only [next, pow_succ]
    omega

theorem set_next_outside (P : Nat) (mem : Memory) (p v x : Nat)
    (h : x < p ∨ p + P ≤ x) : set_next P mem p v x = mem x := by
  unfold set_next
  rw [if_neg]
  omega

theorem set_next_inside (P : Nat) (mem : Memory) (p v x : Nat)
    (h1 : p ≤ x) (h2 : x < p + P) :
    (set_next P mem p v x).val = v / 256 ^ (x - p) % 256 := by
  unfold set_next
  rw [if_pos ⟨h1, h2⟩]

theorem next_set_next_same (P : Nat) (mem : Memory) :
    ∀ p v : Nat, v < 256 ^ P → next P (set_next P mem p v) p = v := by
  induction P with
  | zero => intro p v h; simp at h; simp [next, h]
  | succ P ih =>
    intro p v h
    have hb : (set_next (P + 1) mem p v p).val = v % 256 := by
      rw [set_next_inside (P + 1) mem p v p (Nat.le_refl p) (by omega)]
      simp
    have hr : next P (set_next (P + 1) mem p v) (p + 1)
        = next P (set_next P mem (p + 1) (v / 256)) (p + 1) := by
      apply next_congr
      intro x hx1 hx2
      apply Fin.ext
      rw [set_next_inside (P + 1) mem p v x (by omega) (by omega),
        set_next_inside P mem (p + 1) (v / 256) x hx1 hx2]
      have : x - p = (x - (p + 1)) + 1 := by omega
      rw [this, pow_succ, Nat.mul_comm, Nat.div_div_eq_div_mul]
    have hv : v / 256 < 256 ^ P := by
      rw [pow_succ] at h
      exact Nat.div_lt_of_lt_mul (by rw [Nat.mul_comm]; exact h)
    simp only [next]
    rw [hb, hr, ih (p + 1) (v / 256) hv]
    omega

theorem next_set_next_disjoint (P : Nat) (mem : Memory) (p v q : Nat)
    (h : p + P ≤ q ∨ q + P ≤ p) : next P (set_next P mem p v) q = next P mem q := by
  apply next_congr
  intro x hx1 hx2
  exact set_next_outside P mem p v x (by omega)

theorem mem_chunk_addrs (base cs n a : Nat) :
    a ∈ chunk_addrs base cs n ↔ ∃ i, i < n ∧ a = base + i * cs := by
  unfold chunk_addrs
  simp only [List.mem_map, List.mem_range]
  constructor
  · rintro ⟨i, hi, rfl⟩; exact ⟨i, hi, rfl⟩
  · rintro ⟨i, hi, rfl⟩; exact ⟨i, hi, rfl⟩

theorem chunk_addrs_length (base cs n : Nat) : (chunk_addrs base cs n).length = n := by
  simp [chunk_addrs]

theorem chunk_addrs_succ (base cs n : Nat) :
    chunk_addrs base cs (n + 1) = base :: chunk_addrs (base + cs) cs n := by
  unfold chunk_addrs
  rw [List.range_succ_eq_map, List.map_cons, List.map_map]
  simp only [Nat.zero_mul, Nat.add_zero, List.cons.injEq, true_and]
  apply List.map_congr_left
  intro i _
  simp only [Function.comp, Nat.succ_eq_add_one]
  ring

theorem chunk_addrs_nodup (base cs n : Nat) (hcs : 0 < cs) :
    (chunk_addrs base cs n).Nodup := by
  unfold chunk_addrs
  apply List.Nodup.map _ (List.nodup_range n)
  intro i j h
  have h1 : i * cs = j * cs := by simpa using h
  exact Nat.eq_of_mul_eq_mul_right hcs h1

theorem chunk_addrs_apart (base cs n a b : Nat)
    (ha : a ∈ chunk_addrs base cs n) (hb : b ∈ chunk_addrs base cs n) (hab : a ≠ b) :
    a + cs ≤ b ∨ b + cs ≤ a := by
  obtain ⟨i, _, rfl⟩ := (mem_chunk_addrs base cs n a).1 ha
  obtain ⟨j, _, rfl⟩ := (mem_chunk_addrs base cs n b).1 hb
  rcases Nat.lt_trichotomy i j with h | h | h
  · left
    have : (i + 1) * cs ≤ j * cs := Nat.mul_le_mul_right cs h
    rw [Nat.add_mul] at this
    omega
  · exact absurd (by rw [h]) hab
  · right
    have : (j + 1) * cs ≤ i * cs := Nat.mul_le_mul_right cs h
    rw [Nat.add_mul] at this
    omega

theorem chunk_addrs_bounds (base cs n a : Nat) (ha : a ∈ chunk_addrs base cs n) :
    base ≤ a ∧ a + cs ≤ base + cs * n := by
  obtain ⟨i, hi, rfl⟩ := (mem_chunk_addrs base cs n a).1 ha
  have : (i + 1) * cs ≤ n * cs := Nat.mul_le_mul_right cs hi
  rw [Nat.add_mul, Nat.mul_comm n cs] at this
  omega

namespace free_list

theorem IsChain_congr (P : Nat) (m1 m2 : Memory) :
    ∀ (l : List Nat) (p : Nat), (∀ a ∈ l, next P m1 a = next P m2 a) →
      IsChain P m1 p l → IsChain P m2 p l := by
  intro l
  induction l with
  | nil => intro p _ h; exact h
  | cons a l ih =>
    intro p hl h
    obtain ⟨h1, h2, h3⟩ := h
    refine ⟨h1, h2, ?_⟩
    rw [← hl a (List.mem_cons_self a l)]
    exact ih _ (fun b hb => hl b (List.mem_cons_of_mem a hb)) h3

theorem chain_eq_of_IsChain (P : Nat) (mem : Memory) :
    ∀ (l : List Nat) (fuel p : Nat), IsChain P mem p l → l.length ≤ fuel →
      chain P mem fuel p = l := by
  intro l
  induction l with
  | nil =>
    intro fuel p h _
    have hp : p = 0 := h
    cases fuel <;> simp [chain, hp]
  | cons a l ih =>
    intro fuel p h hlen
    obtain ⟨h1, h2, h3⟩ := h
    cases fuel with
    | zero => simp at hlen
    | succ fuel =>
      subst h1
      simp only [chain, if_neg h2]
      rw [ih fuel _ h3 (by simpa using hlen)]

theorem IsChain_unique (P : Nat) (mem : Memory) (p : Nat) (l1 l2 : List Nat)
    (h1 : IsChain P mem p l1) (h2 : IsChain P mem p l2) : l1 = l2 := by
  have e1 := chain_eq_of_IsChain P mem l1 (l1.length + l2.length) p h1 (by omega)
  have e2 := chain_eq_of_IsChain P mem l2 (l1.length + l2.length) p h2 (by omega)
  exact e1.symm.trans e2

/-- Links `a → a + cs → ... → a + k * cs → null` form the chain of the
`k + 1` chunks starting at `a`. -/
theorem IsChain_chunk_addrs (P : Nat) (mem : Memory) (cs : Nat) :
    ∀ (k a : Nat), 0 < a →
      (∀ i, i < k → next P mem (a + i * cs) = a + (i + 1) * cs) →
      next P mem (a + k * cs) = 0 →
      IsChain P mem a (chunk_addrs a cs (k + 1)) := by
  intro k
  induction k with
  | zero =>
    intro a ha _ hz
    rw [chunk_addrs_succ]
    refine ⟨rfl, by omega, ?_⟩
    simp only [Nat.zero_mul, Nat.add_zero] at hz
    rw [hz]
    simp [chunk_addrs, IsChain]
  | succ k ih =>
    intro a ha hl hz
    rw [chunk_addrs_succ]
    refine ⟨rfl, by omega, ?_⟩
    have h0 := hl 0 (by omega)
    simp only [Nat.zero_mul, Nat.add_zero, Nat.zero_add, Nat.one_mul] at h0
    rw [h0]
    apply ih (a + cs) (by omega)
    · intro i hi
      have := hl (i + 1) (by omega)
      rw [show a + cs + i * cs = a + (i + 1) * cs by ring,
        show a + cs + (i + 1) * cs = a + (i + 1 + 1) * cs by ring]
      exact this
    · rw [show a + cs + k * cs = a + (k + 1) * cs by ring]
      exact hz

/-- The loop of the constructor terminates after `k` rounds when `last` is
`k` chunks after `iter`; it links these `k` chunks and writes nowhere else. -/
theorem linkLoop_spec (P cs : Nat) (hcs : 0 < cs) (hP : P ≤ cs) :
    ∀ (k fuel iter : Nat) (mem : Memory), k ≤ fuel → iter + k * cs < 256 ^ P →
      ∃ m, linkLoop P cs (iter + k * cs) fuel iter mem = some m ∧
        (∀ i, i < k → next P m (iter + i * cs) = iter + (i + 1) * cs) ∧
        (∀ x, x < iter ∨ iter + k * cs ≤ x → m x = mem x) := by
  intro k
  induction k with
  | zero =>
    intro fuel iter mem _ _
    refine ⟨mem, ?_, fun i hi => by omega, fun _ _ => rfl⟩
    cases fuel <;> simp [linkLoop]
  | succ k ih =>
    intro fuel iter mem hf hb
    cases fuel with
    | zero => omega
    | succ fuel =>
      have hne : iter ≠ iter + (k + 1) * cs := by
        have : 0 < (k + 1) * cs := Nat.mul_pos (by omega) hcs
        omega
      have hlast : iter + (k + 1) * cs = iter + cs + k * cs := by ring
      obtain ⟨m, hm1, hm2, hm3⟩ :=
        ih fuel (iter + cs) (set_next P mem iter (iter + cs)) (by omega) (by omega)
      refine ⟨m, ?_, ?_, ?_⟩
      · simp only [linkLoop, if_neg hne]
        rw [hlast]
        exact hm1
      · intro i hi
        cases i with
        | zero =>
          simp only [Nat.zero_mul, Nat.add_zero, Nat.zero_add, Nat.one_mul]
          have e : next P m iter = next P (set_next P mem iter (iter + cs)) iter :=
            next_congr P _ _ iter (fun x _ hx2 => hm3 x (by omega))
          rw [e]
          apply next_set_next_same
          have : cs ≤ (k + 1) * cs := Nat.le_mul_of_pos_left cs (by omega)
          omega
        | succ i =>
          have := hm2 i (by omega)
          rw [show iter + (i + 1) * cs = iter + cs + i * cs by ring,
            show iter + (i + 1 + 1) * cs = iter + cs + (i + 1) * cs by ring]
          exact this
      · intro x hx
        rw [hm3 x (by omega)]
        exact set_next_outside P mem iter _ x (by omega)

end free_list

namespace free_list

/-- The constructor returns; the free list it builds is the chain of all
whole chunks of the block in address order, and no byte outside the block is
written. -/
theorem ctor_links_block (P cs : Nat) (mem : Memory) (base memSize : Nat)
    (hcs : 0 < cs) (hP : P ≤ cs) (hbase : 0 < base)
    (hfit : base + memSize / cs * cs ≤ 256 ^ P) :
    ∃ fl, ctor P mem base cs memSize = some fl ∧
      IsChain P fl.mem fl.m_first (chunk_addrs base cs (memSize / cs)) ∧
      (∀ x, x < base ∨ base + memSize / cs * cs ≤ x → fl.mem x = mem x) := by
  rcases Nat.eq_zero_or_pos (memSize / cs) with hn | hn
  · refine ⟨⟨0, mem⟩, ?_, ?_, fun _ _ => rfl⟩
    · simp [ctor, hn]
    · rw [hn]
      simp [chunk_addrs, IsChain]
  · obtain ⟨k, hk⟩ : ∃ k, memSize / cs = k + 1 := ⟨memSize / cs - 1, by omega⟩
    have hlast : base + (k + 1) * cs - cs = base + k * cs := by
      rw [Nat.add_mul]; omega
    have hpos : 0 < (k + 1) * cs := Nat.mul_pos (by omega) hcs
    have hdiv : (k + 1) * cs / cs = k + 1 := Nat.mul_div_cancel _ hcs
    rw [hk] at hfit
    have hlt : base + k * cs < 256 ^ P := by
      rw [Nat.add_mul] at hfit; omega
    obtain ⟨m, hm1, hm2, hm3⟩ :=
      linkLoop_spec P cs hcs hP k (k + 1) base (set_next P mem (base + k * cs) 0)
        (by omega) hlt
    refine ⟨⟨base, m⟩, ?_, ?_, ?_⟩
    · simp only [ctor, hk, hdiv, hlast, if_neg (Nat.pos_iff_ne_zero.1 hpos), hm1,
        Option.map_some']
    · rw [hk]
      apply IsChain_chunk_addrs P m cs k base hbase hm2
      have e : next P m (base + k * cs)
          = next P (set_next P mem (base + k * cs) 0) (base + k * cs) :=
        next_congr P _ _ _ (fun x hx _ => hm3 x (Or.inr hx))
      rw [e]
      exact next_set_next_same P mem _ 0 (Nat.pos_pow_of_pos _ (by decide))
    · intro x hx
      rw [hk] at hx
      have hx2 : x < base ∨ base + k * cs + P ≤ x := by
        rw [Nat.add_mul] at hx; omega
      have hx3 : x < base ∨ base + k * cs ≤ x := by omega
      show m x = mem x
      rw [hm3 x hx3]
      exact set_next_outside P mem _ 0 x (by omega)

end free_list

namespace Config

theorem min_align_pos (c : Config) (h1 : 0 < c.ptrAlign) (h2 : 0 < c.elemAlign) :
    0 < c.min_align :=
  Nat.lcm_pos h1 h2

theorem chunk_size_pos (c : Config) (base : Nat) (h : c.Placed base) : 0 < c.chunk_size := by
  obtain ⟨h1, h2, _, h4, _, _⟩ := h
  exact Nat.lcm_pos (by omega) (c.min_align_pos h2 h4)

theorem ptrSize_le_chunk_size (c : Config) (base : Nat) (h : c.Placed base) :
    c.ptrSize ≤ c.chunk_size := by
  have hpos := c.chunk_size_pos base h
  have hd : max c.ptrSize c.elemSize ∣ c.chunk_size := Nat.dvd_lcm_left _ _
  have := Nat.le_of_dvd hpos hd
  omega

theorem elemSize_le_chunk_size (c : Config) (base : Nat) (h : c.Placed base) :
    c.elemSize ≤ c.chunk_size := by
  have hpos := c.chunk_size_pos base h
  have hd : max c.ptrSize c.elemSize ∣ c.chunk_size := Nat.dvd_lcm_left _ _
  have := Nat.le_of_dvd hpos hd
  omega

theorem elemAlign_dvd_chunk_size (c : Config) : c.elemAlign ∣ c.chunk_size :=
  Nat.dvd_trans (Nat.dvd_lcm_right c.ptrAlign c.elemAlign) (Nat.dvd_lcm_right _ _)

theorem block_div (c : Config) (base : Nat) (h : c.Placed base) :
    c.block_size / c.chunk_size = c.numElem := by
  unfold block_size
  rw [Nat.mul_comm]
  exact Nat.mul_div_cancel _ (c.chunk_size_pos base h)

end Config

/-! ## The pool invariant -/

theorem PoolInv.intro (c : Config) (base : Nat) (p : memory_pool) (live l : List Nat)
    (h1 : free_list.IsChain c.ptrSize p.m_freeList.mem p.m_freeList.m_first l)
    (h2 : List.Perm (l ++ live) (chunk_addrs base c.chunk_size c.numElem)) :
    p.free_chunks c = l ∧ PoolInv c base p live := by
  have hlen : l.length ≤ c.numElem := by
    have := h2.length_eq
    rw [List.length_append, chunk_addrs_length] at this
    omega
  have e : p.free_chunks c = l :=
    free_list.chain_eq_of_IsChain c.ptrSize _ l c.numElem _ h1 hlen
  refine ⟨e, ?_, ?_⟩
  · rw [e]; exact h1
  · rw [e]; exact h2

theorem PoolInv.mem_chunk (c : Config) (base : Nat) (p : memory_pool) (live : List Nat)
    (h : PoolInv c base p live) (a : Nat) (ha : a ∈ p.free_chunks c ∨ a ∈ live) :
    a ∈ chunk_addrs base c.chunk_size c.numElem :=
  (h.2.mem_iff).1 (List.mem_append.2 ha)

theorem PoolInv.nodup (c : Config) (base : Nat) (hp : c.Placed base) (p : memory_pool)
    (live : List Nat) (h : PoolInv c base p live) : (p.free_chunks c ++ live).Nodup :=
  (h.2.nodup_iff).2 (chunk_addrs_nodup base _ _ (c.chunk_size_pos base hp))

theorem PoolInv.length (c : Config) (base : Nat) (p : memory_pool) (live : List Nat)
    (h : PoolInv c base p live) : (p.free_chunks c).length + live.length = c.numElem := by
  have := h.2.length_eq
  rwa [List.length_append, chunk_addrs_length] at this

theorem chunk_ne_zero (c : Config) (base : Nat) (hp : c.Placed base) (a : Nat)
    (ha : a ∈ chunk_addrs base c.chunk_size c.numElem) : a ≠ 0 := by
  have := (chunk_addrs_bounds base _ _ a ha).1
  have := hp.2.2.2.2.1
  omega

theorem chunk_lt_pow (c : Config) (base : Nat) (hp : c.Placed base) (a : Nat)
    (ha : a ∈ chunk_addrs base c.chunk_size c.numElem) : a < 256 ^ c.ptrSize := by
  have h1 := (chunk_addrs_bounds base _ _ a ha).2
  have h2 := hp.2.2.2.2.2
  have h3 := c.chunk_size_pos base hp
  unfold Config.block_size at h2
  omega

namespace memory_pool

/-- The constructor returns a pool in which every chunk of the block is free. -/
theorem ctor_all_free (c : Config) (mem : Memory) (base : Nat) (hp : c.Placed base) :
    ∃ p, ctor c mem base = some p ∧ p.m_data = base ∧
      p.free_chunks c = chunk_addrs base c.chunk_size c.numElem ∧
      PoolInv c base p [] := by
  have hdiv := c.block_div base hp
  obtain ⟨fl, h1, h2, _⟩ := free_list.ctor_links_block c.ptrSize c.chunk_size mem base c.block_size
    (c.chunk_size_pos base hp) (c.ptrSize_le_chunk_size base hp) hp.2.2.2.2.1
    (by rw [hdiv, Nat.mul_comm]; exact hp.2.2.2.2.2)
  rw [hdiv] at h2
  refine ⟨⟨base, fl⟩, ?_, rfl, ?_⟩
  · simp [ctor, h1]
  · exact PoolInv.intro c base ⟨base, fl⟩ [] _ h2 (by simp)

theorem empty_iff (p : memory_pool) : p.empty = true ↔ p.m_freeList.m_first = 0 := by
  simp [empty, free_list.empty]

/-- On an empty pool `allocate` returns null and changes nothing. -/
theorem allocate_empty (c : Config) (p : memory_pool) (h : p.empty = true) :
    p.allocate c = (0, p) := by
  simp [allocate, h]

/-- On a non-empty pool `allocate` returns the head and advances it. -/
theorem allocate_nonempty (c : Config) (p : memory_pool) (h : p.empty = false) :
    p.allocate c = (p.m_freeList.m_first,
      ⟨p.m_data, ⟨next c.ptrSize p.m_freeList.mem p.m_freeList.m_first, p.m_freeList.mem⟩⟩) := by
  simp [allocate, h, free_list.allocate]

theorem allocate_inv_nil (c : Config) (base : Nat) (p : memory_pool) (live : List Nat)
    (h : PoolInv c base p live) (hl : p.free_chunks c = []) : p.allocate c = (0, p) := by
  apply allocate_empty
  rw [empty_iff]
  have := h.1
  rw [hl] at this
  exact this

theorem allocate_inv_cons (c : Config) (base : Nat) (p : memory_pool) (live : List Nat)
    (h : PoolInv c base p live) (a : Nat) (l : List Nat) (hl : p.free_chunks c = a :: l) :
    (p.allocate c).1 = a ∧ a ≠ 0 ∧ (p.allocate c).2.free_chunks c = l ∧
      PoolInv c base (p.allocate c).2 (a :: live) := by
  have h1 := h.1
  have h2 := h.2
  rw [hl] at h1 h2
  obtain ⟨e1, e2, e3⟩ := h1
  have hne : p.empty = false := by
    cases he : p.empty
    · rfl
    · rw [empty_iff] at he; omega
  rw [allocate_nonempty c p hne]
  refine ⟨e1, e2, ?_⟩
  apply PoolInv.intro
  · show free_list.IsChain c.ptrSize p.m_freeList.mem
      (next c.ptrSize p.m_freeList.mem p.m_freeList.m_first) l
    rw [e1]; exact e3
  · exact (List.perm_middle).trans h2

theorem free_keeps_inv (c : Config) (base : Nat) (hp : c.Placed base) (p : memory_pool)
    (live : List Nat) (h : PoolInv c base p live) (chunk : Nat) (hc : chunk ∈ live) :
    (p.free c chunk).free_chunks c = chunk :: p.free_chunks c ∧
      PoolInv c base (p.free c chunk) (live.erase chunk) := by
  have hnd := h.nodup c base hp p live
  have hcm := h.mem_chunk c base p live chunk (Or.inr hc)
  apply PoolInv.intro
  · show free_list.IsChain c.ptrSize (set_next c.ptrSize p.m_freeList.mem chunk
      p.m_freeList.m_first) chunk (chunk :: p.free_chunks c)
    refine ⟨rfl, chunk_ne_zero c base hp chunk hcm, ?_⟩
    have hfirst : p.m_freeList.m_first < 256 ^ c.ptrSize := by
      have h1 := h.1
      cases hl : p.free_chunks c with
      | nil =>
        rw [hl] at h1
        have : p.m_freeList.m_first = 0 := h1
        rw [this]
        exact Nat.pos_pow_of_pos _ (by decide)
      | cons a l =>
        rw [hl] at h1
        rw [h1.1]
        exact chunk_lt_pow c base hp a
          (h.mem_chunk c base p live a (Or.inl (by rw [hl]; exact List.mem_cons_self a l)))
    rw [next_set_next_same _ _ _ _ hfirst]
    apply free_list.IsChain_congr c.ptrSize p.m_freeList.mem _ _ _ _ h.1
    intro a ha
    symm
    apply next_set_next_disjoint
    have ham := h.mem_chunk c base p live a (Or.inl ha)
    have hne : chunk ≠ a := by
      intro e
      subst e
      exact (List.disjoint_of_nodup_append hnd) ha hc
    have := chunk_addrs_apart base _ _ chunk a hcm ham hne
    have := c.ptrSize_le_chunk_size base hp
    omega
  · have h1 : List.Perm live (chunk :: live.erase chunk) := List.perm_cons_erase hc
    have h2 : List.Perm (chunk :: p.free_chunks c ++ live.erase chunk)
        (p.free_chunks c ++ chunk :: live.erase chunk) := (List.perm_middle).symm
    exact h2.trans ((List.Perm.append_left _ h1.symm).trans h.2)

end memory_pool

/-! ## Invariants of runs -/

theorem PoolRun.step_keeps_inv (c : Config) (base : Nat) (hp : c.Placed base) (s t : PoolRun)
    (op : PoolOp) (h : PoolInv c base s.pool s.live) (hst : s.step c op = some t) :
    PoolInv c base t.pool t.live := by
  cases op with
  | allocate =>
    simp only [PoolRun.step, Option.some.injEq] at hst
    subst hst
    cases hl : s.pool.free_chunks c with
    | nil =>
      rw [memory_pool.allocate_inv_nil c base s.pool s.live h hl]
      simpa using h
    | cons a l =>
      obtain ⟨e1, e2, _, e4⟩ := memory_pool.allocate_inv_cons c base s.pool s.live h a l hl
      simp only [e1, if_neg e2]
      exact e4
  | free chunk =>
    simp only [PoolRun.step] at hst
    by_cases hc : chunk ∈ s.live
    · rw [if_pos hc, Option.some.injEq] at hst
      subst hst
      exact (memory_pool.free_keeps_inv c base hp s.pool s.live h chunk hc).2
    · rw [if_neg hc] at hst
      exact absurd hst (by simp)

theorem PoolRun.exec_keeps_inv (c : Config) (base : Nat) (hp : c.Placed base) :
    ∀ (ops : List PoolOp) (s t : PoolRun), PoolInv c base s.pool s.live →
      PoolRun.exec c s ops = some t → PoolInv c base t.pool t.live := by
  intro ops
  induction ops with
  | nil =>
    intro s t h hst
    simp only [PoolRun.exec, Option.some.injEq] at hst
    subst hst
    exact h
  | cons op ops ih =>
    intro s t h hst
    simp only [PoolRun.exec] at hst
    cases hs : s.step c op with
    | none => rw [hs] at hst; exact absurd hst (by simp)
    | some u =>
      rw [hs] at hst
      exact ih u t (PoolRun.step_keeps_inv c base hp s u op h hs) hst

namespace counting_memory_pool

theorem ctor_tokens (c : Config) (mem : Memory) (base : Nat) (hp : c.Placed base) :
    ∃ q, ctor c mem base = some q ∧
      q.free_chunks c = chunk_addrs base c.chunk_size c.numElem ∧
      q.m_numElements.value = c.numElem ∧ CountingInv c base q [] := by
  obtain ⟨p, h1, _, h3, h4⟩ := memory_pool.ctor_all_free c mem base hp
  refine ⟨⟨p, ⟨c.numElem⟩⟩, by simp [ctor, h1], h3, rfl, h4, ?_⟩
  show c.numElem = (p.free_chunks c).length
  rw [h3, chunk_addrs_length]

/-- With a token and under the invariant the three allocating members agree:
they take a token and pop the head of the free list. -/
theorem take_spec (c : Config) (base : Nat) (q : counting_memory_pool) (live : List Nat)
    (h : CountingInv c base q live) (hv : 0 < q.m_numElements.value) :
    ∃ a l, q.free_chunks c = a :: l ∧ a ≠ 0 ∧
      (q.m_memoryPool.allocate c).1 = a ∧
      (⟨(q.m_memoryPool.allocate c).2, ⟨q.m_numElements.value - 1⟩⟩ :
        counting_memory_pool).free_chunks c = l ∧
      CountingInv c base ⟨(q.m_memoryPool.allocate c).2, ⟨q.m_numElements.value - 1⟩⟩
        (a :: live) := by
  have hlen := h.2
  cases hl : q.free_chunks c with
  | nil => rw [hl] at hlen; simp at hlen; omega
  | cons a l =>
    obtain ⟨e1, e2, e3, e4⟩ :=
      memory_pool.allocate_inv_cons c base q.m_memoryPool live h.1 a l hl
    refine ⟨a, l, rfl, e2, e1, e3, e4, ?_⟩
    show q.m_numElements.value - 1 = ((q.m_memoryPool.allocate c).2.free_chunks c).length
    rw [e3, hlen, hl]
    simp

theorem allocate_eq (c : Config) (q : counting_memory_pool) (hv : 0 < q.m_numElements.value) :
    q.allocate c = some ((q.m_memoryPool.allocate c).1,
      ⟨(q.m_memoryPool.allocate c).2, ⟨q.m_numElements.value - 1⟩⟩) := by
  simp [allocate, semaphore.wait, hv]

theorem allocate_blocks (c : Config) (q : counting_memory_pool)
    (hv : q.m_numElements.value = 0) : q.allocate c = none := by
  simp [allocate, semaphore.wait, hv]

theorem try_allocate_eq (c : Config) (q : counting_memory_pool)
    (hv : 0 < q.m_numElements.value) :
    q.try_allocate c = ((q.m_memoryPool.allocate c).1,
      ⟨(q.m_memoryPool.allocate c).2, ⟨q.m_numElements.value - 1⟩⟩) := by
  simp [try_allocate, semaphore.try_wait, hv]

theorem try_allocate_zero (c : Config) (q : counting_memory_pool)
    (hv : q.m_numElements.value = 0) : q.try_allocate c = (0, q) := by
  simp [try_allocate, semaphore.try_wait, hv]

theorem try_allocate_for_eq (c : Config) (q : counting_memory_pool) (d : Int)
    (hv : 0 < q.m_numElements.value) :
    q.try_allocate_for c d = ((q.m_memoryPool.allocate c).1,
      ⟨(q.m_memoryPool.allocate c).2, ⟨q.m_numElements.value - 1⟩⟩) := by
  simp [try_allocate_for, semaphore.try_wait_for, hv]

theorem try_allocate_for_zero (c : Config) (q : counting_memory_pool) (d : Int)
    (hv : q.m_numElements.value = 0) : q.try_allocate_for c d = (0, q) := by
  simp [try_allocate_for, semaphore.try_wait_for, hv]

theorem free_keeps_counting_inv (c : Config) (base : Nat) (hp : c.Placed base) (q : counting_memory_pool)
    (live : List Nat) (h : CountingInv c base q live) (chunk : Nat) (hc : chunk ∈ live) :
    (q.free c chunk).free_chunks c = chunk :: q.free_chunks c ∧
      CountingInv c base (q.free c chunk) (live.erase chunk) := by
  obtain ⟨e1, e2⟩ := memory_pool.free_keeps_inv c base hp q.m_memoryPool live h.1 chunk hc
  refine ⟨e1, e2, ?_⟩
  show q.m_numElements.value + 1 = ((q.m_memoryPool.free c chunk).free_chunks c).length
  rw [e1, h.2]
  simp [free_chunks]

end counting_memory_pool

theorem CountingRun.step_keeps_counting_inv (c : Config) (base : Nat) (hp : c.Placed base)
    (s t : CountingRun) (op : CountingOp) (h : CountingInv c base s.pool s.live)
    (hst : s.step c op = some t) : CountingInv c base t.pool t.live := by
  rcases Nat.eq_zero_or_pos s.pool.m_numElements.value with hv | hv
  · cases op with
    | allocate =>
      simp [CountingRun.step, counting_memory_pool.allocate_blocks c s.pool hv] at hst
    | try_allocate =>
      simp only [CountingRun.step, counting_memory_pool.try_allocate_zero c s.pool hv,
        Option.some.injEq] at hst
      subst hst
      simpa using h
    | try_allocate_for d =>
      simp only [CountingRun.step, counting_memory_pool.try_allocate_for_zero c s.pool d hv,
        Option.some.injEq] at hst
      subst hst
      simpa using h
    | free chunk =>
      simp only [CountingRun.step] at hst
      by_cases hc : chunk ∈ s.live
      · rw [if_pos hc, Option.some.injEq] at hst
        subst hst
        exact (counting_memory_pool.free_keeps_counting_inv c base hp s.pool s.live h chunk hc).2
      · rw [if_neg hc] at hst
        exact absurd hst (by simp)
  · obtain ⟨a, l, _, e2, e3, _, e5⟩ :=
      counting_memory_pool.take_spec c base s.pool s.live h hv
    cases op with
    | allocate =>
      simp only [CountingRun.step, counting_memory_pool.allocate_eq c s.pool hv,
        Option.some.injEq] at hst
      subst hst
      simp only [e3, if_neg e2]
      exact e5
    | try_allocate =>
      simp only [CountingRun.step, counting_memory_pool.try_allocate_eq c s.pool hv,
        Option.some.injEq] at hst
      subst hst
      simp only [e3, if_neg e2]
      exact e5
    | try_allocate_for d =>
      simp only [CountingRun.step, counting_memory_pool.try_allocate_for_eq c s.pool d hv,
        Option.some.injEq] at hst
      subst hst
      simp only [e3, if_neg e2]
      exact e5
    | free chunk =>
      simp only [CountingRun.step] at hst
      by_cases hc : chunk ∈ s.live
      · rw [if_pos hc, Option.some.injEq] at hst
        subst hst
        exact (counting_memory_pool.free_keeps_counting_inv c base hp s.pool s.live h chunk hc).2
      · rw [if_neg hc] at hst
        exact absurd hst (by simp)

theorem CountingRun.exec_keeps_counting_inv (c : Config) (base : Nat) (hp : c.Placed base) :
    ∀ (ops : List CountingOp) (s t : CountingRun), CountingInv c base s.pool s.live →
      CountingRun.exec c s ops = some t → CountingInv c base t.pool t.live := by
  intro ops
  induction ops with
  | nil =>
    intro s t h hst
    simp only [CountingRun.exec, Option.some.injEq] at hst
    subst hst
    exact h
  | cons op ops ih =>
    intro s t h hst
    simp only [CountingRun.exec] at hst
    cases hs : s.step c op with
    | none => rw [hs] at hst; exact absurd hst (by simp)
    | some u =>
      rw [hs] at hst
      exact ih u t (CountingRun.step_keeps_counting_inv c base hp s u op h hs) hst

/-! ## Consecutive allocations -/

theorem PoolInv.chunk_state (c : Config) (base : Nat) (hp : c.Placed base) (p : memory_pool)
    (live : List Nat) (h : PoolInv c base p live) (a : Nat)
    (ha : a ∈ chunk_addrs base c.chunk_size c.numElem) :
    ((p.free_chunks c).count a = 1 ∧ live.count a = 0) ∨
      ((p.free_chunks c).count a = 0 ∧ live.count a = 1) := by
  have hnd := h.nodup c base hp p live
  have hmem : a ∈ p.free_chunks c ++ live := (h.2.mem_iff).2 ha
  have h1 : (p.free_chunks c ++ live).count a = 1 := List.count_eq_one_of_mem hnd hmem
  rw [List.count_append] at h1
  omega

theorem PoolInv.allocate_not_live (c : Config) (base : Nat) (hp : c.Placed base)
    (p : memory_pool) (live : List Nat) (h : PoolInv c base p live) :
    (p.allocate c).1 ∉ live := by
  cases hl : p.free_chunks c with
  | nil =>
    rw [memory_pool.allocate_inv_nil c base p live h hl]
    intro h0
    exact chunk_ne_zero c base hp 0 (h.mem_chunk c base p live 0 (Or.inr h0)) rfl
  | cons a l =>
    obtain ⟨e1, _, _, _⟩ := memory_pool.allocate_inv_cons c base p live h a l hl
    rw [e1]
    intro h0
    have hnd := h.nodup c base hp p live
    exact (List.disjoint_of_nodup_append hnd) (by rw [hl]; exact List.mem_cons_self a l) h0

theorem PoolInv.allocate_chunk (c : Config) (base : Nat)
    (p : memory_pool) (live : List Nat) (h : PoolInv c base p live)
    (hne : (p.allocate c).1 ≠ 0) :
    (p.allocate c).1 ∈ chunk_addrs base c.chunk_size c.numElem := by
  cases hl : p.free_chunks c with
  | nil =>
    rw [memory_pool.allocate_inv_nil c base p live h hl] at hne
    exact absurd rfl hne
  | cons a l =>
    obtain ⟨e1, _, _, _⟩ := memory_pool.allocate_inv_cons c base p live h a l hl
    rw [e1]
    exact h.mem_chunk c base p live a (Or.inl (by rw [hl]; exact List.mem_cons_self a l))

theorem PoolRun.reached_inv (c : Config) (mem : Memory) (base : Nat) (hp : c.Placed base)
    (p : memory_pool) (ops : List PoolOp) (s : PoolRun)
    (hc : memory_pool.ctor c mem base = some p)
    (hs : PoolRun.exec c ⟨p, []⟩ ops = some s) : PoolInv c base s.pool s.live := by
  obtain ⟨p1, h1, _, _, h4⟩ := memory_pool.ctor_all_free c mem base hp
  rw [h1, Option.some.injEq] at hc
  subst hc
  exact PoolRun.exec_keeps_inv c base hp ops ⟨p1, []⟩ s h4 hs

theorem CountingRun.reached_counting_inv (c : Config) (mem : Memory) (base : Nat) (hp : c.Placed base)
    (q : counting_memory_pool) (ops : List CountingOp) (s : CountingRun)
    (hc : counting_memory_pool.ctor c mem base = some q)
    (hs : CountingRun.exec c ⟨q, []⟩ ops = some s) : CountingInv c base s.pool s.live := by
  obtain ⟨q1, h1, _, _, h4⟩ := counting_memory_pool.ctor_tokens c mem base hp
  rw [h1, Option.some.injEq] at hc
  subst hc
  exact CountingRun.exec_keeps_counting_inv c base hp ops ⟨q1, []⟩ s h4 hs

theorem CountingInv.take_not_live (c : Config) (base : Nat) (hp : c.Placed base)
    (q : counting_memory_pool) (live : List Nat) (h : CountingInv c base q live) :
    (∀ r, q.allocate c = some r → r.1 ∉ live) ∧ (q.try_allocate c).1 ∉ live ∧
      ∀ d, (q.try_allocate_for c d).1 ∉ live := by
  have hz : (0 : Nat) ∉ live := fun h0 =>
    chunk_ne_zero c base hp 0 (h.1.mem_chunk c base q.m_memoryPool live 0 (Or.inr h0)) rfl
  have ha := h.1.allocate_not_live c base hp q.m_memoryPool live
  rcases Nat.eq_zero_or_pos q.m_numElements.value with hv | hv
  · refine ⟨?_, ?_, ?_⟩
    · intro r hr
      rw [counting_memory_pool.allocate_blocks c q hv] at hr
      exact absurd hr (by simp)
    · rw [counting_memory_pool.try_allocate_zero c q hv]; exact hz
    · intro d
      rw [counting_memory_pool.try_allocate_for_zero c q d hv]; exact hz
  · refine ⟨?_, ?_, ?_⟩
    · intro r hr
      rw [counting_memory_pool.allocate_eq c q hv, Option.some.injEq] at hr
      subst hr
      exact ha
    · rw [counting_memory_pool.try_allocate_eq c q hv]; exact ha
    · intro d
      rw [counting_memory_pool.try_allocate_for_eq c q d hv]; exact ha

/-- C2: in every state reached from a fresh pool by allocate and free calls
(free only with a chunk that is currently allocated) the links from the head
form a null terminated chain, and each chunk of the block is either free and
met exactly once on this chain, or allocated, never both; the next allocation
never returns a chunk that is still allocated.  This holds for `memory_pool`
and for `counting_memory_pool`. -/
theorem chunk_is_free_or_allocated (c : Config) (mem : Memory) (base : Nat)
    (hp : c.Placed base) :
    (∀ (p : memory_pool) (ops : List PoolOp) (s : PoolRun),
      memory_pool.ctor c mem base = some p → PoolRun.exec c ⟨p, []⟩ ops = some s →
      free_list.IsChain c.ptrSize s.pool.m_freeList.mem s.pool.m_freeList.m_first
        (s.pool.free_chunks c) ∧
      (∀ a ∈ chunk_addrs base c.chunk_size c.numElem,
        ((s.pool.free_chunks c).count a = 1 ∧ s.live.count a = 0) ∨
        ((s.pool.free_chunks c).count a = 0 ∧ s.live.count a = 1)) ∧
      (s.pool.allocate c).1 ∉ s.live) ∧
    (∀ (q : counting_memory_pool) (ops : List CountingOp) (s : CountingRun),
      counting_memory_pool.ctor c mem base = some q →
      CountingRun.exec c ⟨q, []⟩ ops = some s →
      free_list.IsChain c.ptrSize s.pool.m_memoryPool.m_freeList.mem
        s.pool.m_memoryPool.m_freeList.m_first (s.pool.free_chunks c) ∧
      (∀ a ∈ chunk_addrs base c.chunk_size c.numElem,
        ((s.pool.free_chunks c).count a = 1 ∧ s.live.count a = 0) ∨
        ((s.pool.free_chunks c).count a = 0 ∧ s.live.count a = 1)) ∧
      (∀ r, s.pool.allocate c = some r → r.1 ∉ s.live) ∧
      (s.pool.try_allocate c).1 ∉ s.live ∧
      (∀ d, (s.pool.try_allocate_for c d).1 ∉ s.live)) := by
  constructor
  · intro p ops s hc hs
    have h := PoolRun.reached_inv c mem base hp p ops s hc hs
    exact ⟨h.1, fun a ha => h.chunk_state c base hp _ _ a ha,
      h.allocate_not_live c base hp _ _⟩
  · intro q ops s hc hs
    have h := CountingRun.reached_counting_inv c mem base hp q ops s hc hs
    exact ⟨h.1.1, fun a ha => h.1.chunk_state c base hp _ _ a ha,
      h.take_not_live c base hp _ _⟩

theorem chunk_is_free_or_allocated_witness :
    demoConfig.Placed 16 ∧
    (∃ p s, memory_pool.ctor demoConfig demoMemory 16 = some p ∧
      PoolRun.exec demoConfig ⟨p, []⟩ [.allocate, .allocate, .free 16, .allocate] = some s ∧
      s.live = [16, 20] ∧ s.pool.free_chunks demoConfig = [24] ∧
      free_list.IsChain demoConfig.ptrSize s.pool.m_freeList.mem s.pool.m_freeList.m_first
        (s.pool.free_chunks demoConfig) ∧
      (∀ a ∈ chunk_addrs 16 demoConfig.chunk_size demoConfig.numElem,
        ((s.pool.free_chunks demoConfig).count a = 1 ∧ s.live.count a = 0) ∨
        ((s.pool.free_chunks demoConfig).count a = 0 ∧ s.live.count a = 1)) ∧
      (s.pool.allocate demoConfig).1 ∉ s.live) ∧
    (∃ q s, counting_memory_pool.ctor demoConfig demoMemory 16 = some q ∧
      CountingRun.exec demoConfig ⟨q, []⟩
        [.allocate, .try_allocate, .free 16, .try_allocate_for 5] = some s ∧
      s.live = [16, 20] ∧ s.pool.free_chunks demoConfig = [24] ∧
      free_list.IsChain demoConfig.ptrSize s.pool.m_memoryPool.m_freeList.mem
        s.pool.m_memoryPool.m_freeList.m_first (s.pool.free_chunks demoConfig) ∧
      (∀ a ∈ chunk_addrs 16 demoConfig.chunk_size demoConfig.numElem,
        ((s.pool.free_chunks demoConfig).count a = 1 ∧ s.live.count a = 0) ∨
        ((s.pool.free_chunks demoConfig).count a = 0 ∧ s.live.count a = 1)) ∧
      (∀ r, s.pool.allocate demoConfig = some r → r.1 ∉ s.live) ∧
      (s.pool.try_allocate demoConfig).1 ∉ s.live ∧
      (∀ d, (s.pool.try_allocate_for demoConfig d).1 ∉ s.live)) :=
  ⟨by decide,
    ⟨_, _, rfl, rfl, by decide, by decide,
      (chunk_is_free_or_allocated demoConfig demoMemory 16 (by decide)).1 _
        [.allocate, .allocate, .free 16, .allocate] _ rfl rfl⟩,
    ⟨_, _, rfl, rfl, by decide, by decide,
      (chunk_is_free_or_allocated demoConfig demoMemory 16 (by decide)).2 _
        [.allocate, .try_allocate, .free 16, .try_allocate_for 5] _ rfl rfl⟩⟩

/-- A chunk of the block lies inside the block, is aligned like the base and
has room for an element. -/
theorem chunk_geometry (c : Config) (base : Nat) (hp : c.Placed base) (a : Nat)
    (ha : a ∈ chunk_addrs base c.chunk_size c.numElem) :
    ∃ i, i < c.numElem ∧ a = base + i * c.chunk_size ∧ base ≤ a ∧
      a + c.elemSize ≤ base + c.block_size ∧ (c.elemAlign ∣ base → c.elemAlign ∣ a) := by
  have hb := chunk_addrs_bounds base _ _ a ha
  have hes := c.elemSize_le_chunk_size base hp
  obtain ⟨i, hi, e⟩ := (mem_chunk_addrs base _ _ a).1 ha
  refine ⟨i, hi, e, hb.1, ?_, ?_⟩
  · unfold Config.block_size; omega
  · intro hd
    rw [e]
    exact Nat.dvd_add hd (Dvd.dvd.mul_left c.elemAlign_dvd_chunk_size i)

theorem PoolInv.live_apart (c : Config) (base : Nat) (hp : c.Placed base) (p : memory_pool)
    (live : List Nat) (h : PoolInv c base p live) :
    live.Pairwise (fun a b => a + c.elemSize ≤ b ∨ b + c.elemSize ≤ a) := by
  have hnd : live.Nodup := (List.nodup_append.1 (h.nodup c base hp p live)).2.1
  have hes := c.elemSize_le_chunk_size base hp
  refine List.Pairwise.imp_of_mem ?_ hnd
  intro a b ha hb hab
  have := chunk_addrs_apart base c.chunk_size c.numElem a b
    (h.mem_chunk c base p live a (Or.inr ha)) (h.mem_chunk c base p live b (Or.inr hb)) hab
  omega

/-- C3: in every state reached from a fresh pool by allocate and free calls
(free only with a currently allocated chunk) at most `TNumElem` chunks are
allocated; every allocated address, and every non-null address that the next
allocation returns, is `base + i * chunk_size` with `i < TNumElem`, so it lies
in the storage block with room for an element and is a multiple of the
element alignment when `base` is; any two chunks allocated at the same time
are at least `sizeof(element)` bytes apart.  This holds for `memory_pool` and
for `counting_memory_pool`. -/
theorem allocated_chunks_in_block_and_apart (c : Config) (mem : Memory) (base : Nat)
    (hp : c.Placed base) :
    (∀ (p : memory_pool) (ops : List PoolOp) (s : PoolRun),
      memory_pool.ctor c mem base = some p → PoolRun.exec c ⟨p, []⟩ ops = some s →
      s.live.length ≤ c.numElem ∧
      (∀ a, a ∈ s.live ∨ (a = (s.pool.allocate c).1 ∧ a ≠ 0) →
        ∃ i, i < c.numElem ∧ a = base + i * c.chunk_size ∧ base ≤ a ∧
          a + c.elemSize ≤ base + c.block_size ∧ (c.elemAlign ∣ base → c.elemAlign ∣ a)) ∧
      s.live.Pairwise (fun a b => a + c.elemSize ≤ b ∨ b + c.elemSize ≤ a)) ∧
    (∀ (q : counting_memory_pool) (ops : List CountingOp) (s : CountingRun),
      counting_memory_pool.ctor c mem base = some q →
      CountingRun.exec c ⟨q, []⟩ ops = some s →
      s.live.length ≤ c.numElem ∧
      (∀ a, a ∈ s.live ∨ (s.pool.allocate c).map Prod.fst = some a ∨
          (a = (s.pool.try_allocate c).1 ∧ a ≠ 0) ∨
          (∃ d, a = (s.pool.try_allocate_for c d).1 ∧ a ≠ 0) →
        ∃ i, i < c.numElem ∧ a = base + i * c.chunk_size ∧ base ≤ a ∧
          a + c.elemSize ≤ base + c.block_size ∧ (c.elemAlign ∣ base → c.elemAlign ∣ a)) ∧
      s.live.Pairwise (fun a b => a + c.elemSize ≤ b ∨ b + c.elemSize ≤ a)) := by
  constructor
  · intro p ops s hc hs
    have h := PoolRun.reached_inv c mem base hp p ops s hc hs
    refine ⟨?_, ?_, h.live_apart c base hp _ _⟩
    · have := h.length c base _ _
      omega
    · intro a ha
      apply chunk_geometry c base hp
      rcases ha with ha | ⟨ha, hne⟩
      · exact h.mem_chunk c base _ _ a (Or.inr ha)
      · rw [ha] at hne ⊢
        exact h.allocate_chunk c base _ _ hne
  · intro q ops s hc hs
    have h := CountingRun.reached_counting_inv c mem base hp q ops s hc hs
    refine ⟨?_, ?_, h.1.live_apart c base hp _ _⟩
    · have := h.1.length c base _ _
      omega
    · intro a ha
      apply chunk_geometry c base hp
      rcases Nat.eq_zero_or_pos s.pool.m_numElements.value with hv | hv
      · rw [counting_memory_pool.allocate_blocks c _ hv,
          counting_memory_pool.try_allocate_zero c _ hv] at ha
        rcases ha with ha | ha | ⟨ha, hne⟩ | ⟨d, ha, hne⟩
        · exact h.1.mem_chunk c base _ _ a (Or.inr ha)
        · exact absurd ha (by simp)
        · exact absurd ha hne
        · rw [counting_memory_pool.try_allocate_for_zero c _ d hv] at ha
          exact absurd ha hne
      · obtain ⟨b, l, hl, _, e3, _, _⟩ :=
          counting_memory_pool.take_spec c base s.pool s.live h hv
        have hb : b ∈ chunk_addrs base c.chunk_size c.numElem :=
          h.1.mem_chunk c base _ _ b (Or.inl (by
            show b ∈ s.pool.free_chunks c
            rw [hl]; exact List.mem_cons_self b l))
        rw [counting_memory_pool.allocate_eq c _ hv,
          counting_memory_pool.try_allocate_eq c _ hv] at ha
        rcases ha with ha | ha | ⟨ha, _⟩ | ⟨d, ha, _⟩
        · exact h.1.mem_chunk c base _ _ a (Or.inr ha)
        · simp only [Option.map_some', Option.some.injEq] at ha
          rw [← ha, e3]; exact hb
        · rw [ha]
          show (s.pool.m_memoryPool.allocate c).1 ∈ _
          rw [e3]; exact hb
        · rw [counting_memory_pool.try_allocate_for_eq c _ d hv] at ha
          rw [ha]
          show (s.pool.m_memoryPool.allocate c).1 ∈ _
          rw [e3]; exact hb

theorem allocated_chunks_in_block_and_apart_witness :
    demoConfig.Placed 16 ∧
    (∃ p s, memory_pool.ctor demoConfig demoMemory 16 = some p ∧
      PoolRun.exec demoConfig ⟨p, []⟩ [.allocate, .allocate, .free 16, .allocate] = some s ∧
      s.live = [16, 20] ∧ (s.pool.allocate demoConfig).1 = 24 ∧
      s.live.length ≤ demoConfig.numElem ∧
      (∀ a, a ∈ s.live ∨ (a = (s.pool.allocate demoConfig).1 ∧ a ≠ 0) →
        ∃ i, i < demoConfig.numElem ∧ a = 16 + i * demoConfig.chunk_size ∧ 16 ≤ a ∧
          a + demoConfig.elemSize ≤ 16 + demoConfig.block_size ∧
          (demoConfig.elemAlign ∣ 16 → demoConfig.elemAlign ∣ a)) ∧
      s.live.Pairwise
        (fun a b => a + demoConfig.elemSize ≤ b ∨ b + demoConfig.elemSize ≤ a)) ∧
    (∃ q s, counting_memory_pool.ctor demoConfig demoMemory 16 = some q ∧
      CountingRun.exec demoConfig ⟨q, []⟩
        [.allocate, .try_allocate, .free 16, .try_allocate_for 5] = some s ∧
      s.live = [16, 20] ∧ (s.pool.try_allocate demoConfig).1 = 24 ∧
      s.live.length ≤ demoConfig.numElem ∧
      (∀ a, a ∈ s.live ∨ (s.pool.allocate demoConfig).map Prod.fst = some a ∨
          (a = (s.pool.try_allocate demoConfig).1 ∧ a ≠ 0) ∨
          (∃ d, a = (s.pool.try_allocate_for demoConfig d).1 ∧ a ≠ 0) →
        ∃ i, i < demoConfig.numElem ∧ a = 16 + i * demoConfig.chunk_size ∧ 16 ≤ a ∧
          a + demoConfig.elemSize ≤ 16 + demoConfig.block_size ∧
          (demoConfig.elemAlign ∣ 16 → demoConfig.elemAlign ∣ a)) ∧
      s.live.Pairwise
        (fun a b => a + demoConfig.elemSize ≤ b ∨ b + demoConfig.elemSize ≤ a)) :=
  ⟨by decide,
    ⟨_, _, rfl, rfl, by decide, by decide,
      (allocated_chunks_in_block_and_apart demoConfig demoMemory 16 (by decide)).1 _
        [.allocate, .allocate, .free 16, .allocate] _ rfl rfl⟩,
    ⟨_, _, rfl, rfl, by decide, by decide,
      (allocated_chunks_in_block_and_apart demoConfig demoMemory 16 (by decide)).2 _
        [.allocate, .try_allocate, .free 16, .try_allocate_for 5] _ rfl rfl⟩⟩

/-- C4: after every sequence of completed allocate and free calls on a fresh
`counting_memory_pool` (free only with currently allocated chunks) `size()`,
the number of free chunks, is the capacity minus the number of allocations
that have not been freed yet. -/
theorem size_is_capacity_minus_outstanding (c : Config) (mem : Memory) (base : Nat)
    (q : counting_memory_pool) (ops : List CountingOp) (s : CountingRun)
    (hp : c.Placed base) (hc : counting_memory_pool.ctor c mem base = some q)
    (hs : CountingRun.exec c ⟨q, []⟩ ops = some s) :
    s.pool.size c = c.numElem - s.live.length ∧ s.live.length ≤ c.numElem := by
  have h := CountingRun.reached_counting_inv c mem base hp q ops s hc hs
  have := h.1.length c base _ _
  unfold counting_memory_pool.size counting_memory_pool.free_chunks
  omega

theorem size_is_capacity_minus_outstanding_witness :
    demoConfig.Placed 16 ∧
    ∃ q s, counting_memory_pool.ctor demoConfig demoMemory 16 = some q ∧
      CountingRun.exec demoConfig ⟨q, []⟩
        [.allocate, .try_allocate, .free 16, .try_allocate_for 5, .free 20] = some s ∧
      s.live = [16] ∧ s.pool.size demoConfig = 2 ∧
      s.pool.size demoConfig = demoConfig.numElem - s.live.length ∧
      s.live.length ≤ demoConfig.numElem :=
  ⟨by decide, _, _, rfl, rfl, by decide, by decide,
    size_is_capacity_minus_outstanding demoConfig demoMemory 16 _
      [.allocate, .try_allocate, .free 16, .try_allocate_for 5, .free 20] _
      (by decide) rfl rfl⟩

/-! ## Round trips -/

/-- C6: `memory_pool::allocate` on a pool whose free list is empty returns null
and leaves the pool unchanged, so every further call returns null as well; on
a pool that is not empty it returns the chunk at the head of the free list,
which is not null, and the head moves on to the link of that chunk. -/
theorem allocate_null_iff_exhausted (c : Config) (p : memory_pool) :
    (p.empty = true →
      p.allocate c = (0, p) ∧ ∀ k, p.allocate_n c k = (List.replicate k 0, p)) ∧
    (p.empty = false →
      (p.allocate c).1 = p.m_freeList.m_first ∧ (p.allocate c).1 ≠ 0 ∧
      (p.allocate c).2.m_freeList.m_first
        = next c.ptrSize p.m_freeList.mem p.m_freeList.m_first ∧
      (p.allocate c).2.m_freeList.mem = p.m_freeList.mem) := by
  constructor
  · intro h
    have e := memory_pool.allocate_empty c p h
    refine ⟨e, ?_⟩
    intro k
    induction k with
    | zero => rfl
    | succ k ih => simp only [memory_pool.allocate_n, e, ih, List.replicate_succ]
  · intro h
    rw [memory_pool.allocate_nonempty c p h]
    refine ⟨rfl, ?_, rfl, rfl⟩
    intro h0
    have : p.empty = true := (memory_pool.empty_iff p).2 h0
    rw [this] at h
    exact absurd h (by simp)

theorem allocate_null_iff_exhausted_witness :
    (∃ p s, memory_pool.ctor demoConfig demoMemory 16 = some p ∧
      PoolRun.exec demoConfig ⟨p, []⟩ [.allocate, .allocate, .allocate] = some s ∧
      s.pool.empty = true ∧
      s.pool.allocate demoConfig = (0, s.pool) ∧
      ∀ k, s.pool.allocate_n demoConfig k = (List.replicate k 0, s.pool)) ∧
    (∃ p, memory_pool.ctor demoConfig demoMemory 16 = some p ∧
      p.empty = false ∧
      (p.allocate demoConfig).1 = p.m_freeList.m_first ∧ (p.allocate demoConfig).1 ≠ 0 ∧
      (p.allocate demoConfig).2.m_freeList.m_first
        = next demoConfig.ptrSize p.m_freeList.mem p.m_freeList.m_first ∧
      (p.allocate demoConfig).2.m_freeList.mem = p.m_freeList.mem) :=
  ⟨⟨_, _, rfl, rfl, by decide, (allocate_null_iff_exhausted demoConfig _).1 (by decide)⟩,
    ⟨_, rfl, by decide, (allocate_null_iff_exhausted demoConfig _).2 (by decide)⟩⟩

/-- C7: for a `counting_memory_pool` the token count of the semaphore equals
the number of chunks reachable from the head of the free list (a null
terminated chain) after construction and after every completed `allocate`,
`try_allocate`, `try_allocate_for` and `free` call (free only with currently
allocated chunks), and it never exceeds the capacity. -/
theorem tokens_count_free_chunks (c : Config) (mem : Memory) (base : Nat)
    (q : counting_memory_pool) (ops : List CountingOp) (s : CountingRun)
    (hp : c.Placed base) (hc : counting_memory_pool.ctor c mem base = some q)
    (hs : CountingRun.exec c ⟨q, []⟩ ops = some s) :
    q.m_numElements.value = (q.free_chunks c).length ∧
    free_list.IsChain c.ptrSize s.pool.m_memoryPool.m_freeList.mem
      s.pool.m_memoryPool.m_freeList.m_first (s.pool.free_chunks c) ∧
    s.pool.m_numElements.value = (s.pool.free_chunks c).length ∧
    0 ≤ s.pool.m_numElements.value ∧ s.pool.m_numElements.value ≤ c.numElem := by
  have h0 := CountingRun.reached_counting_inv c mem base hp q [] ⟨q, []⟩ hc rfl
  have h := CountingRun.reached_counting_inv c mem base hp q ops s hc hs
  have hl := h.1.length c base _ _
  refine ⟨h0.2, h.1.1, h.2, Nat.zero_le _, ?_⟩
  rw [h.2]
  show (s.pool.m_memoryPool.free_chunks c).length ≤ c.numElem
  omega

theorem tokens_count_free_chunks_witness :
    demoConfig.Placed 16 ∧
    ∃ q s, counting_memory_pool.ctor demoConfig demoMemory 16 = some q ∧
      CountingRun.exec demoConfig ⟨q, []⟩
        [.allocate, .try_allocate, .free 16, .try_allocate_for 5, .free 20] = some s ∧
      s.pool.m_numElements.value = 2 ∧ s.pool.free_chunks demoConfig = [20, 24] ∧
      q.m_numElements.value = (q.free_chunks demoConfig).length ∧
      free_list.IsChain demoConfig.ptrSize s.pool.m_memoryPool.m_freeList.mem
        s.pool.m_memoryPool.m_freeList.m_first (s.pool.free_chunks demoConfig) ∧
      s.pool.m_numElements.value = (s.pool.free_chunks demoConfig).length ∧
      0 ≤ s.pool.m_numElements.value ∧ s.pool.m_numElements.value ≤ demoConfig.numElem :=
  ⟨by decide, _, _, rfl, rfl, by decide, by decide,
    tokens_count_free_chunks demoConfig demoMemory 16 _
      [.allocate, .try_allocate, .free 16, .try_allocate_for 5, .free 20] _
      (by decide) rfl rfl⟩

/-- C9: in every state reached from a fresh `counting_memory_pool` by completed
calls, `try_allocate` returns null if and only if the token count is zero
before the call; and whenever `try_allocate` or `try_allocate_for` returns
null, the pool (token count, head and links of the free list) is unchanged. -/
theorem try_allocate_null_iff_no_token (c : Config) (mem : Memory) (base : Nat)
    (q : counting_memory_pool) (ops : List CountingOp) (s : CountingRun)
    (hp : c.Placed base) (hc : counting_memory_pool.ctor c mem base = some q)
    (hs : CountingRun.exec c ⟨q, []⟩ ops = some s) :
    ((s.pool.try_allocate c).1 = 0 ↔ s.pool.m_numElements.value = 0) ∧
    ((s.pool.try_allocate c).1 = 0 → (s.pool.try_allocate c).2 = s.pool) ∧
    (∀ d, (s.pool.try_allocate_for c d).1 = 0 → (s.pool.try_allocate_for c d).2 = s.pool) := by
  have h := CountingRun.reached_counting_inv c mem base hp q ops s hc hs
  rcases Nat.eq_zero_or_pos s.pool.m_numElements.value with hv | hv
  · rw [counting_memory_pool.try_allocate_zero c _ hv]
    refine ⟨by simp [hv], fun _ => rfl, ?_⟩
    intro d _
    rw [counting_memory_pool.try_allocate_for_zero c _ d hv]
  · obtain ⟨a, l, _, e2, e3, _, _⟩ :=
      counting_memory_pool.take_spec c base s.pool s.live h hv
    rw [counting_memory_pool.try_allocate_eq c _ hv]
    refine ⟨?_, ?_, ?_⟩
    · constructor
      · intro h0
        exact absurd (e3.symm.trans h0) e2
      · intro h0
        omega
    · intro h0
      exact absurd (e3.symm.trans h0) e2
    · intro d h0
      rw [counting_memory_pool.try_allocate_for_eq c _ d hv] at h0
      exact absurd (e3.symm.trans h0) e2

theorem try_allocate_null_iff_no_token_witness :
    demoConfig.Placed 16 ∧
    ∃ q s, counting_memory_pool.ctor demoConfig demoMemory 16 = some q ∧
      CountingRun.exec demoConfig ⟨q, []⟩
        [.allocate, .try_allocate, .try_allocate_for 7] = some s ∧
      s.pool.m_numElements.value = 0 ∧ (s.pool.try_allocate demoConfig).1 = 0 ∧
      (s.pool.try_allocate_for demoConfig 7).1 = 0 ∧
      ((s.pool.try_allocate demoConfig).1 = 0 ↔ s.pool.m_numElements.value = 0) ∧
      (s.pool.try_allocate demoConfig).2 = s.pool ∧
      (s.pool.try_allocate_for demoConfig 7).2 = s.pool :=
  ⟨by decide, _, _, rfl, rfl, by decide, by decide, by decide,
    (try_allocate_null_iff_no_token demoConfig demoMemory 16 _
      [.allocate, .try_allocate, .try_allocate_for 7] _ (by decide) rfl rfl).1,
    (try_allocate_null_iff_no_token demoConfig demoMemory 16 _
      [.allocate, .try_allocate, .try_allocate_for 7] _ (by decide) rfl rfl).2.1 (by decide),
    (try_allocate_null_iff_no_token demoConfig demoMemory 16 _
      [.allocate, .try_allocate, .try_allocate_for 7] _ (by decide) rfl rfl).2.2 7
        (by decide)⟩

/-- The rounded-up size is the smallest multiple of the alignment that is at
least the larger of the two sizes. -/
theorem Config.smallest_aligned_size_least (c : Config) (h : 0 < c.min_align) :
    c.min_align ∣ c.smallest_aligned_size ∧
    max c.ptrSize c.elemSize ≤ c.smallest_aligned_size ∧
    ∀ k, c.min_align ∣ k → max c.ptrSize c.elemSize ≤ k → c.smallest_aligned_size ≤ k := by
  unfold Config.smallest_aligned_size
  generalize max c.ptrSize c.elemSize = M
  generalize c.min_align = L at h
  refine ⟨Dvd.intro_left _ rfl, ?_, ?_⟩
  · have h1 := Nat.div_add_mod (M + L - 1) L
    have h2 := Nat.mod_lt (M + L - 1) h
    rw [Nat.mul_comm] at h1
    omega
  · rintro k ⟨j, rfl⟩ hk
    rw [Nat.mul_comm L j]
    apply Nat.mul_le_mul_right
    apply Nat.lt_succ_iff.1
    rw [Nat.div_lt_iff_lt_mul h]
    have : j.succ * L = L * j + L := by rw [Nat.succ_mul, Nat.mul_comm]
    omega


/-- C11 as stated fails: for a twelve-byte element of alignment four (a power
of two that divides twelve) and eight-byte pointers of alignment eight,
`chunk_size` is 24, while 16 already is a multiple of the maximum required
alignment 8 that is at least `max(12, 8)`. -/
theorem chunk_size_not_smallest_aligned :
    wideConfig.elemAlign = 2 ^ 2 ∧ wideConfig.elemAlign ∣ wideConfig.elemSize ∧
    wideConfig.chunk_size = 24 ∧ wideConfig.smallest_aligned_size = 16 ∧
    ¬ (∀ k, wideConfig.min_align ∣ k → max wideConfig.ptrSize wideConfig.elemSize ≤ k →
      wideConfig.chunk_size ≤ k) := by
  refine ⟨by decide, by decide, by decide, by decide, ?_⟩
  intro h
  exact absurd (h 16 (by decide) (by decide)) (by decide)

/-- C11, amended: `chunk_size` is the least common multiple of the maximum
required alignment `min_align = lcm(a, q)` and `max(s, p)`: it is a multiple
of the alignment, a multiple of `max(s, p)` and so at least `max(s, p)`, and
every positive common multiple of the two is at least `chunk_size`.  It is
the smallest multiple of the alignment that is at least `max(s, p)` whenever
`max(s, p)` is a multiple of the alignment or divides it. -/
theorem chunk_size_is_least_common_multiple (c : Config)
    (hs : 0 < max c.ptrSize c.elemSize) (hq : 0 < c.ptrAlign) (ha : 0 < c.elemAlign) :
    c.min_align = Nat.lcm c.elemAlign c.ptrAlign ∧
    c.min_align ∣ c.chunk_size ∧ max c.ptrSize c.elemSize ∣ c.chunk_size ∧
    max c.ptrSize c.elemSize ≤ c.chunk_size ∧
    (∀ k, 0 < k → c.min_align ∣ k → max c.ptrSize c.elemSize ∣ k → c.chunk_size ≤ k) ∧
    (c.min_align ∣ max c.ptrSize c.elemSize ∨ max c.ptrSize c.elemSize ∣ c.min_align →
      c.chunk_size = c.smallest_aligned_size ∧
      ∀ k, c.min_align ∣ k → max c.ptrSize c.elemSize ≤ k → c.chunk_size ≤ k) := by
  have hL : 0 < c.min_align := c.min_align_pos hq ha
  have hpos : 0 < c.chunk_size := Nat.lcm_pos hs hL
  have hd1 : c.min_align ∣ c.chunk_size := Nat.dvd_lcm_right _ _
  have hd2 : max c.ptrSize c.elemSize ∣ c.chunk_size := Nat.dvd_lcm_left _ _
  have hle : max c.ptrSize c.elemSize ≤ c.chunk_size := Nat.le_of_dvd hpos hd2
  obtain ⟨s1, s2, s3⟩ := c.smallest_aligned_size_least hL
  refine ⟨Nat.lcm_comm _ _, hd1, hd2, hle, ?_, ?_⟩
  · intro k hk h1 h2
    exact Nat.le_of_dvd hk (Nat.lcm_dvd h2 h1)
  · intro h
    have hmin : ∀ k, c.min_align ∣ k → max c.ptrSize c.elemSize ≤ k → c.chunk_size ≤ k := by
      intro k h1 h2
      have hk : 0 < k := by omega
      rcases h with h | h
      · have e : c.chunk_size = max c.ptrSize c.elemSize :=
          Nat.dvd_antisymm (Nat.lcm_dvd (Nat.dvd_refl _) h) hd2
        omega
      · have e : c.chunk_size = c.min_align :=
          Nat.dvd_antisymm (Nat.lcm_dvd h (Nat.dvd_refl _)) hd1
        rw [e]
        exact Nat.le_of_dvd hk h1
    exact ⟨Nat.le_antisymm (hmin _ s1 s2) (s3 _ hd1 hle), hmin⟩

theorem chunk_size_is_least_common_multiple_witness :
    0 < max wideConfig.ptrSize wideConfig.elemSize ∧ 0 < wideConfig.ptrAlign ∧
    0 < wideConfig.elemAlign ∧
    wideConfig.min_align = Nat.lcm wideConfig.elemAlign wideConfig.ptrAlign ∧
    wideConfig.min_align ∣ wideConfig.chunk_size ∧
    max wideConfig.ptrSize wideConfig.elemSize ∣ wideConfig.chunk_size ∧
    max wideConfig.ptrSize wideConfig.elemSize ≤ wideConfig.chunk_size ∧
    (∀ k, 0 < k → wideConfig.min_align ∣ k →
      max wideConfig.ptrSize wideConfig.elemSize ∣ k → wideConfig.chunk_size ≤ k) ∧
    (demoConfig.min_align ∣ max demoConfig.ptrSize demoConfig.elemSize ∧
      demoConfig.chunk_size = demoConfig.smallest_aligned_size ∧
      ∀ k, demoConfig.min_align ∣ k → max demoConfig.ptrSize demoConfig.elemSize ≤ k →
        demoConfig.chunk_size ≤ k) :=
  ⟨by decide, by decide, by decide,
    (chunk_size_is_least_common_multiple wideConfig (by decide) (by decide) (by decide)).1,
    (chunk_size_is_least_common_multiple wideConfig (by decide) (by decide) (by decide)).2.1,
    (chunk_size_is_least_common_multiple wideConfig (by decide) (by decide) (by decide)).2.2.1,
    (chunk_size_is_least_common_multiple wideConfig (by decide) (by decide)
      (by decide)).2.2.2.1,
    (chunk_size_is_least_common_multiple wideConfig (by decide) (by decide)
      (by decide)).2.2.2.2.1,
    by decide,
    (chunk_size_is_least_common_multiple demoConfig (by decide) (by decide)
      (by decide)).2.2.2.2.2 (Or.inl (by decide))⟩

/-- C12: the storage block has size `chunk_size * TNumElem`; `chunk_size` is a
positive multiple of `min_align` that is at least `sizeof(void*)` and at least
`sizeof(element_type)`; truncating the block size to a multiple of the chunk
size loses nothing, and the constructor of `memory_pool` returns a pool whose
free list holds exactly the `TNumElem` chunks of the block. -/
theorem block_holds_capacity_chunks (c : Config) (mem : Memory) (base : Nat)
    (hp : c.Placed base) :
    c.block_size = c.chunk_size * c.numElem ∧
    0 < c.chunk_size ∧ c.min_align ∣ c.chunk_size ∧
    c.ptrSize ≤ c.chunk_size ∧ c.elemSize ≤ c.chunk_size ∧
    c.block_size / c.chunk_size * c.chunk_size = c.block_size ∧
    ∃ p, memory_pool.ctor c mem base = some p ∧ p.m_data = base ∧
      p.free_chunks c = chunk_addrs base c.chunk_size c.numElem ∧
      (p.free_chunks c).length = c.numElem ∧ (p.free_chunks c).Nodup := by
  obtain ⟨p, h1, h2, h3, _⟩ := memory_pool.ctor_all_free c mem base hp
  refine ⟨rfl, c.chunk_size_pos base hp, Nat.dvd_lcm_right _ _,
    c.ptrSize_le_chunk_size base hp, c.elemSize_le_chunk_size base hp, ?_,
    p, h1, h2, h3, ?_, ?_⟩
  · rw [c.block_div base hp, Nat.mul_comm]; rfl
  · rw [h3, chunk_addrs_length]
  · rw [h3]; exact chunk_addrs_nodup base _ _ (c.chunk_size_pos base hp)

theorem block_holds_capacity_chunks_witness :
    demoConfig.Placed 16 ∧
    demoConfig.block_size = 12 ∧ demoConfig.chunk_size = 4 ∧
    demoConfig.block_size = demoConfig.chunk_size * demoConfig.numElem ∧
    0 < demoConfig.chunk_size ∧ demoConfig.min_align ∣ demoConfig.chunk_size ∧
    demoConfig.ptrSize ≤ demoConfig.chunk_size ∧
    demoConfig.elemSize ≤ demoConfig.chunk_size ∧
    demoConfig.block_size / demoConfig.chunk_size * demoConfig.chunk_size
      = demoConfig.block_size ∧
    ∃ p, memory_pool.ctor demoConfig demoMemory 16 = some p ∧ p.m_data = 16 ∧
      p.free_chunks demoConfig = chunk_addrs 16 demoConfig.chunk_size demoConfig.numElem ∧
      (p.free_chunks demoConfig).length = demoConfig.numElem ∧
      (p.free_chunks demoConfig).Nodup :=
  ⟨by decide, by decide, by decide,
    block_holds_capacity_chunks demoConfig demoMemory 16 (by decide)⟩

/-! ## The constructor of `free_list` for an arbitrary chunk size -/

namespace free_list

/-- The loop returns after `k` rounds for every positive chunk size, whatever
the size of a pointer; `P` bytes are written at the start of each of the `k`
chunks and nothing else. -/
theorem linkLoop_returns (P cs : Nat) (hcs : 0 < cs) :
    ∀ (k fuel iter : Nat) (mem : Memory), k ≤ fuel →
      ∃ m, linkLoop P cs (iter + k * cs) fuel iter mem = some m ∧
        ∀ x, x < iter ∨ iter + k * cs + P ≤ x + cs → m x = mem x := by
  intro k
  induction k with
  | zero =>
    intro fuel iter mem _
    refine ⟨mem, ?_, fun _ _ => rfl⟩
    cases fuel <;> simp [linkLoop]
  | succ k ih =>
    intro fuel iter mem hf
    cases fuel with
    | zero => omega
    | succ fuel =>
      have hne : iter ≠ iter + (k + 1) * cs := by
        have : 0 < (k + 1) * cs := Nat.mul_pos (by omega) hcs
        omega
      have hlast : iter + (k + 1) * cs = iter + cs + k * cs := by ring
      obtain ⟨m, hm1, hm2⟩ :=
        ih fuel (iter + cs) (set_next P mem iter (iter + cs)) (by omega)
      refine ⟨m, ?_, ?_⟩
      · simp only [linkLoop, if_neg hne]
        rw [hlast]
        exact hm1
      · intro x hx
        rw [hlast] at hx
        rw [hm2 x (by omega)]
        exact set_next_outside P mem iter _ x (by omega)

/-- With less fuel than rounds needed the loop does not return. -/
theorem linkLoop_out_of_fuel (P cs : Nat) (hcs : 0 < cs) :
    ∀ (fuel k iter : Nat) (mem : Memory), fuel < k →
      linkLoop P cs (iter + k * cs) fuel iter mem = none := by
  intro fuel
  induction fuel with
  | zero =>
    intro k iter mem hk
    have hne : iter ≠ iter + k * cs := by
      have : 0 < k * cs := Nat.mul_pos (by omega) hcs
      omega
    simp [linkLoop, hne]
  | succ fuel ih =>
    intro k iter mem hk
    obtain ⟨j, rfl⟩ : ∃ j, k = j + 1 := ⟨k - 1, by omega⟩
    have hne : iter ≠ iter + (j + 1) * cs := by
      have : 0 < (j + 1) * cs := Nat.mul_pos (by omega) hcs
      omega
    simp only [linkLoop, if_neg hne]
    rw [show iter + (j + 1) * cs = iter + cs + j * cs by ring]
    exact ih j (iter + cs) _ (by omega)

/-- Fuel beyond the number of rounds does not change the result of the loop. -/
theorem linkLoop_fuel_irrelevant (P cs : Nat) (hcs : 0 < cs) :
    ∀ (k f1 f2 iter : Nat) (mem : Memory), k ≤ f1 → k ≤ f2 →
      linkLoop P cs (iter + k * cs) f1 iter mem = linkLoop P cs (iter + k * cs) f2 iter mem := by
  intro k
  induction k with
  | zero =>
    intro f1 f2 iter mem _ _
    cases f1 <;> cases f2 <;> simp [linkLoop]
  | succ k ih =>
    intro f1 f2 iter mem h1 h2
    obtain ⟨g1, rfl⟩ : ∃ g, f1 = g + 1 := ⟨f1 - 1, by omega⟩
    obtain ⟨g2, rfl⟩ : ∃ g, f2 = g + 1 := ⟨f2 - 1, by omega⟩
    have hne : iter ≠ iter + (k + 1) * cs := by
      have : 0 < (k + 1) * cs := Nat.mul_pos (by omega) hcs
      omega
    simp only [linkLoop, if_neg hne]
    rw [show iter + (k + 1) * cs = iter + cs + k * cs by ring]
    exact ih g1 g2 (iter + cs) _ (by omega) (by omega)

/-- The constructor on a block without a whole chunk. -/
theorem ctor_no_chunk (P cs : Nat) (mem : Memory) (base memSize : Nat)
    (h : memSize / cs * cs = 0) : ctor P mem base cs memSize = some ⟨0, mem⟩ := by
  simp [ctor, h]

/-- The constructor on a block of `k + 1` whole chunks: the link of the last
chunk is cleared, then the loop runs. -/
theorem ctor_some_chunks (P cs : Nat) (mem : Memory) (base memSize k : Nat)
    (hcs : 0 < cs) (hk : memSize / cs = k + 1) :
    base + memSize / cs * cs - cs = base + k * cs ∧
    ctor P mem base cs memSize =
      (linkLoop P cs (base + k * cs) (k + 1) base (set_next P mem (base + k * cs) 0)).map
        (fun m => ⟨base, m⟩) := by
  have hlast : base + (k + 1) * cs - cs = base + k * cs := by
    rw [Nat.add_mul]; omega
  have hpos : 0 < (k + 1) * cs := Nat.mul_pos (by omega) hcs
  have hdiv : (k + 1) * cs / cs = k + 1 := Nat.mul_div_cancel _ hcs
  rw [hk]
  refine ⟨hlast, ?_⟩
  simp only [ctor, hk, hdiv, hlast, if_neg (Nat.pos_iff_ne_zero.1 hpos)]

/-- The constructor returns for every positive chunk size; it writes no byte
below the block and none from `sizeof(void*)` bytes after the start of the
last whole chunk on. -/
theorem ctor_returns (P cs : Nat) (mem : Memory) (base memSize : Nat) (hcs : 0 < cs) :
    ∃ fl, ctor P mem base cs memSize = some fl ∧
      ∀ x, memSize / cs = 0 ∨ x < base ∨ base + memSize / cs * cs + P ≤ x + cs →
        fl.mem x = mem x := by
  rcases Nat.eq_zero_or_pos (memSize / cs) with hn | hn
  · exact ⟨⟨0, mem⟩, ctor_no_chunk P cs mem base memSize (by rw [hn]; simp), fun _ _ => rfl⟩
  · obtain ⟨k, hk⟩ : ∃ k, memSize / cs = k + 1 := ⟨memSize / cs - 1, by omega⟩
    obtain ⟨_, e⟩ := ctor_some_chunks P cs mem base memSize k hcs hk
    obtain ⟨m, hm1, hm2⟩ :=
      linkLoop_returns P cs hcs k (k + 1) base (set_next P mem (base + k * cs) 0) (by omega)
    refine ⟨⟨base, m⟩, by rw [e, hm1]; rfl, ?_⟩
    intro x hx
    rw [hk] at hx
    have hx2 : x < base ∨ base + k * cs + P ≤ x := by
      rw [Nat.add_mul] at hx; omega
    show m x = mem x
    rw [hm2 x (by omega)]
    exact set_next_outside P mem _ 0 x (by omega)

theorem IsChain_last (P : Nat) (mem : Memory) (a : Nat) :
    ∀ (l : List Nat) (p : Nat), IsChain P mem p (l ++ [a]) → next P mem a = 0 := by
  intro l
  induction l with
  | nil =>
    intro p h
    exact h.2.2
  | cons b l ih =>
    intro p h
    exact ih _ h.2.2

end free_list

theorem chunk_addrs_snoc (base cs n : Nat) :
    chunk_addrs base cs (n + 1) = chunk_addrs base cs n ++ [base + n * cs] := by
  simp [chunk_addrs, List.range_succ]

theorem chunk_addrs_ascending (base cs n : Nat) (hcs : 0 < cs) :
    (chunk_addrs base cs n).Pairwise (fun a b => a < b) := by
  unfold chunk_addrs
  refine List.Pairwise.map _ ?_ (List.pairwise_lt_range n)
  intro i j hij
  have : i * cs < j * cs := Nat.mul_lt_mul_of_pos_right hij hcs
  omega

/-- C13 as stated fails for a chunk smaller than a pointer: with four-byte
pointers, `chunkSize = 2` and `memSize = 6` at address 16 the constructor
clears the link of the last chunk at address 20 and so writes the byte at
address 22, which lies behind the first `6 / 2 * 2 = 6` bytes of the block. -/
theorem ctor_small_chunk_writes_past_block :
    0 < 2 ∧ 16 + 6 / 2 * 2 ≤ 22 ∧ onesMemory 22 = 255 ∧
    (free_list.ctor 4 onesMemory 16 2 6).map (fun fl => fl.mem 22) = some 0 := by
  decide

/-- C13, amended: for every `chunkSize > 0` the constructor returns; when
`chunkSize` is at least `sizeof(void*)` it writes only into the first
`memSize / chunkSize * chunkSize` bytes of the block.  That number is zero
exactly when `memSize < chunkSize`; then the list is empty right after
construction, no byte of memory is written, and on a `memory_pool` with this
free list every `allocate` call returns null and leaves the pool empty. -/
theorem ctor_uses_whole_chunks_only (P cs : Nat) (mem : Memory) (base memSize : Nat)
    (hcs : 0 < cs) :
    (∃ fl, free_list.ctor P mem base cs memSize = some fl ∧
      (P ≤ cs → ∀ x, x < base ∨ base + memSize / cs * cs ≤ x → fl.mem x = mem x)) ∧
    (memSize / cs * cs = 0 ↔ memSize < cs) ∧
    (memSize < cs →
      free_list.ctor P mem base cs memSize = some ⟨0, mem⟩ ∧
      (⟨0, mem⟩ : free_list).empty = true ∧
      ∀ (c : Config) (p : memory_pool), p.m_freeList = ⟨0, mem⟩ →
        ∀ k, p.allocate_n c k = (List.replicate k 0, p) ∧
          (p.allocate_n c k).2.empty = true) := by
  have hz : memSize / cs * cs = 0 ↔ memSize < cs := by
    rw [Nat.mul_eq_zero]
    constructor
    · rintro (h | h)
      · exact (Nat.div_eq_zero_iff hcs).1 h
      · omega
    · intro h
      exact Or.inl ((Nat.div_eq_zero_iff hcs).2 h)
  refine ⟨?_, hz, ?_⟩
  · obtain ⟨fl, h1, h2⟩ := free_list.ctor_returns P cs mem base memSize hcs
    refine ⟨fl, h1, ?_⟩
    intro hP x hx
    apply h2
    rcases hx with hx | hx
    · exact Or.inr (Or.inl hx)
    · exact Or.inr (Or.inr (by omega))
  · intro hlt
    refine ⟨free_list.ctor_no_chunk P cs mem base memSize (hz.2 hlt), rfl, ?_⟩
    intro c p hp k
    have he : p.empty = true := by
      rw [memory_pool.empty_iff, hp]
    have hk : p.allocate_n c k = (List.replicate k 0, p) := by
      induction k with
      | zero => rfl
      | succ k ih =>
        simp only [memory_pool.allocate_n, memory_pool.allocate_empty c p he, ih,
          List.replicate_succ]
    rw [hk]
    exact ⟨rfl, he⟩

theorem ctor_uses_whole_chunks_only_witness :
    (0 < 4 ∧ ∃ fl, free_list.ctor 4 onesMemory 16 4 14 = some fl ∧
      fl.mem 16 = 20 ∧ fl.mem 27 = 0 ∧ fl.mem 28 = 255 ∧
      ∀ x, x < 16 ∨ 16 + 14 / 4 * 4 ≤ x → fl.mem x = onesMemory x) ∧
    (0 < 4 ∧ 3 < 4 ∧ 3 / 4 * 4 = 0 ∧
      free_list.ctor 4 onesMemory 16 4 3 = some ⟨0, onesMemory⟩ ∧
      (⟨0, onesMemory⟩ : free_list).empty = true ∧
      ∀ k, (⟨16, ⟨0, onesMemory⟩⟩ : memory_pool).allocate_n demoConfig k
          = (List.replicate k 0, ⟨16, ⟨0, onesMemory⟩⟩) ∧
        ((⟨16, ⟨0, onesMemory⟩⟩ : memory_pool).allocate_n demoConfig k).2.empty = true) :=
  ⟨⟨by decide, by
      obtain ⟨fl, h1, h2⟩ := (ctor_uses_whole_chunks_only 4 4 onesMemory 16 14 (by decide)).1
      have e : free_list.ctor 4 onesMemory 16 4 14 = some _ := rfl
      rw [e, Option.some.injEq] at h1
      subst h1
      exact ⟨_, rfl, by decide, by decide, by decide, h2 (by decide)⟩⟩,
    ⟨by decide, by decide, by decide,
      ((ctor_uses_whole_chunks_only 4 4 onesMemory 16 3 (by decide)).2.2 (by decide)).1,
      ((ctor_uses_whole_chunks_only 4 4 onesMemory 16 3 (by decide)).2.2 (by decide)).2.1,
      ((ctor_uses_whole_chunks_only 4 4 onesMemory 16 3 (by decide)).2.2 (by decide)).2.2
        demoConfig ⟨16, ⟨0, onesMemory⟩⟩ rfl⟩⟩

/-- C14 as stated fails for a chunk smaller than a pointer: with four-byte
pointers, `chunkSize = 2` and `memSize = 6` at address 16 (so `n = 3`) the
links overlap: the link written at 18 overwrites half of the link at 16, and
following the links from the head visits 16 and then address 1310738, not
16, 18, 20. -/
theorem ctor_small_chunk_chain_broken :
    0 < 2 ∧ 1 ≤ 6 / 2 ∧
    (free_list.ctor 4 demoMemory 16 2 6).map
      (fun fl => (fl.m_first, free_list.chain 4 fl.mem 3 fl.m_first))
      = some (16, [16, 1310738]) ∧
    chunk_addrs 16 2 3 = [16, 18, 20] := by
  decide

/-- C14, amended: for every `chunkSize` that is at least `sizeof(void*)`, on a
block at a non-null address whose `n = memSize / chunkSize >= 1` whole chunks
lie inside the address space, the constructor returns with head `base`;
following the links from the head visits exactly `base`, `base + chunkSize`,
..., `base + (n - 1) * chunkSize`, in ascending order and each once, and the
link of the last chunk is null.  For every `chunkSize > 0` the loop of the
constructor ends after exactly `n - 1` rounds. -/
theorem ctor_links_chunks_in_order (P cs : Nat) (mem : Memory) (base memSize : Nat)
    (hcs : 0 < cs) (hn : 1 ≤ memSize / cs) :
    (P ≤ cs → 0 < base → base + memSize / cs * cs ≤ 256 ^ P →
      ∃ fl, free_list.ctor P mem base cs memSize = some fl ∧ fl.m_first = base ∧
        free_list.IsChain P fl.mem fl.m_first (chunk_addrs base cs (memSize / cs)) ∧
        free_list.chain P fl.mem (memSize / cs) fl.m_first
          = chunk_addrs base cs (memSize / cs) ∧
        (chunk_addrs base cs (memSize / cs)).Pairwise (fun a b => a < b) ∧
        (chunk_addrs base cs (memSize / cs)).length = memSize / cs ∧
        next P fl.mem (base + (memSize / cs - 1) * cs) = 0) ∧
    (∃ m, free_list.linkLoop P cs (base + memSize / cs * cs - cs) (memSize / cs - 1) base
        (set_next P mem (base + memSize / cs * cs - cs) 0) = some m ∧
      free_list.ctor P mem base cs memSize = some ⟨base, m⟩ ∧
      ∀ f, f < memSize / cs - 1 →
        free_list.linkLoop P cs (base + memSize / cs * cs - cs) f base
          (set_next P mem (base + memSize / cs * cs - cs) 0) = none) := by
  obtain ⟨k, hk⟩ : ∃ k, memSize / cs = k + 1 := ⟨memSize / cs - 1, by omega⟩
  obtain ⟨hlast, e⟩ := free_list.ctor_some_chunks P cs mem base memSize k hcs hk
  constructor
  · intro hP hbase hfit
    obtain ⟨fl, h1, h2, _⟩ :=
      free_list.ctor_links_block P cs mem base memSize hcs hP hbase hfit
    have hfirst : fl.m_first = base := by
      obtain ⟨m, hm, _⟩ :=
        free_list.linkLoop_returns P cs hcs k (k + 1) base
          (set_next P mem (base + k * cs) 0) (by omega)
      rw [e, hm] at h1
      simp only [Option.map_some', Option.some.injEq] at h1
      rw [← h1]
    refine ⟨fl, h1, hfirst, h2, ?_, chunk_addrs_ascending base cs _ hcs,
      chunk_addrs_length base cs _, ?_⟩
    · exact free_list.chain_eq_of_IsChain P fl.mem _ _ _ h2
        (by rw [chunk_addrs_length])
    · rw [hk, chunk_addrs_snoc] at h2
      rw [hk, Nat.add_sub_cancel]
      exact free_list.IsChain_last P fl.mem _ _ _ h2
  · rw [hlast, hk, Nat.add_sub_cancel]
    obtain ⟨m, hm, _⟩ :=
      free_list.linkLoop_returns P cs hcs k k base (set_next P mem (base + k * cs) 0)
        (Nat.le_refl k)
    refine ⟨m, hm, ?_, ?_⟩
    · rw [e, free_list.linkLoop_fuel_irrelevant P cs hcs k (k + 1) k base _ (by omega)
        (Nat.le_refl k), hm]
      rfl
    · intro f hf
      exact free_list.linkLoop_out_of_fuel P cs hcs f k base _ hf

theorem ctor_links_chunks_in_order_witness :
    0 < 4 ∧ 1 ≤ 14 / 4 ∧ 4 ≤ 4 ∧ 0 < 16 ∧ 16 + 14 / 4 * 4 ≤ 256 ^ 4 ∧
    chunk_addrs 16 4 (14 / 4) = [16, 20, 24] ∧
    (∃ fl, free_list.ctor 4 onesMemory 16 4 14 = some fl ∧ fl.m_first = 16 ∧
        free_list.IsChain 4 fl.mem fl.m_first (chunk_addrs 16 4 (14 / 4)) ∧
        free_list.chain 4 fl.mem (14 / 4) fl.m_first = chunk_addrs 16 4 (14 / 4) ∧
        (chunk_addrs 16 4 (14 / 4)).Pairwise (fun a b => a < b) ∧
        (chunk_addrs 16 4 (14 / 4)).length = 14 / 4 ∧
        next 4 fl.mem (16 + (14 / 4 - 1) * 4) = 0) ∧
    (∃ m, free_list.linkLoop 4 4 (16 + 14 / 4 * 4 - 4) (14 / 4 - 1) 16
        (set_next 4 onesMemory (16 + 14 / 4 * 4 - 4) 0) = some m ∧
      free_list.ctor 4 onesMemory 16 4 14 = some ⟨16, m⟩ ∧
      ∀ f, f < 14 / 4 - 1 →
        free_list.linkLoop 4 4 (16 + 14 / 4 * 4 - 4) f 16
          (set_next 4 onesMemory (16 + 14 / 4 * 4 - 4) 0) = none) :=
  ⟨by decide, by decide, by decide, by decide, by decide, by decide,
    (ctor_links_chunks_in_order 4 4 onesMemory 16 14 (by decide) (by decide)).1
      (by decide) (by decide) (by decide),
    (ctor_links_chunks_in_order 4 4 onesMemory 16 14 (by decide) (by decide)).2⟩

/-! ## Typed pools -/

theorem memory_pool.allocate_null_unchanged (c : Config) (p : memory_pool)
    (h : (p.allocate c).1 = 0) : p.allocate c = (0, p) := by
  cases he : p.empty with
  | true => exact memory_pool.allocate_empty c p he
  | false =>
    rw [memory_pool.allocate_nonempty c p he] at h
    have : p.empty = true := (memory_pool.empty_iff p).2 h
    rw [this] at he
    exact absurd he (by simp)

theorem memory_pool.allocate_head (c : Config) (p : memory_pool)
    (h : (p.allocate c).1 ≠ 0) :
    p.allocate c = (p.m_freeList.m_first,
      ⟨p.m_data, ⟨next c.ptrSize p.m_freeList.mem p.m_freeList.m_first, p.m_freeList.mem⟩⟩) := by
  cases he : p.empty with
  | true =>
    rw [memory_pool.allocate_empty c p he] at h
    exact absurd rfl h
  | false => exact memory_pool.allocate_nonempty c p he

theorem CountingInv.try_allocate_null (c : Config) (base : Nat) (q : counting_memory_pool)
    (live : List Nat) (h : CountingInv c base q live) :
    ((q.try_allocate c).1 = 0 → q.try_allocate c = (0, q)) ∧
    (∀ d, (q.try_allocate_for c d).1 = 0 → q.try_allocate_for c d = (0, q)) := by
  rcases Nat.eq_zero_or_pos q.m_numElements.value with hv | hv
  · exact ⟨fun _ => counting_memory_pool.try_allocate_zero c q hv,
      fun d _ => counting_memory_pool.try_allocate_for_zero c q d hv⟩
  · obtain ⟨a, l, _, e2, e3, _, _⟩ := counting_memory_pool.take_spec c base q live h hv
    constructor
    · intro h0
      rw [counting_memory_pool.try_allocate_eq c q hv] at h0
      exact absurd (e3.symm.trans h0) e2
    · intro d h0
      rw [counting_memory_pool.try_allocate_for_eq c q d hv] at h0
      exact absurd (e3.symm.trans h0) e2

theorem lives_at_place {Args Elem : Type} (c : Config) (E : ElementType Args Elem)
    (mem : Memory) (addr : Nat) (e : Elem) : lives_at c E (place c E mem addr e) addr e := by
  intro i hi
  unfold place
  rw [if_pos ⟨by omega, by omega⟩, Nat.add_sub_cancel_left]

/-- C15: `try_construct` returns null when the raw allocation fails; then no
constructor is called and the pool is unchanged.  When the raw allocation
succeeds (and the constructor returns) it returns the chunk that was the head
of the free list, the constructor was called once, with the forwarded
arguments at this address, and the element it built lives there.  For
`object_pool` in every state; for `shared_object_pool` in every state in
which the semaphore counts the free chunks. -/
theorem try_construct_null_or_element {Args Elem : Type} (c : Config)
    (E : ElementType Args Elem) (args : Args) :
    (∀ p : object_pool Args,
      ((p.m_memoryPool.try_allocate c).1 = 0 →
        p.try_construct c E args = (.returns 0, p)) ∧
      ((p.m_memoryPool.try_allocate c).1 ≠ 0 → ∀ e, E.construct args = some e →
        (p.try_construct c E args).1 = .returns p.m_memoryPool.m_freeList.m_first ∧
        (p.m_memoryPool.try_allocate c).1 = p.m_memoryPool.m_freeList.m_first ∧
        (p.try_construct c E args).2.events
          = .ctor_call p.m_memoryPool.m_freeList.m_first args :: p.events ∧
        lives_at c E (p.try_construct c E args).2.m_memoryPool.m_freeList.mem
          p.m_memoryPool.m_freeList.m_first e ∧
        (p.try_construct c E args).2.m_memoryPool.m_freeList.m_first
          = next c.ptrSize p.m_memoryPool.m_freeList.mem p.m_memoryPool.m_freeList.m_first)) ∧
    (∀ (q : shared_object_pool Args) (base : Nat) (live : List Nat),
      CountingInv c base q.m_memoryPool live →
      ((q.m_memoryPool.try_allocate c).1 = 0 →
        q.try_construct c E args = (.returns 0, q)) ∧
      ((q.m_memoryPool.try_allocate c).1 ≠ 0 → ∀ e, E.construct args = some e →
        (q.try_construct c E args).1
          = .returns q.m_memoryPool.m_memoryPool.m_freeList.m_first ∧
        (q.m_memoryPool.try_allocate c).1 = q.m_memoryPool.m_memoryPool.m_freeList.m_first ∧
        (q.try_construct c E args).2.events
          = .ctor_call q.m_memoryPool.m_memoryPool.m_freeList.m_first args :: q.events ∧
        lives_at c E (q.try_construct c E args).2.m_memoryPool.m_memoryPool.m_freeList.mem
          q.m_memoryPool.m_memoryPool.m_freeList.m_first e ∧
        (q.try_construct c E args).2.m_memoryPool.m_memoryPool.m_freeList.m_first
          = next c.ptrSize q.m_memoryPool.m_memoryPool.m_freeList.mem
              q.m_memoryPool.m_memoryPool.m_freeList.m_first)) := by
  constructor
  · intro p
    constructor
    · intro h
      have e := memory_pool.allocate_null_unchanged c p.m_memoryPool h
      simp only [object_pool.try_construct, object_pool.try_allocate,
        memory_pool.try_allocate, e, if_true]
    · intro h e he
      have ea := memory_pool.allocate_head c p.m_memoryPool h
      have hne : p.m_memoryPool.m_freeList.m_first ≠ 0 := by
        intro h0
        apply h
        show (p.m_memoryPool.allocate c).1 = 0
        rw [ea]; exact h0
      have ht : p.try_construct c E args = (.returns p.m_memoryPool.m_freeList.m_first,
          ⟨(⟨p.m_memoryPool.m_data, ⟨next c.ptrSize p.m_memoryPool.m_freeList.mem
              p.m_memoryPool.m_freeList.m_first, p.m_memoryPool.m_freeList.mem⟩⟩ :
              memory_pool).with_mem
            (place c E p.m_memoryPool.m_freeList.mem p.m_memoryPool.m_freeList.m_first e),
            .ctor_call p.m_memoryPool.m_freeList.m_first args :: p.events⟩) := by
        simp only [object_pool.try_construct, object_pool.try_allocate,
          memory_pool.try_allocate, ea, if_neg hne, he]
      rw [ht]
      refine ⟨rfl, ?_, rfl, lives_at_place c E _ _ e, rfl⟩
      show (p.m_memoryPool.allocate c).1 = _
      rw [ea]
  · intro q base live hinv
    constructor
    · intro h
      have e := (hinv.try_allocate_null c base _ _).1 h
      simp only [shared_object_pool.try_construct, shared_object_pool.try_allocate, e,
        if_true]
    · intro h e he
      have hv : 0 < q.m_memoryPool.m_numElements.value := by
        rcases Nat.eq_zero_or_pos q.m_memoryPool.m_numElements.value with hv | hv
        · rw [counting_memory_pool.try_allocate_zero c _ hv] at h
          exact absurd rfl h
        · exact hv
      have et := counting_memory_pool.try_allocate_eq c q.m_memoryPool hv
      rw [et] at h
      have ea := memory_pool.allocate_head c q.m_memoryPool.m_memoryPool h
      have hne : q.m_memoryPool.m_memoryPool.m_freeList.m_first ≠ 0 := by
        intro h0
        apply h
        show (q.m_memoryPool.m_memoryPool.allocate c).1 = 0
        rw [ea]; exact h0
      have ht : q.try_construct c E args
          = (.returns q.m_memoryPool.m_memoryPool.m_freeList.m_first,
          ⟨(⟨⟨q.m_memoryPool.m_memoryPool.m_data,
              ⟨next c.ptrSize q.m_memoryPool.m_memoryPool.m_freeList.mem
                q.m_memoryPool.m_memoryPool.m_freeList.m_first,
                q.m_memoryPool.m_memoryPool.m_freeList.mem⟩⟩,
              ⟨q.m_memoryPool.m_numElements.value - 1⟩⟩ : counting_memory_pool).with_mem
            (place c E q.m_memoryPool.m_memoryPool.m_freeList.mem
              q.m_memoryPool.m_memoryPool.m_freeList.m_first e),
            .ctor_call q.m_memoryPool.m_memoryPool.m_freeList.m_first args :: q.events⟩) := by
        simp only [shared_object_pool.try_construct, shared_object_pool.try_allocate, et, ea,
          if_neg hne, shared_object_pool.construct_at, he]
      rw [ht]
      refine ⟨rfl, ?_, rfl, lives_at_place c E _ _ e, rfl⟩
      rw [et, ea]

theorem try_construct_null_or_element_witness :
    (∃ p : object_pool Nat, object_pool.ctor demoConfig demoMemory 16 = some p ∧
      (p.m_memoryPool.try_allocate demoConfig).1 ≠ 0 ∧
      demoElement.construct 515 = some 515 ∧
      (p.try_construct demoConfig demoElement 515).1 = .returns 16 ∧
      (p.try_construct demoConfig demoElement 515).1
        = .returns p.m_memoryPool.m_freeList.m_first ∧
      (p.m_memoryPool.try_allocate demoConfig).1 = p.m_memoryPool.m_freeList.m_first ∧
      (p.try_construct demoConfig demoElement 515).2.events
        = .ctor_call p.m_memoryPool.m_freeList.m_first 515 :: p.events ∧
      lives_at demoConfig demoElement
        (p.try_construct demoConfig demoElement 515).2.m_memoryPool.m_freeList.mem
        p.m_memoryPool.m_freeList.m_first 515 ∧
      (p.try_construct demoConfig demoElement 515).2.m_memoryPool.m_freeList.m_first
        = next demoConfig.ptrSize p.m_memoryPool.m_freeList.mem
            p.m_memoryPool.m_freeList.m_first) ∧
    (∃ (p : memory_pool) (s : PoolRun), memory_pool.ctor demoConfig demoMemory 16 = some p ∧
      PoolRun.exec demoConfig ⟨p, []⟩ [.allocate, .allocate, .allocate] = some s ∧
      (s.pool.try_allocate demoConfig).1 = 0 ∧
      (⟨s.pool, []⟩ : object_pool Nat).try_construct demoConfig demoElement 515
        = (.returns 0, ⟨s.pool, []⟩)) ∧
    (∃ (q : counting_memory_pool) (s : CountingRun),
      counting_memory_pool.ctor demoConfig demoMemory 16 = some q ∧
      CountingRun.exec demoConfig ⟨q, []⟩ [.allocate, .allocate, .allocate] = some s ∧
      CountingInv demoConfig 16 s.pool s.live ∧
      (s.pool.try_allocate demoConfig).1 = 0 ∧
      (⟨s.pool, []⟩ : shared_object_pool Nat).try_construct demoConfig demoElement 515
        = (.returns 0, ⟨s.pool, []⟩)) ∧
    (∃ q : shared_object_pool Nat, shared_object_pool.ctor demoConfig demoMemory 16 = some q ∧
      CountingInv demoConfig 16 q.m_memoryPool [] ∧
      (q.m_memoryPool.try_allocate demoConfig).1 ≠ 0 ∧
      (q.try_construct demoConfig demoElement 515).1 = .returns 16 ∧
      (q.try_construct demoConfig demoElement 515).2.events = [.ctor_call 16 515] ∧
      lives_at demoConfig demoElement
        (q.try_construct demoConfig demoElement 515).2.m_memoryPool.m_memoryPool.m_freeList.mem
        q.m_memoryPool.m_memoryPool.m_freeList.m_first 515) :=
  ⟨⟨_, rfl, by decide, by decide, by decide,
      ((try_construct_null_or_element demoConfig demoElement 515).1 _).2 (by decide) 515
        (by decide)⟩,
    ⟨_, _, rfl, rfl, by decide,
      ((try_construct_null_or_element demoConfig demoElement 515).1 _).1 (by decide)⟩,
    ⟨_, _, rfl, rfl, by decide, by decide,
      ((try_construct_null_or_element demoConfig demoElement 515).2 _ 16 [24, 20, 16]
        (by decide)).1 (by decide)⟩,
    ⟨_, rfl, by decide, by decide, by decide, by decide,
      (((try_construct_null_or_element demoConfig demoElement 515).2 _ 16 []
        (by decide)).2 (by decide) 515 (by decide)).2.2.2.1⟩⟩

namespace shared_object_pool

variable {Args Elem : Type}

theorem try_construct_token (c : Config) (E : ElementType Args Elem) (base : Nat)
    (q : shared_object_pool Args) (live : List Nat) (args : Args)
    (h : CountingInv c base q.m_memoryPool live) (hv : 0 < q.m_memoryPool.m_numElements.value) :
    (q.m_memoryPool.m_memoryPool.allocate c).1 ≠ 0 ∧
    q.try_construct c E args
      = (⟨⟨(q.m_memoryPool.m_memoryPool.allocate c).2,
            ⟨q.m_memoryPool.m_numElements.value - 1⟩⟩, q.events⟩ :
          shared_object_pool Args).construct_at c E
            (q.m_memoryPool.m_memoryPool.allocate c).1 args ∧
    (∀ d, q.try_construct_for c E d args
      = (⟨⟨(q.m_memoryPool.m_memoryPool.allocate c).2,
            ⟨q.m_memoryPool.m_numElements.value - 1⟩⟩, q.events⟩ :
          shared_object_pool Args).construct_at c E
            (q.m_memoryPool.m_memoryPool.allocate c).1 args) ∧
    q.construct c E args
      = some ((⟨⟨(q.m_memoryPool.m_memoryPool.allocate c).2,
            ⟨q.m_memoryPool.m_numElements.value - 1⟩⟩, q.events⟩ :
          shared_object_pool Args).construct_at c E
            (q.m_memoryPool.m_memoryPool.allocate c).1 args) := by
  obtain ⟨a, l, _, e2, e3, _, _⟩ := counting_memory_pool.take_spec c base _ live h hv
  have hne : (q.m_memoryPool.m_memoryPool.allocate c).1 ≠ 0 := by rw [e3]; exact e2
  refine ⟨hne, ?_, ?_, ?_⟩
  · simp only [try_construct, try_allocate,
      counting_memory_pool.try_allocate_eq c _ hv, if_neg hne]
  · intro d
    simp only [try_construct_for, try_allocate_for,
      counting_memory_pool.try_allocate_for_eq c _ d hv, if_neg hne]
  · simp only [construct, allocate, counting_memory_pool.allocate_eq c _ hv]

end shared_object_pool

namespace object_pool

variable {Args Elem : Type}

theorem try_construct_throws (c : Config) (E : ElementType Args Elem) (p : object_pool Args)
    (args : Args) (h : (p.m_memoryPool.allocate c).1 ≠ 0) (hE : E.construct args = none) :
    p.try_construct c E args
      = (.throws, ⟨(p.m_memoryPool.allocate c).2,
          .ctor_call (p.m_memoryPool.allocate c).1 args :: p.events⟩) := by
  simp only [try_construct, try_allocate, memory_pool.try_allocate, if_neg h, hE]

end object_pool

/-- C16 as stated fails: on a fresh `object_pool` and on a fresh
`shared_object_pool` of capacity three a `try_construct` whose element
constructor throws leaves two free chunks (and two tokens) where there were
three; the chunk is not returned to the pool. -/
theorem failed_constructor_leaks_chunk :
    demoElement.construct 0 = none ∧
    (object_pool.ctor demoConfig demoMemory 16 : Option (object_pool Nat)).map
      (fun p => ((p.try_construct demoConfig demoElement 0).1,
        (p.m_memoryPool.free_chunks demoConfig).length,
        ((p.try_construct demoConfig demoElement 0).2.m_memoryPool.free_chunks
          demoConfig).length))
      = some (.throws, 3, 2) ∧
    (shared_object_pool.ctor demoConfig demoMemory 16 : Option (shared_object_pool Nat)).map
      (fun q => ((q.try_construct demoConfig demoElement 0).1,
        q.size demoConfig, q.m_memoryPool.m_numElements.value,
        (q.try_construct demoConfig demoElement 0).2.size demoConfig,
        (q.try_construct demoConfig demoElement 0).2.m_memoryPool.m_numElements.value))
      = some (.throws, 3, 3, 2, 2) := by
  decide

/-- C16, amended: if the element constructor fails inside `try_construct`,
`construct` or `try_construct_for` after the raw allocation succeeded, the
exception leaves the member and the chunk stays allocated: the raw pool is in
the state in which the raw allocation left it, the chunk is not in the free
list, and the number of free chunks (and, for the blocking pool, the token
count) is one less than before the call. -/
theorem failed_constructor_keeps_chunk {Args Elem : Type} (c : Config)
    (E : ElementType Args Elem) (args : Args) (base : Nat) (live : List Nat)
    (hp : c.Placed base) (hE : E.construct args = none) :
    (∀ p : object_pool Args, PoolInv c base p.m_memoryPool live →
      (p.m_memoryPool.try_allocate c).1 ≠ 0 →
      (p.try_construct c E args).1 = .throws ∧
      (p.try_construct c E args).2.m_memoryPool = (p.m_memoryPool.try_allocate c).2 ∧
      ((p.try_construct c E args).2.m_memoryPool.free_chunks c).length + 1
        = (p.m_memoryPool.free_chunks c).length ∧
      (p.m_memoryPool.try_allocate c).1
        ∉ (p.try_construct c E args).2.m_memoryPool.free_chunks c) ∧
    (∀ q : shared_object_pool Args, CountingInv c base q.m_memoryPool live →
      0 < q.m_memoryPool.m_numElements.value →
      (q.m_memoryPool.try_allocate c).1 ≠ 0 ∧
      ((q.try_construct c E args).1 = .throws ∧
        (q.try_construct c E args).2.m_memoryPool = (q.m_memoryPool.try_allocate c).2 ∧
        (q.try_construct c E args).2.size c + 1 = q.size c ∧
        (q.try_construct c E args).2.m_memoryPool.m_numElements.value + 1
          = q.m_memoryPool.m_numElements.value) ∧
      (∀ d, (q.try_construct_for c E d args).1 = .throws ∧
        (q.try_construct_for c E d args).2.size c + 1 = q.size c ∧
        (q.try_construct_for c E d args).2.m_memoryPool.m_numElements.value + 1
          = q.m_memoryPool.m_numElements.value) ∧
      (∃ r, q.construct c E args = some r ∧ r.1 = .throws ∧
        r.2.size c + 1 = q.size c ∧
        r.2.m_memoryPool.m_numElements.value + 1 = q.m_memoryPool.m_numElements.value)) := by
  constructor
  · intro p hinv hne
    have hne2 : (p.m_memoryPool.allocate c).1 ≠ 0 := hne
    cases hl : p.m_memoryPool.free_chunks c with
    | nil =>
      rw [memory_pool.allocate_inv_nil c base _ live hinv hl] at hne2
      exact absurd rfl hne2
    | cons a l =>
      obtain ⟨e1, _, e3, e4⟩ :=
        memory_pool.allocate_inv_cons c base _ live hinv a l hl
      have hnd := e4.nodup c base hp _ _
      rw [object_pool.try_construct_throws c E p args hne2 hE]
      refine ⟨rfl, rfl, ?_, ?_⟩
      · show ((p.m_memoryPool.allocate c).2.free_chunks c).length + 1 = _
        rw [e3]; rfl
      · show (p.m_memoryPool.allocate c).1 ∉ (p.m_memoryPool.allocate c).2.free_chunks c
        rw [e1]
        exact fun hin => (List.disjoint_of_nodup_append hnd) hin (List.mem_cons_self a live)
  · intro q hinv hv
    obtain ⟨t1, t2, t3, t4⟩ :=
      shared_object_pool.try_construct_token c E base q live args hinv hv
    obtain ⟨a, l, hl, _, _, e4, _⟩ := counting_memory_pool.take_spec c base _ live hinv hv
    have et := counting_memory_pool.try_allocate_eq c q.m_memoryPool hv
    have hsize : (⟨(q.m_memoryPool.m_memoryPool.allocate c).2,
        ⟨q.m_memoryPool.m_numElements.value - 1⟩⟩ : counting_memory_pool).size c + 1
        = q.m_memoryPool.size c := by
      unfold counting_memory_pool.size
      rw [e4, hl]; rfl
    have hcat : (⟨⟨(q.m_memoryPool.m_memoryPool.allocate c).2,
            ⟨q.m_memoryPool.m_numElements.value - 1⟩⟩, q.events⟩ :
          shared_object_pool Args).construct_at c E
            (q.m_memoryPool.m_memoryPool.allocate c).1 args
        = (.throws, ⟨⟨(q.m_memoryPool.m_memoryPool.allocate c).2,
            ⟨q.m_memoryPool.m_numElements.value - 1⟩⟩,
            .ctor_call (q.m_memoryPool.m_memoryPool.allocate c).1 args :: q.events⟩) := by
      simp only [shared_object_pool.construct_at, hE]
    have htok : q.m_memoryPool.m_numElements.value - 1 + 1
        = q.m_memoryPool.m_numElements.value := by omega
    refine ⟨by rw [et]; exact t1, ?_, ?_, ?_⟩
    · rw [t2, hcat, et]
      exact ⟨rfl, rfl, hsize, htok⟩
    · intro d
      rw [t3 d, hcat]
      exact ⟨rfl, hsize, htok⟩
    · rw [t4, hcat]
      exact ⟨_, rfl, rfl, hsize, htok⟩

theorem failed_constructor_keeps_chunk_witness :
    demoConfig.Placed 16 ∧ demoElement.construct 0 = none ∧
    (∃ p : object_pool Nat, object_pool.ctor demoConfig demoMemory 16 = some p ∧
      PoolInv demoConfig 16 p.m_memoryPool [] ∧
      (p.m_memoryPool.try_allocate demoConfig).1 ≠ 0 ∧
      (p.try_construct demoConfig demoElement 0).1 = .throws ∧
      (p.try_construct demoConfig demoElement 0).2.m_memoryPool
        = (p.m_memoryPool.try_allocate demoConfig).2 ∧
      ((p.try_construct demoConfig demoElement 0).2.m_memoryPool.free_chunks
        demoConfig).length + 1 = (p.m_memoryPool.free_chunks demoConfig).length ∧
      (p.m_memoryPool.try_allocate demoConfig).1
        ∉ (p.try_construct demoConfig demoElement 0).2.m_memoryPool.free_chunks demoConfig) ∧
    (∃ q : shared_object_pool Nat, shared_object_pool.ctor demoConfig demoMemory 16 = some q ∧
      CountingInv demoConfig 16 q.m_memoryPool [] ∧
      0 < q.m_memoryPool.m_numElements.value ∧
      (q.try_construct demoConfig demoElement 0).2.size demoConfig = 2 ∧
      (q.m_memoryPool.try_allocate demoConfig).1 ≠ 0 ∧
      ((q.try_construct demoConfig demoElement 0).1 = .throws ∧
        (q.try_construct demoConfig demoElement 0).2.m_memoryPool
          = (q.m_memoryPool.try_allocate demoConfig).2 ∧
        (q.try_construct demoConfig demoElement 0).2.size demoConfig + 1
          = q.size demoConfig ∧
        (q.try_construct demoConfig demoElement 0).2.m_memoryPool.m_numElements.value + 1
          = q.m_memoryPool.m_numElements.value) ∧
      (∀ d, (q.try_construct_for demoConfig demoElement d 0).1 = .throws ∧
        (q.try_construct_for demoConfig demoElement d 0).2.size demoConfig + 1
          = q.size demoConfig ∧
        (q.try_construct_for demoConfig demoElement d 0).2.m_memoryPool.m_numElements.value
          + 1 = q.m_memoryPool.m_numElements.value) ∧
      (∃ r, q.construct demoConfig demoElement 0 = some r ∧ r.1 = .throws ∧
        r.2.size demoConfig + 1 = q.size demoConfig ∧
        r.2.m_memoryPool.m_numElements.value + 1 = q.m_memoryPool.m_numElements.value)) :=
  ⟨by decide, by decide,
    ⟨_, rfl, by decide, by decide,
      (failed_constructor_keeps_chunk demoConfig demoElement 0 16 [] (by decide)
        (by decide)).1 _ (by decide) (by decide)⟩,
    ⟨_, rfl, by decide, by decide, by decide,
      (failed_constructor_keeps_chunk demoConfig demoElement 0 16 [] (by decide)
        (by decide)).2 _ (by decide) (by decide)⟩⟩

namespace shared_object_pool

variable {Args Elem : Type}

end shared_object_pool

/-- C18 as stated fails: on an `object_pool` and on a `shared_object_pool` in
which an element was constructed at address 16 and never destroyed, the
destructor of the pool flags nothing and calls no destructor. -/
theorem pool_destructor_ignores_live_objects :
    (∃ p : object_pool Nat, object_pool.ctor demoConfig demoMemory 16 = some p ∧
      (p.try_construct demoConfig demoElement 515).1 = .returns 16 ∧
      (p.try_construct demoConfig demoElement 515).2.events = [.ctor_call 16 515] ∧
      (p.try_construct demoConfig demoElement 515).2.dtor.1 = false ∧
      (p.try_construct demoConfig demoElement 515).2.dtor.2.events = [.ctor_call 16 515]) ∧
    (∃ q : shared_object_pool Nat, shared_object_pool.ctor demoConfig demoMemory 16 = some q ∧
      (q.try_construct demoConfig demoElement 515).1 = .returns 16 ∧
      (q.try_construct demoConfig demoElement 515).2.events = [.ctor_call 16 515] ∧
      (q.try_construct demoConfig demoElement 515).2.dtor.1 = false ∧
      (q.try_construct demoConfig demoElement 515).2.dtor.2.events = [.ctor_call 16 515]) :=
  ⟨⟨_, rfl, by decide, by decide, by decide, by decide⟩,
    ⟨_, rfl, by decide, by decide, by decide, by decide⟩⟩

/-- C18, amended: the destructors of `object_pool` and `shared_object_pool`
have an empty body.  In every state, with or without objects that were
constructed from the pool and not destroyed, they flag nothing, call no
destructor of an element and leave the pool as it is. -/
theorem pool_destructor_does_nothing {Args : Type} :
    (∀ p : object_pool Args, p.dtor.1 = false ∧ p.dtor.2 = p ∧
      p.dtor.2.events = p.events) ∧
    (∀ q : shared_object_pool Args, q.dtor.1 = false ∧ q.dtor.2 = q ∧
      q.dtor.2.events = q.events) :=
  ⟨fun _ => ⟨rfl, rfl, rfl⟩, fun _ => ⟨rfl, rfl, rfl⟩⟩

/-- C19 as stated fails: `free` makes no check.  After chunk 16 of a fresh
pool was allocated and freed, a second `free(16)` is accepted: the chunk is
the head of the free list and its link points to itself, so the next four
allocations all return 16.  An address that the pool does not own (1000) is
accepted as well and handed out by the next allocation. -/
theorem free_accepts_unallocated_chunk :
    (memory_pool.ctor demoConfig demoMemory 16).map
      (fun p => ((((p.allocate demoConfig).2.free demoConfig 16).free demoConfig
          16).m_freeList.m_first,
        next demoConfig.ptrSize (((p.allocate demoConfig).2.free demoConfig 16).free
          demoConfig 16).m_freeList.mem 16,
        ((((p.allocate demoConfig).2.free demoConfig 16).free demoConfig 16).allocate_n
          demoConfig 4).1))
      = some (16, 16, [16, 16, 16, 16]) ∧
    1000 ∉ chunk_addrs 16 demoConfig.chunk_size demoConfig.numElem ∧
    (memory_pool.ctor demoConfig demoMemory 16).map
      (fun p => ((p.free demoConfig 1000).m_freeList.m_first,
        ((p.free demoConfig 1000).allocate demoConfig).1))
      = some (1000, 1000) := by
  decide

/-- C19, amended: `free` checks nothing.  For every pool state and every
address `chunk`, whether it is currently allocated from this pool or not,
`free(chunk)` stores the old head in the link of `chunk` and makes `chunk`
the head of the free list; a following allocation returns `chunk` if it is
not null.  On a `counting_memory_pool` a token is released as well. -/
theorem free_makes_no_check (c : Config) (p : memory_pool) (q : counting_memory_pool)
    (chunk : Nat) :
    (p.free c chunk).m_freeList.m_first = chunk ∧
    (p.free c chunk).m_data = p.m_data ∧
    (p.free c chunk).m_freeList.mem
      = set_next c.ptrSize p.m_freeList.mem chunk p.m_freeList.m_first ∧
    (p.m_freeList.m_first < 256 ^ c.ptrSize →
      next c.ptrSize (p.free c chunk).m_freeList.mem chunk = p.m_freeList.m_first) ∧
    (chunk ≠ 0 → ((p.free c chunk).allocate c).1 = chunk) ∧
    (q.free c chunk).m_memoryPool = q.m_memoryPool.free c chunk ∧
    (q.free c chunk).m_numElements.value = q.m_numElements.value + 1 := by
  refine ⟨rfl, rfl, rfl, ?_, ?_, rfl, rfl⟩
  · intro h
    exact next_set_next_same c.ptrSize _ chunk _ h
  · intro h
    have he : (p.free c chunk).empty = false := by
      cases hb : (p.free c chunk).empty with
      | false => rfl
      | true => exact absurd ((memory_pool.empty_iff _).1 hb) h
    rw [memory_pool.allocate_nonempty c _ he]
    rfl

theorem free_makes_no_check_witness :
    (⟨16, ⟨20, demoMemory⟩⟩ : memory_pool).m_freeList.m_first < 256 ^ demoConfig.ptrSize ∧
    16 ≠ 0 ∧
    ((⟨16, ⟨20, demoMemory⟩⟩ : memory_pool).free demoConfig 16).m_freeList.m_first = 16 ∧
    next demoConfig.ptrSize
      ((⟨16, ⟨20, demoMemory⟩⟩ : memory_pool).free demoConfig 16).m_freeList.mem 16 = 20 ∧
    (((⟨16, ⟨20, demoMemory⟩⟩ : memory_pool).free demoConfig 16).allocate demoConfig).1
      = 16 ∧
    ((⟨⟨16, ⟨20, demoMemory⟩⟩, ⟨1⟩⟩ : counting_memory_pool).free demoConfig
      16).m_numElements.value = 2 :=
  ⟨by decide, by decide,
    (free_makes_no_check demoConfig ⟨16, ⟨20, demoMemory⟩⟩ ⟨⟨16, ⟨20, demoMemory⟩⟩, ⟨1⟩⟩
      16).1,
    (free_makes_no_check demoConfig ⟨16, ⟨20, demoMemory⟩⟩ ⟨⟨16, ⟨20, demoMemory⟩⟩, ⟨1⟩⟩
      16).2.2.2.1 (by decide),
    (free_makes_no_check demoConfig ⟨16, ⟨20, demoMemory⟩⟩ ⟨⟨16, ⟨20, demoMemory⟩⟩, ⟨1⟩⟩
      16).2.2.2.2.1 (by decide),
    (free_makes_no_check demoConfig ⟨16, ⟨20, demoMemory⟩⟩ ⟨⟨16, ⟨20, demoMemory⟩⟩, ⟨1⟩⟩
      16).2.2.2.2.2.2⟩

theorem memory_pool.ctor_not_empty (c : Config) (mem : Memory) (base : Nat)
    (hp : c.Placed base) (hN : 1 ≤ c.numElem) :
    ∃ p, memory_pool.ctor c mem base = some p ∧ p.empty = false ∧
      (p.free_chunks c).length = c.numElem := by
  obtain ⟨p, h1, _, h3, h4⟩ := memory_pool.ctor_all_free c mem base hp
  refine ⟨p, h1, ?_, by rw [h3, chunk_addrs_length]⟩
  obtain ⟨k, hk⟩ : ∃ k, c.numElem = k + 1 := ⟨c.numElem - 1, by omega⟩
  have hc := h4.1
  rw [h3, hk, chunk_addrs_succ] at hc
  cases hb : p.empty with
  | false => rfl
  | true =>
    have h0 := (memory_pool.empty_iff p).1 hb
    have := hc.1
    have := hc.2.1
    omega

/-- C20: a freshly constructed pool of capacity `TNumElem >= 1` is not empty,
`capacity()` is `TNumElem` and `size()` is `TNumElem`; `capacity()` is
`TNumElem` in every state, whatever was allocated.  For `object_pool`,
`shared_object_pool` and `counting_memory_pool`. -/
theorem fresh_pool_capacity_and_size {Args : Type} (c : Config) (mem : Memory) (base : Nat)
    (hp : c.Placed base) (hN : 1 ≤ c.numElem) :
    (∃ p : object_pool Args, object_pool.ctor c mem base = some p ∧
      p.empty = false ∧ p.capacity c = c.numElem) ∧
    (∃ q : shared_object_pool Args, shared_object_pool.ctor c mem base = some q ∧
      q.empty = false ∧ q.capacity c = c.numElem ∧ q.size c = c.numElem) ∧
    (∃ r : counting_memory_pool, counting_memory_pool.ctor c mem base = some r ∧
      r.empty = false ∧ r.capacity c = c.numElem ∧ r.size c = c.numElem) ∧
    (∀ p : object_pool Args, p.capacity c = c.numElem) ∧
    (∀ q : shared_object_pool Args, q.capacity c = c.numElem) ∧
    (∀ r : counting_memory_pool, r.capacity c = c.numElem) := by
  obtain ⟨p, h1, h2, h3⟩ := memory_pool.ctor_not_empty c mem base hp hN
  refine ⟨⟨⟨p, []⟩, ?_, h2, rfl⟩, ⟨⟨⟨p, ⟨c.numElem⟩⟩, []⟩, ?_, h2, rfl, h3⟩,
    ⟨⟨p, ⟨c.numElem⟩⟩, ?_, h2, rfl, h3⟩, fun _ => rfl, fun _ => rfl, fun _ => rfl⟩
  · simp [object_pool.ctor, h1]
  · simp [shared_object_pool.ctor, counting_memory_pool.ctor, h1]
  · simp [counting_memory_pool.ctor, h1]

theorem fresh_pool_capacity_and_size_witness :
    demoConfig.Placed 16 ∧ 1 ≤ demoConfig.numElem ∧
    (∃ p : object_pool Nat, object_pool.ctor demoConfig demoMemory 16 = some p ∧
      p.empty = false ∧ p.capacity demoConfig = demoConfig.numElem) ∧
    (∃ q : shared_object_pool Nat, shared_object_pool.ctor demoConfig demoMemory 16 = some q ∧
      q.empty = false ∧ q.capacity demoConfig = demoConfig.numElem ∧
      q.size demoConfig = demoConfig.numElem) ∧
    (∃ r : counting_memory_pool, counting_memory_pool.ctor demoConfig demoMemory 16 = some r ∧
      r.empty = false ∧ r.capacity demoConfig = demoConfig.numElem ∧
      r.size demoConfig = demoConfig.numElem) ∧
    (∀ p : object_pool Nat, p.capacity demoConfig = demoConfig.numElem) ∧
    (∀ q : shared_object_pool Nat, q.capacity demoConfig = demoConfig.numElem) ∧
    (∀ r : counting_memory_pool, r.capacity demoConfig = demoConfig.numElem) :=
  ⟨by decide, by decide,
    fresh_pool_capacity_and_size demoConfig demoMemory 16 (by decide) (by decide)⟩

/-! ## Guard events, signals -/

/-- C27, the code at every pool state: `memory_pool::allocate` acquires the
guard and, still holding it, acquires it a second time inside the `empty()`
it calls, whereas `empty` and `free` acquire it once.  On a guard that is not
recursive the events of `allocate` block the caller on itself. -/
theorem allocate_acquires_guard_twice (c : Config) (p : memory_pool) (chunk : Nat) :
    (p.allocate_guarded c).1 = p.allocate c ∧
    (p.allocate_guarded c).2 = [.acquire, .acquire, .release, .release] ∧
    (p.allocate_guarded c).2.count .acquire = 2 ∧
    GuardEvent.run_non_recursive false (p.allocate_guarded c).2 = none ∧
    p.empty_guarded = (p.empty, [.acquire, .release]) ∧
    GuardEvent.run_non_recursive false p.empty_guarded.2 = some false ∧
    p.free_guarded c chunk = (p.free c chunk, [.acquire, .release]) ∧
    GuardEvent.run_non_recursive false (p.free_guarded c chunk).2 = some false := by
  have h2 : (p.allocate_guarded c).2 = [.acquire, .acquire, .release, .release] := by
    unfold memory_pool.allocate_guarded memory_pool.empty_guarded
    by_cases h : p.m_freeList.empty = true <;> simp [h]
  refine ⟨?_, h2, ?_, ?_, rfl, rfl, rfl, rfl⟩
  · unfold memory_pool.allocate_guarded memory_pool.empty_guarded memory_pool.allocate
      memory_pool.empty
    by_cases h : p.m_freeList.empty = true <;> simp [h]
  · rw [h2]; decide
  · rw [h2]; rfl

namespace cxx11

theorem testBit_bit_not (x i : Nat) :
    (bit_not x).testBit i = (x.testBit i != decide (i < 32)) := by
  unfold bit_not
  rw [Nat.testBit_xor, show (4294967295 : Nat) = 2 ^ 32 - 1 by norm_num,
    Nat.testBit_two_pow_sub_one]

theorem testBit_high (x i : Nat) (hx : x < 2 ^ 32) (hi : 32 ≤ i) : x.testBit i = false := by
  apply Nat.testBit_eq_false_of_lt
  exact Nat.lt_of_lt_of_le hx (Nat.pow_le_pow_right (by decide) hi)

theorem testBit_and_bit_not (s f i : Nat) (hs : s < 2 ^ 32) :
    (s &&& bit_not f).testBit i = (s.testBit i && !f.testBit i) := by
  rw [Nat.testBit_and, testBit_bit_not]
  by_cases hi : i < 32
  · simp [hi]
  · rw [testBit_high s i hs (by omega)]
    simp

theorem and_bit_not_zero (s : Nat) (hs : s < 2 ^ 32) : s &&& bit_not 0 = s := by
  apply Nat.eq_of_testBit_eq
  intro i
  rw [testBit_and_bit_not s 0 i hs]
  simp

theorem and_eq_iff_subset (s f : Nat) :
    s &&& f = f ↔ ∀ i, f.testBit i = true → s.testBit i = true := by
  constructor
  · intro h i hf
    have : (s &&& f).testBit i = true := by rw [h]; exact hf
    rw [Nat.testBit_and] at this
    simp only [Bool.and_eq_true] at this
    exact this.1
  · intro h
    apply Nat.eq_of_testBit_eq
    intro i
    rw [Nat.testBit_and]
    cases hf : f.testBit i
    · simp
    · simp [h i hf]

end cxx11

/-- C28: `try_wait_for_all_signals(F)` of the C++11 backend on the signal state
`S`: when all flags of `F` are set in `S` it returns `F` and leaves `S & ~F`,
in which exactly the flags of `F` are reset and all others are as in `S`;
otherwise it returns zero and leaves `S` unchanged. -/
theorem try_wait_for_all_signals_all_or_nothing (S F : Nat) (hS : S < 2 ^ 32)
    (hF : F < 2 ^ 32) :
    (S &&& F = F ↔ ∀ i, F.testBit i = true → S.testBit i = true) ∧
    (S &&& F = F →
      cxx11.try_wait_for_all_signals S F = (F, S &&& cxx11.bit_not F) ∧
      (∀ i, (cxx11.try_wait_for_all_signals S F).2.testBit i
        = (S.testBit i && !F.testBit i)) ∧
      (cxx11.try_wait_for_all_signals S F).2 < 2 ^ 32) ∧
    (S &&& F ≠ F → cxx11.try_wait_for_all_signals S F = (0, S)) ∧
    (cxx11.try_wait_for_all_signals S F).1 < 2 ^ 32 := by
  refine ⟨cxx11.and_eq_iff_subset S F, ?_, ?_, ?_⟩
  · intro h
    have e : cxx11.try_wait_for_all_signals S F = (F, S &&& cxx11.bit_not F) := by
      simp only [cxx11.try_wait_for_all_signals, if_pos h]
    rw [e]
    refine ⟨rfl, fun i => cxx11.testBit_and_bit_not S F i hS, ?_⟩
    exact Nat.lt_of_le_of_lt Nat.and_le_left hS
  · intro h
    simp only [cxx11.try_wait_for_all_signals, if_neg h, cxx11.and_bit_not_zero S hS]
  · by_cases h : S &&& F = F
    · simp only [cxx11.try_wait_for_all_signals, if_pos h]
      exact hF
    · simp only [cxx11.try_wait_for_all_signals, if_neg h]
      exact Nat.pos_pow_of_pos _ (by decide)

theorem try_wait_for_all_signals_all_or_nothing_witness :
    (13 < 2 ^ 32 ∧ 5 < 2 ^ 32 ∧ 13 &&& 5 = 5 ∧
      cxx11.try_wait_for_all_signals 13 5 = (5, 8) ∧
      cxx11.try_wait_for_all_signals 13 5 = (5, 13 &&& cxx11.bit_not 5) ∧
      (∀ i, (cxx11.try_wait_for_all_signals 13 5).2.testBit i
        = (Nat.testBit 13 i && !Nat.testBit 5 i)) ∧
      (cxx11.try_wait_for_all_signals 13 5).2 < 2 ^ 32) ∧
    (13 < 2 ^ 32 ∧ 6 < 2 ^ 32 ∧ 13 &&& 6 ≠ 6 ∧
      cxx11.try_wait_for_all_signals 13 6 = (0, 13)) :=
  ⟨⟨by decide, by decide, by decide, by decide,
      (try_wait_for_all_signals_all_or_nothing 13 5 (by decide) (by decide)).2.1
        (by decide)⟩,
    ⟨by decide, by decide, by decide,
      (try_wait_for_all_signals_all_or_nothing 13 6 (by decide) (by decide)).2.2.1
        (by decide)⟩⟩

/-- C29: `try_wait_for_any_signal` of the C++11 backend on the signal state
`S` returns `S` and leaves no flag set; it returns zero exactly when no
signal was set.  `set_signals(F)` leaves `S | F` and `clear_signals(F)`
leaves `S & ~F`: a flag is set afterwards when it was set in `S` or is in
`F`, respectively when it was set in `S` and is not in `F`. -/
theorem try_wait_for_any_signal_takes_all (S F : Nat) (hS : S < 2 ^ 32) (hF : F < 2 ^ 32) :
    cxx11.try_wait_for_any_signal S = (S, 0) ∧
    ((cxx11.try_wait_for_any_signal S).1 = 0 ↔ S = 0) ∧
    cxx11.set_signals S F = S ||| F ∧
    (∀ i, (cxx11.set_signals S F).testBit i = (S.testBit i || F.testBit i)) ∧
    cxx11.set_signals S F < 2 ^ 32 ∧
    cxx11.clear_signals S F = S &&& cxx11.bit_not F ∧
    (∀ i, (cxx11.clear_signals S F).testBit i = (S.testBit i && !F.testBit i)) ∧
    cxx11.clear_signals S F < 2 ^ 32 := by
  refine ⟨rfl, Iff.rfl, rfl, fun i => Nat.testBit_or S F i, Nat.or_lt_two_pow hS hF, rfl,
    fun i => cxx11.testBit_and_bit_not S F i hS, Nat.lt_of_le_of_lt Nat.and_le_left hS⟩

theorem try_wait_for_any_signal_takes_all_witness :
    12 < 2 ^ 32 ∧ 6 < 2 ^ 32 ∧
    cxx11.set_signals 12 6 = 14 ∧ cxx11.clear_signals 12 6 = 8 ∧
    cxx11.try_wait_for_any_signal 12 = (12, 0) ∧
    ((cxx11.try_wait_for_any_signal 12).1 = 0 ↔ 12 = 0) ∧
    cxx11.set_signals 12 6 = 12 ||| 6 ∧
    (∀ i, (cxx11.set_signals 12 6).testBit i = (Nat.testBit 12 i || Nat.testBit 6 i)) ∧
    cxx11.set_signals 12 6 < 2 ^ 32 ∧
    cxx11.clear_signals 12 6 = 12 &&& cxx11.bit_not 6 ∧
    (∀ i, (cxx11.clear_signals 12 6).testBit i = (Nat.testBit 12 i && !Nat.testBit 6 i)) ∧
    cxx11.clear_signals 12 6 < 2 ^ 32 :=
  ⟨by decide, by decide, by decide, by decide,
    try_wait_for_any_signal_takes_all 12 6 (by decide) (by decide)⟩

/-- C30: `try_wait_for_any_signal` of the CMSIS backend, as a function of the
result of `osSignalWait`: on the status `osEventSignal` it returns the
reported signal flags (converted to the 16 bit `signal_set`, which keeps
every flag set that fits), on `osOK` and on `osEventTimeout` it returns zero,
and on every other status it returns no value and raises a system error that
carries the status. -/
theorem cmsis_try_wait_for_any_signal_by_status (result : cmsis.osEvent) :
    (result.status = .osEventSignal →
      cmsis.try_wait_for_any_signal result = .ok (result.signals % 65536) ∧
      (result.signals < 65536 →
        cmsis.try_wait_for_any_signal result = .ok result.signals)) ∧
    (result.status = .osOK ∨ result.status = .osEventTimeout →
      cmsis.try_wait_for_any_signal result = .ok 0) ∧
    (result.status ≠ .osEventSignal → result.status ≠ .osOK →
      result.status ≠ .osEventTimeout →
      cmsis.try_wait_for_any_signal result = .error result.status) := by
  refine ⟨?_, ?_, ?_⟩
  · intro h
    have e : cmsis.try_wait_for_any_signal result = .ok (result.signals % 65536) := by
      simp [cmsis.try_wait_for_any_signal, cmsis.to_signal_set, h]
    refine ⟨e, fun hlt => ?_⟩
    rw [e, Nat.mod_eq_of_lt hlt]
  · rintro (h | h) <;> simp [cmsis.try_wait_for_any_signal, h]
  · intro h1 h2 h3
    simp [cmsis.try_wait_for_any_signal, h1, h2, h3]

theorem cmsis_try_wait_for_any_signal_by_status_witness :
    ((⟨.osEventSignal, 5⟩ : cmsis.osEvent).status = .osEventSignal ∧
      (⟨.osEventSignal, 5⟩ : cmsis.osEvent).signals < 65536 ∧
      cmsis.try_wait_for_any_signal ⟨.osEventSignal, 5⟩ = .ok 5) ∧
    cmsis.try_wait_for_any_signal ⟨.osOK, 5⟩ = .ok 0 ∧
    cmsis.try_wait_for_any_signal ⟨.osEventTimeout, 5⟩ = .ok 0 ∧
    cmsis.try_wait_for_any_signal ⟨.osErrorResource, 5⟩ = .error .osErrorResource :=
  ⟨⟨rfl, by decide,
      ((cmsis_try_wait_for_any_signal_by_status ⟨.osEventSignal, 5⟩).1 rfl).2 (by decide)⟩,
    (cmsis_try_wait_for_any_signal_by_status ⟨.osOK, 5⟩).2.1 (Or.inl rfl),
    (cmsis_try_wait_for_any_signal_by_status ⟨.osEventTimeout, 5⟩).2.1 (Or.inr rfl),
    (cmsis_try_wait_for_any_signal_by_status ⟨.osErrorResource, 5⟩).2.2 (by decide)
      (by decide) (by decide)⟩

namespace condition_variable

/-! ## The wait queue -/

theorem IsQueue_iff_IsSeg (nodes : Nat → WaitingThread) :
    ∀ (l : List Nat) (p : Nat), IsQueue nodes p l ↔ IsSeg nodes p l 0 := by
  intro l
  induction l with
  | nil => intro p; exact Iff.rfl
  | cons a l ih =>
    intro p
    simp only [IsQueue, IsSeg, ih]

theorem IsSeg_congr (n1 n2 : Nat → WaitingThread) :
    ∀ (l : List Nat) (p q : Nat), (∀ a ∈ l, (n1 a).next = (n2 a).next) →
      IsSeg n1 p l q → IsSeg n2 p l q := by
  intro l
  induction l with
  | nil => intro p q _ h; exact h
  | cons a l ih =>
    intro p q hl h
    obtain ⟨h1, h2, h3⟩ := h
    refine ⟨h1, h2, ?_⟩
    rw [← hl a (List.mem_cons_self a l)]
    exact ih _ _ (fun b hb => hl b (List.mem_cons_of_mem a hb)) h3

theorem IsQueue_same_links (n1 n2 : Nat → WaitingThread) (l : List Nat) (p : Nat)
    (hl : ∀ a ∈ l, (n1 a).next = (n2 a).next) (h : IsQueue n1 p l) : IsQueue n2 p l :=
  (IsQueue_iff_IsSeg n2 l p).2 (IsSeg_congr n1 n2 l p 0 hl ((IsQueue_iff_IsSeg n1 l p).1 h))

theorem IsSeg_append (nodes : Nat → WaitingThread) :
    ∀ (l1 l2 : List Nat) (p q : Nat),
      IsSeg nodes p (l1 ++ l2) q ↔ ∃ m, IsSeg nodes p l1 m ∧ IsSeg nodes m l2 q := by
  intro l1
  induction l1 with
  | nil =>
    intro l2 p q
    constructor
    · intro h; exact ⟨p, rfl, h⟩
    · rintro ⟨m, h1, h2⟩
      have : p = m := h1
      subst this
      exact h2
  | cons a l1 ih =>
    intro l2 p q
    show IsSeg nodes p (a :: (l1 ++ l2)) q ↔ _
    constructor
    · rintro ⟨h1, h2, h3⟩
      obtain ⟨m, h4, h5⟩ := (ih l2 _ q).1 h3
      exact ⟨m, ⟨h1, h2, h4⟩, h5⟩
    · rintro ⟨m, ⟨h1, h2, h3⟩, h4⟩
      exact ⟨h1, h2, (ih l2 _ q).2 ⟨m, h3, h4⟩⟩

theorem queue_from_eq_of_IsQueue (nodes : Nat → WaitingThread) :
    ∀ (l : List Nat) (fuel p : Nat), IsQueue nodes p l → l.length ≤ fuel →
      queue_from nodes fuel p = l := by
  intro l
  induction l with
  | nil =>
    intro fuel p h _
    have hp : p = 0 := h
    cases fuel <;> simp [queue_from, hp]
  | cons a l ih =>
    intro fuel p h hlen
    obtain ⟨h1, h2, h3⟩ := h
    cases fuel with
    | zero => simp at hlen
    | succ fuel =>
      subst h1
      simp only [queue_from, if_neg h2]
      rw [ih fuel _ h3 (by simpa using hlen)]

theorem IsQueue_unique (nodes : Nat → WaitingThread) (p : Nat) (l1 l2 : List Nat)
    (h1 : IsQueue nodes p l1) (h2 : IsQueue nodes p l2) : l1 = l2 := by
  have e1 := queue_from_eq_of_IsQueue nodes l1 (l1.length + l2.length) p h1 (by omega)
  have e2 := queue_from_eq_of_IsQueue nodes l2 (l1.length + l2.length) p h2 (by omega)
  exact e1.symm.trans e2

/-- A queue that ends in the null pointer holds every node once. -/
theorem IsQueue_nodup (nodes : Nat → WaitingThread) :
    ∀ (l : List Nat) (p : Nat), IsQueue nodes p l → l.Nodup := by
  intro l
  induction l with
  | nil => intro p _; exact List.nodup_nil
  | cons a l ih =>
    intro p h
    obtain ⟨_, h2, h3⟩ := h
    refine List.nodup_cons.2 ⟨?_, ih _ h3⟩
    intro ha
    obtain ⟨l1, l2, e⟩ := List.append_of_mem ha
    have h4 := (IsQueue_iff_IsSeg nodes l _).1 h3
    rw [e, IsSeg_append] at h4
    obtain ⟨m, _, hm⟩ := h4
    have h5 : IsQueue nodes (nodes a).next l2 := (IsQueue_iff_IsSeg nodes l2 _).2 hm.2.2
    have := IsQueue_unique nodes _ l l2 h3 h5
    have hlen := congrArg List.length this
    rw [e] at hlen
    simp at hlen
    omega

end condition_variable

namespace condition_variable

theorem signal_head_node (cv : condition_variable) :
    cv.signal_head.nodes cv.m_waitingThreads
      = ⟨(cv.nodes cv.m_waitingThreads).next, (cv.nodes cv.m_waitingThreads).signal.post,
          true⟩ := by
  simp [signal_head]

theorem signal_head_other (cv : condition_variable) (b : Nat) (h : b ≠ cv.m_waitingThreads) :
    cv.signal_head.nodes b = cv.nodes b := by
  simp [signal_head, Function.update_noteq h]

theorem signal_head_next (cv : condition_variable) (b : Nat) :
    (cv.signal_head.nodes b).next = (cv.nodes b).next := by
  by_cases h : b = cv.m_waitingThreads
  · subst h; rw [signal_head_node]
  · rw [signal_head_other cv b h]

theorem signal_head_posted (cv : condition_variable) :
    cv.signal_head.posted = cv.posted ++ [cv.m_waitingThreads] := by
  simp [signal_head, posted, List.filterMap_append, CvEvent.post_target]

theorem notify_one_empty (cv : condition_variable) (h : cv.m_waitingThreads = 0) :
    cv.notify_one = cv := by
  simp [notify_one, h]

theorem notify_one_nonempty (cv : condition_variable) (h : cv.m_waitingThreads ≠ 0) :
    cv.notify_one = cv.signal_head := by
  simp [notify_one, h]

/-- What `notify_one` does to a queue with head `a`. -/
theorem notify_one_cons (cv : condition_variable) (a : Nat) (l : List Nat)
    (h : IsQueue cv.nodes cv.m_waitingThreads (a :: l)) :
    cv.notify_one = cv.signal_head ∧ cv.m_waitingThreads = a ∧ a ∉ l ∧
    IsQueue cv.notify_one.nodes cv.notify_one.m_waitingThreads l ∧
    cv.notify_one.posted = cv.posted ++ [a] ∧
    cv.notify_one.nodes a = ⟨(cv.nodes a).next, (cv.nodes a).signal.post, true⟩ ∧
    (∀ b, b ≠ a → cv.notify_one.nodes b = cv.nodes b) := by
  have hnd := IsQueue_nodup cv.nodes _ _ h
  obtain ⟨h1, h2, h3⟩ := h
  have hne : cv.m_waitingThreads ≠ 0 := by rw [h1]; exact h2
  have e := notify_one_nonempty cv hne
  rw [e]
  refine ⟨rfl, h1, (List.nodup_cons.1 hnd).1, ?_, ?_, ?_, ?_⟩
  · have hh : cv.signal_head.m_waitingThreads = (cv.nodes a).next := by
      rw [← h1]; rfl
    rw [hh]
    exact IsQueue_same_links cv.nodes _ l _ (fun b _ => (signal_head_next cv b).symm) h3
  · rw [signal_head_posted, h1]
  · rw [← h1]; exact signal_head_node cv
  · intro b hb
    exact signal_head_other cv b (by rw [h1]; exact hb)

/-- The effect of `k` calls of `notify_one` on a queue `l`. -/
theorem notify_one_iterate :
    ∀ (k : Nat) (l : List Nat) (cv : condition_variable),
      IsQueue cv.nodes cv.m_waitingThreads l →
      IsQueue (notify_one^[k] cv).nodes (notify_one^[k] cv).m_waitingThreads (l.drop k) ∧
      (notify_one^[k] cv).posted = cv.posted ++ l.take k ∧
      (∀ a ∈ l.take k, (notify_one^[k] cv).nodes a
        = ⟨(cv.nodes a).next, (cv.nodes a).signal.post, true⟩) ∧
      (∀ b, b ∉ l.take k → (notify_one^[k] cv).nodes b = cv.nodes b) := by
  intro k
  induction k with
  | zero =>
    intro l cv h
    simpa using h
  | succ k ih =>
    intro l cv h
    rw [Function.iterate_succ_apply]
    cases l with
    | nil =>
      have h0 : cv.m_waitingThreads = 0 := h
      rw [notify_one_empty cv h0]
      have := ih [] cv h
      simpa using this
    | cons a l =>
      obtain ⟨_, _, n3, n4, n5, n6, n7⟩ := notify_one_cons cv a l h
      obtain ⟨i1, i2, i3, i4⟩ := ih l cv.notify_one n4
      refine ⟨by simpa using i1, ?_, ?_, ?_⟩
      · rw [i2, n5]; simp
      · intro b hb
        rw [List.take_succ_cons, List.mem_cons] at hb
        by_cases hbl : b ∈ l.take k
        · rw [i3 b hbl]
          have hba : b ≠ a := fun e => n3 (List.mem_of_mem_take (e ▸ hbl))
          rw [n7 b hba]
        · have hba : b = a := by
            rcases hb with hb | hb
            · exact hb
            · exact absurd hb hbl
          rw [i4 b hbl, hba, n6]
      · intro b hb
        rw [List.take_succ_cons, List.mem_cons, not_or] at hb
        rw [i4 b hb.2, n7 b hb.1]

/-- The loop of `notify_all` returns, with the state that one call of
`notify_one` for each queued node gives. -/
theorem notify_all_eq_iterate :
    ∀ (l : List Nat) (cv : condition_variable) (fuel : Nat),
      IsQueue cv.nodes cv.m_waitingThreads l → l.length ≤ fuel →
      notify_all fuel cv = some (notify_one^[l.length] cv) := by
  intro l
  induction l with
  | nil =>
    intro cv fuel h _
    have h0 : cv.m_waitingThreads = 0 := h
    cases fuel <;> simp [notify_all, h0]
  | cons a l ih =>
    intro cv fuel h hf
    obtain ⟨n1, n2, _, n4, _⟩ := notify_one_cons cv a l h
    have hne : cv.m_waitingThreads ≠ 0 := by rw [n2]; exact h.2.1
    obtain ⟨f, rfl⟩ : ∃ f, fuel = f + 1 := ⟨fuel - 1, by simp at hf; omega⟩
    simp only [notify_all, if_neg hne, List.length_cons, Function.iterate_succ_apply]
    rw [← n1]
    exact ih cv.notify_one f n4 (by simpa using hf)

end condition_variable

namespace condition_variable

theorem IsSeg_start_ne_zero (nodes : Nat → WaitingThread) (l : List Nat) (p t : Nat)
    (h : IsSeg nodes p l t) (ht : t ≠ 0) : p ≠ 0 := by
  cases l with
  | nil =>
    have : p = t := h
    rw [this]; exact ht
  | cons a l =>
    rw [h.1]; exact h.2.1

/-- The loop of `enqueue` walks to the last node of the queue and only reads
links of queued nodes. -/
theorem enqueue_loop_last (nodes : Nat → WaitingThread) (t : Nat) (ht : t ≠ 0)
    (hnext : (nodes t).next = 0) :
    ∀ (l1 : List Nat) (iter fuel : Nat) (ev : List CvEvent), IsSeg nodes iter l1 t →
      l1.length ≤ fuel →
      ∃ E, enqueue_loop nodes fuel iter ev = some (t, ev ++ E) ∧
        ∀ e ∈ E, ∃ a ∈ l1 ++ [t], e = CvEvent.read_next a := by
  intro l1
  induction l1 with
  | nil =>
    intro iter fuel ev h _
    have hi : iter = t := h
    subst hi
    refine ⟨[.read_next iter], ?_, ?_⟩
    · cases fuel <;> simp [enqueue_loop, hnext]
    · intro e he
      simp only [List.mem_singleton] at he
      exact ⟨iter, by simp, he⟩
  | cons a l1 ih =>
    intro iter fuel ev h hf
    obtain ⟨h1, h2, h3⟩ := h
    subst h1
    have hne : (nodes iter).next ≠ 0 := IsSeg_start_ne_zero nodes l1 _ t h3 ht
    obtain ⟨f, rfl⟩ : ∃ f, fuel = f + 1 := ⟨fuel - 1, by simp at hf; omega⟩
    obtain ⟨E, hE1, hE2⟩ := ih (nodes iter).next f
      (ev ++ [.read_next iter, .read_next iter]) h3 (by simpa using hf)
    refine ⟨[.read_next iter, .read_next iter] ++ E, ?_, ?_⟩
    · simp only [enqueue_loop, if_neg hne, hE1, List.append_assoc]
    · intro e he
      rw [List.mem_append] at he
      rcases he with he | he
      · refine ⟨iter, by simp, ?_⟩
        simp only [List.mem_cons, List.mem_singleton, List.not_mem_nil, or_false, or_self] at he
        exact he
      · obtain ⟨b, hb, e1⟩ := hE2 e he
        exact ⟨b, by simp only [List.cons_append, List.mem_cons]; exact Or.inr hb, e1⟩

/-- Member `enqueue` appends the node `w` to the queue. -/
theorem enqueue_appends (cv : condition_variable) (l : List Nat) (w fuel : Nat)
    (h : IsQueue cv.nodes cv.m_waitingThreads l) (hw0 : w ≠ 0) (hwl : w ∉ l)
    (hwn : (cv.nodes w).next = 0) (hf : l.length ≤ fuel) :
    ∃ cv1 E, enqueue fuel cv w = some cv1 ∧
      IsQueue cv1.nodes cv1.m_waitingThreads (l ++ [w]) ∧
      cv1.events = cv.events ++ E ∧
      (∀ e ∈ E, ∃ a ∈ l, e = CvEvent.read_next a ∨ e = CvEvent.write_next a) ∧
      (∀ b, (cv1.nodes b).dequeued = (cv.nodes b).dequeued ∧
        (cv1.nodes b).signal = (cv.nodes b).signal) ∧
      (∀ b, b ∉ l → cv1.nodes b = cv.nodes b) := by
  rcases List.eq_nil_or_concat l with hl | ⟨l1, t, hl⟩
  · subst hl
    have h0 : cv.m_waitingThreads = 0 := h
    refine ⟨⟨w, cv.nodes, cv.events⟩, [], by simp [enqueue, h0], ?_, by simp, by simp,
      fun _ => ⟨rfl, rfl⟩, fun _ _ => rfl⟩
    exact ⟨rfl, hw0, by rw [hwn]; rfl⟩
  · rw [List.concat_eq_append] at hl
    subst hl
    have hnd := IsQueue_nodup cv.nodes _ _ h
    have hs := (IsQueue_iff_IsSeg cv.nodes _ _).1 h
    rw [IsSeg_append] at hs
    obtain ⟨m, hs1, hs2⟩ := hs
    obtain ⟨hm, ht0, htn⟩ := hs2
    subst hm
    have htn0 : (cv.nodes m).next = 0 := htn
    have hhead : cv.m_waitingThreads ≠ 0 := IsSeg_start_ne_zero cv.nodes l1 _ m hs1 ht0
    obtain ⟨E, hE1, hE2⟩ := enqueue_loop_last cv.nodes m ht0 htn0 l1 cv.m_waitingThreads fuel
      cv.events hs1 (by simp at hf; omega)
    have hml1 : m ∉ l1 := by
      rw [List.nodup_append] at hnd
      intro hin
      exact hnd.2.2 hin (List.mem_singleton_self m)
    have hwm : w ≠ m := by
      intro e
      apply hwl
      rw [e]; simp
    refine ⟨⟨cv.m_waitingThreads,
        Function.update cv.nodes m { cv.nodes m with next := w },
        cv.events ++ E ++ [.write_next m]⟩, E ++ [.write_next m], ?_, ?_, ?_, ?_, ?_, ?_⟩
    · simp only [enqueue, if_neg hhead, hE1]
    · have k1 : IsSeg (Function.update cv.nodes m { cv.nodes m with next := w })
          cv.m_waitingThreads l1 m := by
        apply IsSeg_congr cv.nodes _ l1 _ _ _ hs1
        intro a ha
        have : a ≠ m := fun e => hml1 (e ▸ ha)
        simp [Function.update_noteq this]
      have k2 : IsSeg (Function.update cv.nodes m { cv.nodes m with next := w })
          m ([m] ++ [w]) 0 := by
        refine ⟨rfl, ht0, ?_⟩
        simp only [Function.update_same]
        refine ⟨rfl, hw0, ?_⟩
        simp only [Function.update_noteq hwm]
        exact hwn
      apply (IsQueue_iff_IsSeg _ _ _).2
      have k3 := (IsSeg_append _ l1 ([m] ++ [w]) _ 0).2 ⟨m, k1, k2⟩
      rw [← List.append_assoc] at k3
      exact k3
    · simp
    · intro e he
      rw [List.mem_append] at he
      rcases he with he | he
      · obtain ⟨a, ha, e1⟩ := hE2 e he
        exact ⟨a, ha, Or.inl e1⟩
      · simp only [List.mem_singleton] at he
        exact ⟨m, by simp, Or.inr he⟩
    · intro b
      by_cases hb : b = m
      · subst hb; simp
      · simp [Function.update_noteq hb]
    · intro b hb
      have : b ≠ m := by
        intro e
        apply hb
        rw [e]; simp
      simp [Function.update_noteq this]

/-- The loop of `maybeDequeue` walks to the node in front of `w` and only
reads links of the nodes in front of `w`. -/
theorem dequeue_loop_finds (nodes : Nat → WaitingThread) (w : Nat) (hw0 : w ≠ 0) (pred : Nat) :
    ∀ (l1 : List Nat) (iter fuel : Nat) (ev : List CvEvent),
      IsSeg nodes iter (l1 ++ [pred]) w → w ∉ l1 ++ [pred] → l1.length ≤ fuel →
      ∃ E, dequeue_loop nodes w fuel iter ev = some (.ok (pred, ev ++ E)) ∧
        ∀ e ∈ E, ∃ a ∈ l1 ++ [pred], e = CvEvent.read_next a := by
  intro l1
  induction l1 with
  | nil =>
    intro iter fuel ev h _ _
    obtain ⟨h1, _, h3⟩ := h
    subst h1
    have hn : (nodes iter).next = w := h3
    refine ⟨[.read_next iter], ?_, ?_⟩
    · cases fuel <;> simp [dequeue_loop, hn]
    · intro e he
      simp only [List.mem_singleton] at he
      exact ⟨iter, by simp, he⟩
  | cons a l1 ih =>
    intro iter fuel ev h hw hf
    obtain ⟨h1, h2, h3⟩ := h
    subst h1
    have hw2 : w ∉ l1 ++ [pred] := fun hin => hw (List.mem_cons_of_mem _ hin)
    have hne0 : (nodes iter).next ≠ 0 :=
      IsSeg_start_ne_zero nodes (l1 ++ [pred]) _ w h3 hw0
    have hnew : (nodes iter).next ≠ w := by
      intro e
      cases l1 with
      | nil =>
        have := h3.1
        apply hw2
        rw [← this, e]; simp
      | cons b l1 =>
        have := h3.1
        apply hw2
        rw [← this, e]; simp
    obtain ⟨f, rfl⟩ : ∃ f, fuel = f + 1 := ⟨fuel - 1, by simp at hf; omega⟩
    obtain ⟨E, hE1, hE2⟩ := ih (nodes iter).next f
      (ev ++ [.read_next iter, .read_next iter]) h3 hw2 (by simpa using hf)
    refine ⟨[.read_next iter, .read_next iter] ++ E, ?_, ?_⟩
    · simp only [dequeue_loop, if_neg hnew, if_neg hne0, hE1, List.append_assoc]
    · intro e he
      rw [List.mem_append] at he
      rcases he with he | he
      · refine ⟨iter, by simp, ?_⟩
        simp only [List.mem_cons, List.mem_singleton, List.not_mem_nil, or_false, or_self] at he
        exact he
      · obtain ⟨b, hb, e1⟩ := hE2 e he
        exact ⟨b, by simp only [List.cons_append, List.mem_cons]; exact Or.inr hb, e1⟩

end condition_variable

namespace condition_variable

theorem maybeDequeue_flagged (cv : condition_variable) (w fuel : Nat)
    (hd : (cv.nodes w).dequeued = true) :
    maybeDequeue fuel cv w
      = some (.ok ⟨cv.m_waitingThreads, cv.nodes, cv.events ++ [.read_dequeued w]⟩) := by
  simp [maybeDequeue, hd]

/-- Member `maybeDequeue` takes a queued, not dequeued node `w` out of the
queue. -/
theorem maybeDequeue_erases (cv : condition_variable) (l : List Nat) (w fuel : Nat)
    (h : IsQueue cv.nodes cv.m_waitingThreads l) (hw : w ∈ l)
    (hd : (cv.nodes w).dequeued = false) (hf : l.length ≤ fuel) :
    ∃ cv1 E, maybeDequeue fuel cv w = some (.ok cv1) ∧
      IsQueue cv1.nodes cv1.m_waitingThreads (l.erase w) ∧
      cv1.events = cv.events ++ E ∧
      (∀ e ∈ E, e = CvEvent.read_dequeued w ∨
        ∃ a ∈ l, e = CvEvent.read_next a ∨ e = CvEvent.write_next a) ∧
      (∀ b, (cv1.nodes b).dequeued = (cv.nodes b).dequeued ∧
        (cv1.nodes b).signal = (cv.nodes b).signal) ∧
      (∀ b, b ∉ l → cv1.nodes b = cv.nodes b) ∧ cv1.nodes w = cv.nodes w := by
  have hnd := IsQueue_nodup cv.nodes _ _ h
  obtain ⟨l1, l2, hl⟩ := List.append_of_mem hw
  subst hl
  have hs := (IsQueue_iff_IsSeg cv.nodes _ _).1 h
  rw [IsSeg_append] at hs
  obtain ⟨m, hs1, hs2⟩ := hs
  obtain ⟨hm, hw0, hs3⟩ := hs2
  subst hm
  have hwl1 : m ∉ l1 := by
    rw [List.nodup_append] at hnd
    exact fun hin => hnd.2.2 hin (List.mem_cons_self m l2)
  have hwl2 : m ∉ l2 := by
    rw [List.nodup_append] at hnd
    exact (List.nodup_cons.1 hnd.2.1).1
  have herase : (l1 ++ m :: l2).erase m = l1 ++ l2 := by
    rw [List.erase_append_right _ hwl1, List.erase_cons_head]
  have hhead0 : cv.m_waitingThreads ≠ 0 :=
    IsSeg_start_ne_zero cv.nodes l1 _ m hs1 hw0
  rw [herase]
  rcases List.eq_nil_or_concat l1 with hl1 | ⟨l1a, pred, hl1⟩
  · subst hl1
    have hhead : cv.m_waitingThreads = m := hs1
    refine ⟨⟨(cv.nodes m).next, cv.nodes, cv.events ++ [.read_dequeued m, .read_next m]⟩,
      [.read_dequeued m, .read_next m], ?_, ?_, rfl, ?_, fun _ => ⟨rfl, rfl⟩,
      fun _ _ => rfl, rfl⟩
    · simp [maybeDequeue, hd, hhead, hw0]
    · exact (IsQueue_iff_IsSeg _ _ _).2 hs3
    · intro e he
      simp only [List.mem_cons, List.mem_singleton, List.not_mem_nil, or_false] at he
      rcases he with he | he
      · exact Or.inl he
      · exact Or.inr ⟨m, by simp, Or.inl he⟩
  · rw [List.concat_eq_append] at hl1
    subst hl1
    have hheadne : cv.m_waitingThreads ≠ m := by
      intro e
      apply hwl1
      cases l1a with
      | nil =>
        have := hs1.1
        rw [← this, e]; simp
      | cons b l1a =>
        have := hs1.1
        rw [← this, e]; simp
    obtain ⟨E, hE1, hE2⟩ := dequeue_loop_finds cv.nodes m hw0 pred l1a cv.m_waitingThreads
      fuel (cv.events ++ [.read_dequeued m]) hs1 hwl1 (by simp at hf; omega)
    have hs1' := hs1
    rw [IsSeg_append] at hs1'
    obtain ⟨q, hq1, hq2⟩ := hs1'
    obtain ⟨hq, hp0, _⟩ := hq2
    subst hq
    have hpl1a : q ∉ l1a := by
      have : (l1a ++ [q]).Nodup := (List.nodup_append.1 hnd).1
      rw [List.nodup_append] at this
      exact fun hin => this.2.2 hin (List.mem_singleton_self q)
    have hpl2 : q ∉ l2 := by
      rw [List.nodup_append] at hnd
      exact fun hin => hnd.2.2 (by simp) (List.mem_cons_of_mem m hin)
    have hqm : q ≠ m := by
      intro e
      apply hwl1
      rw [← e]; simp
    have k1 : IsSeg (Function.update cv.nodes q { cv.nodes q with next := (cv.nodes m).next })
        cv.m_waitingThreads l1a q := by
      apply IsSeg_congr cv.nodes _ l1a _ _ _ hq1
      intro a ha
      have : a ≠ q := fun e => hpl1a (e ▸ ha)
      simp [Function.update_noteq this]
    have k2 : IsSeg (Function.update cv.nodes q { cv.nodes q with next := (cv.nodes m).next })
        (cv.nodes m).next l2 0 := by
      apply IsSeg_congr cv.nodes _ l2 _ _ _ hs3
      intro a ha
      have : a ≠ q := fun e => hpl2 (e ▸ ha)
      simp [Function.update_noteq this]
    have k3 : IsSeg (Function.update cv.nodes q { cv.nodes q with next := (cv.nodes m).next })
        q ([q] ++ l2) 0 := by
      refine ⟨rfl, hp0, ?_⟩
      simp only [Function.update_same]
      exact k2
    refine ⟨⟨cv.m_waitingThreads,
        Function.update cv.nodes q { cv.nodes q with next := (cv.nodes m).next },
        cv.events ++ [.read_dequeued m] ++ E ++ [.read_next m, .write_next q]⟩,
      [.read_dequeued m] ++ E ++ [.read_next m, .write_next q], ?_, ?_, ?_, ?_, ?_, ?_, ?_⟩
    · simp only [maybeDequeue, hd, if_neg hhead0, if_neg hheadne, hE1]
      simp
    · apply (IsQueue_iff_IsSeg _ _ _).2
      have k4 := (IsSeg_append _ l1a ([q] ++ l2) _ 0).2 ⟨q, k1, k3⟩
      rw [← List.append_assoc] at k4
      exact k4
    · simp
    · intro e he
      simp only [List.mem_append, List.mem_cons, List.mem_singleton, List.not_mem_nil,
        or_false] at he
      rcases he with (he | he) | he | he
      · exact Or.inl he
      · obtain ⟨a, ha, e1⟩ := hE2 e he
        exact Or.inr ⟨a, by
          simp only [List.mem_append, List.mem_cons, List.mem_singleton, List.not_mem_nil,
            or_false] at ha ⊢
          exact Or.inl ha, Or.inl e1⟩
      · exact Or.inr ⟨m, by simp, Or.inl he⟩
      · exact Or.inr ⟨q, by simp, Or.inr he⟩
    · intro b
      by_cases hb : b = q
      · subst hb; simp
      · simp [Function.update_noteq hb]
    · intro b hb
      have : b ≠ q := by
        intro e
        apply hb
        rw [e]; simp
      simp [Function.update_noteq this]
    · simp [Function.update_noteq hqm.symm]

end condition_variable

namespace condition_variable

theorem posted_append_quiet (h : Nat) (n : Nat → WaitingThread) (ev E : List CvEvent)
    (hE : ∀ e ∈ E, CvEvent.post_target e = none) :
    (⟨h, n, ev ++ E⟩ : condition_variable).posted = (⟨h, n, ev⟩ : condition_variable).posted := by
  unfold posted
  rw [List.filterMap_append]
  have : List.filterMap CvEvent.post_target E = [] := List.filterMap_eq_nil_iff.2 hE
  simp [this]

theorem posted_of_events (cv1 cv : condition_variable) (E : List CvEvent)
    (he : cv1.events = cv.events ++ E) (hE : ∀ e ∈ E, CvEvent.post_target e = none) :
    cv1.posted = cv.posted := by
  have := posted_append_quiet cv.m_waitingThreads cv.nodes cv.events E hE
  unfold posted at this ⊢
  rw [he]
  exact this

theorem new_waiter_queue (cv : condition_variable) (l : List Nat) (w : Nat)
    (h : IsQueue cv.nodes cv.m_waitingThreads l) (hwl : w ∉ l) :
    IsQueue (cv.new_waiter w).nodes (cv.new_waiter w).m_waitingThreads l ∧
    ((cv.new_waiter w).nodes w) = WaitingThread.ctor ∧
    (∀ b, b ≠ w → (cv.new_waiter w).nodes b = cv.nodes b) ∧
    (cv.new_waiter w).events = cv.events := by
  refine ⟨?_, by simp [new_waiter], fun b hb => by simp [new_waiter, Function.update_noteq hb],
    rfl⟩
  apply IsQueue_same_links cv.nodes _ l _ _ h
  intro a ha
  have : a ≠ w := fun e => hwl (e ▸ ha)
  simp [new_waiter, Function.update_noteq this]

/-- A new node at `w` followed by `enqueue(w)`: the step of a thread that
starts to wait. -/
theorem enqueue_new_waiter (cv : condition_variable) (l : List Nat) (w fuel : Nat)
    (h : IsQueue cv.nodes cv.m_waitingThreads l) (hw0 : w ≠ 0) (hwl : w ∉ l)
    (hf : l.length ≤ fuel) :
    ∃ cv1 E, enqueue fuel (cv.new_waiter w) w = some cv1 ∧
      IsQueue cv1.nodes cv1.m_waitingThreads (l ++ [w]) ∧
      cv1.events = cv.events ++ E ∧
      (∀ e ∈ E, ∃ a ∈ l, e = CvEvent.read_next a ∨ e = CvEvent.write_next a) ∧
      cv1.posted = cv.posted ∧
      (cv1.nodes w).dequeued = false ∧ (cv1.nodes w).signal = ⟨0⟩ ∧
      (∀ b, b ≠ w → (cv1.nodes b).dequeued = (cv.nodes b).dequeued ∧
        (cv1.nodes b).signal = (cv.nodes b).signal) := by
  obtain ⟨q1, q2, q3, q4⟩ := new_waiter_queue cv l w h hwl
  obtain ⟨cv1, E, e1, e2, e3, e4, e5, _⟩ :=
    enqueue_appends (cv.new_waiter w) l w fuel q1 hw0 hwl (by rw [q2]; rfl) hf
  rw [q4] at e3
  refine ⟨cv1, E, e1, e2, e3, e4, ?_, ?_, ?_, ?_⟩
  · apply posted_of_events cv1 cv E e3
    intro e he
    obtain ⟨a, _, ha | ha⟩ := e4 e he <;> rw [ha] <;> rfl
  · rw [(e5 w).1, q2]; rfl
  · rw [(e5 w).2, q2]; rfl
  · intro b hb
    rw [(e5 b).1, (e5 b).2, q3 b hb]
    exact ⟨rfl, rfl⟩

theorem enqueue_all_appends :
    ∀ (ws l : List Nat) (cv : condition_variable) (fuel : Nat),
      IsQueue cv.nodes cv.m_waitingThreads l → ws.Nodup → 0 ∉ ws → (∀ w ∈ ws, w ∉ l) →
      l.length + ws.length ≤ fuel →
      ∃ cv1, enqueue_all fuel cv ws = some cv1 ∧
        IsQueue cv1.nodes cv1.m_waitingThreads (l ++ ws) ∧ cv1.posted = cv.posted ∧
        (∀ w ∈ ws, (cv1.nodes w).dequeued = false ∧ (cv1.nodes w).signal = ⟨0⟩) ∧
        (∀ b, b ∉ ws → (cv1.nodes b).dequeued = (cv.nodes b).dequeued ∧
          (cv1.nodes b).signal = (cv.nodes b).signal) := by
  intro ws
  induction ws with
  | nil =>
    intro l cv fuel h _ _ _ _
    exact ⟨cv, rfl, by simpa using h, rfl, by simp, fun _ _ => ⟨rfl, rfl⟩⟩
  | cons w ws ih =>
    intro l cv fuel h hnd h0 hdis hf
    have hw0 : w ≠ 0 := fun e => h0 (by rw [e]; simp)
    have hwws : w ∉ ws := (List.nodup_cons.1 hnd).1
    obtain ⟨cv1, E, e1, e2, _, _, e5, e6, e7, e8⟩ :=
      enqueue_new_waiter cv l w fuel h hw0 (hdis w (List.mem_cons_self w ws))
        (by simp at hf; omega)
    obtain ⟨cv2, i1, i2, i3, i4, i5⟩ := ih (l ++ [w]) cv1 fuel e2 (List.nodup_cons.1 hnd).2
      (fun hin => h0 (List.mem_cons_of_mem w hin))
      (by
        intro x hx hin
        rw [List.mem_append, List.mem_singleton] at hin
        rcases hin with hin | hin
        · exact hdis x (List.mem_cons_of_mem w hx) hin
        · exact hwws (hin ▸ hx))
      (by simp at hf ⊢; omega)
    refine ⟨cv2, ?_, ?_, ?_, ?_, ?_⟩
    · simp only [enqueue_all, e1, i1]
    · rw [List.append_assoc] at i2
      exact i2
    · rw [i3, e5]
    · intro x hx
      rcases List.mem_cons.1 hx with hx | hx
      · rw [hx, (i5 w hwws).1, (i5 w hwws).2]
        exact ⟨e6, e7⟩
      · exact i4 x hx
    · intro b hb
      rw [List.mem_cons, not_or] at hb
      rw [(i5 b hb.2).1, (i5 b hb.2).2]
      exact e8 b hb.1

end condition_variable

/-- Every call of a run keeps the queue in step with the list of waiting
nodes, all of which are not marked dequeued. -/
theorem CvRun.step_keeps_queue (s t : CvRun) (op : CvOp)
    (h : condition_variable.IsQueue s.cv.nodes s.cv.m_waitingThreads s.waiting)
    (hd : ∀ w ∈ s.waiting, (s.cv.nodes w).dequeued = false)
    (hst : s.step op = some t) :
    condition_variable.IsQueue t.cv.nodes t.cv.m_waitingThreads t.waiting ∧
    ∀ w ∈ t.waiting, (t.cv.nodes w).dequeued = false := by
  cases op with
  | enqueue w =>
    simp only [CvRun.step] at hst
    by_cases hw : w = 0 ∨ w ∈ s.waiting
    · rw [if_pos hw] at hst
      exact absurd hst (by simp)
    · rw [if_neg hw] at hst
      rw [not_or] at hw
      obtain ⟨cv1, E, e1, e2, _, _, _, e6, _, e7⟩ :=
        condition_variable.enqueue_new_waiter s.cv s.waiting w s.waiting.length h hw.1 hw.2
          (Nat.le_refl _)
      rw [e1] at hst
      simp only [Option.some.injEq] at hst
      subst hst
      refine ⟨e2, ?_⟩
      intro x hx
      rw [List.mem_append, List.mem_singleton] at hx
      by_cases hxw : x = w
      · rw [hxw]; exact e6
      · rcases hx with hx | hx
        · rw [(e7 x hxw).1]; exact hd x hx
        · exact absurd hx hxw
  | notify_one =>
    simp only [CvRun.step, Option.some.injEq] at hst
    subst hst
    cases hl : s.waiting with
    | nil =>
      rw [hl] at h
      have h0 : s.cv.m_waitingThreads = 0 := h
      rw [condition_variable.notify_one_empty s.cv h0]
      exact ⟨by simpa using h, by simp⟩
    | cons a l =>
      rw [hl] at h hd
      obtain ⟨_, _, n3, n4, _, _, n7⟩ := condition_variable.notify_one_cons s.cv a l h
      refine ⟨by simpa using n4, ?_⟩
      intro x hx
      have hx' : x ∈ l := by simpa using hx
      have hxa : x ≠ a := fun e => n3 (e ▸ hx')
      show (s.cv.notify_one.nodes x).dequeued = false
      rw [n7 x hxa]
      exact hd x (List.mem_cons_of_mem a hx')
  | notify_all =>
    simp only [CvRun.step] at hst
    rw [condition_variable.notify_all_eq_iterate s.waiting s.cv _ h (Nat.le_refl _)] at hst
    simp only [Option.some.injEq] at hst
    subst hst
    obtain ⟨i1, _⟩ := condition_variable.notify_one_iterate s.waiting.length s.waiting s.cv h
    rw [List.drop_length] at i1
    exact ⟨i1, by simp⟩
  | maybeDequeue w =>
    simp only [CvRun.step] at hst
    by_cases hw : w ∈ s.waiting ∨ (s.cv.nodes w).dequeued = true
    · rw [if_pos hw] at hst
      cases hflag : (s.cv.nodes w).dequeued with
      | true =>
        rw [condition_variable.maybeDequeue_flagged s.cv w _ hflag] at hst
        simp only [hflag, if_true, Option.some.injEq] at hst
        subst hst
        exact ⟨h, hd⟩
      | false =>
        have hin : w ∈ s.waiting := by
          rcases hw with hw | hw
          · exact hw
          · rw [hflag] at hw; exact absurd hw (by simp)
        obtain ⟨cv1, E, e1, e2, _, _, e5, _, _⟩ :=
          condition_variable.maybeDequeue_erases s.cv s.waiting w s.waiting.length h hin hflag
            (Nat.le_refl _)
        rw [e1] at hst
        simp only [hflag, Bool.false_eq_true, if_false, Option.some.injEq] at hst
        subst hst
        refine ⟨e2, ?_⟩
        intro x hx
        rw [(e5 x).1]
        exact hd x (List.mem_of_mem_erase hx)
    · rw [if_neg hw] at hst
      exact absurd hst (by simp)

theorem CvRun.exec_keeps_queue :
    ∀ (ops : List CvOp) (s t : CvRun),
      condition_variable.IsQueue s.cv.nodes s.cv.m_waitingThreads s.waiting →
      (∀ w ∈ s.waiting, (s.cv.nodes w).dequeued = false) →
      CvRun.exec s ops = some t →
      condition_variable.IsQueue t.cv.nodes t.cv.m_waitingThreads t.waiting ∧
      ∀ w ∈ t.waiting, (t.cv.nodes w).dequeued = false := by
  intro ops
  induction ops with
  | nil =>
    intro s t h hd hst
    simp only [CvRun.exec, Option.some.injEq] at hst
    subst hst
    exact ⟨h, hd⟩
  | cons op ops ih =>
    intro s t h hd hst
    simp only [CvRun.exec] at hst
    cases hs : s.step op with
    | none => rw [hs] at hst; exact absurd hst (by simp)
    | some u =>
      rw [hs] at hst
      obtain ⟨k1, k2⟩ := CvRun.step_keeps_queue s u op h hd hs
      exact ih u t k1 k2 hst

namespace condition_variable

/-- C21: for every list `ws` of distinct non-null addresses, enqueueing a new
waiter node at each of them, in this order, on a new `condition_variable`
returns with the queue `ws` and nobody signalled; after `k ≤ n` calls of
`notify_one` the nodes signalled are the first `k` of `ws`, in the order of
the enqueues, the call number `k + 1` signals the node number `k + 1` and no
other, each signalled node holds one token and is marked dequeued, and the
others wait in the queue, unsignalled and unmarked. -/
theorem notify_one_wakes_in_enqueue_order (nodes : Nat → WaitingThread) (ws : List Nat)
    (fuel : Nat) (hnd : ws.Nodup) (h0 : 0 ∉ ws) (hf : ws.length ≤ fuel) :
    ∃ cv, enqueue_all fuel (ctor nodes) ws = some cv ∧
      IsQueue cv.nodes cv.m_waitingThreads ws ∧ cv.posted = [] ∧
      ∀ k, k ≤ ws.length →
        (notify_one^[k] cv).posted = ws.take k ∧
        (notify_one^[k + 1] cv).posted = (notify_one^[k] cv).posted ++ ws[k]?.toList ∧
        IsQueue (notify_one^[k] cv).nodes (notify_one^[k] cv).m_waitingThreads (ws.drop k) ∧
        (∀ w ∈ ws.take k, ((notify_one^[k] cv).nodes w).signal.value = 1 ∧
          ((notify_one^[k] cv).nodes w).dequeued = true) ∧
        (∀ w ∈ ws.drop k, ((notify_one^[k] cv).nodes w).signal.value = 0 ∧
          ((notify_one^[k] cv).nodes w).dequeued = false) := by
  obtain ⟨cv, e1, e2, e3, e4, _⟩ :=
    enqueue_all_appends ws [] (ctor nodes) fuel rfl hnd h0 (fun _ _ => by simp)
      (by simpa using hf)
  rw [List.nil_append] at e2
  have e3' : cv.posted = [] := by rw [e3]; rfl
  refine ⟨cv, e1, e2, e3', ?_⟩
  intro k _
  obtain ⟨i1, i2, i3, i4⟩ := notify_one_iterate k ws cv e2
  obtain ⟨_, j2, _, _⟩ := notify_one_iterate (k + 1) ws cv e2
  rw [e3', List.nil_append] at i2 j2
  refine ⟨i2, ?_, i1, ?_, ?_⟩
  · rw [i2, j2, List.take_succ]
  · intro w hw
    have hm := List.mem_of_mem_take hw
    rw [i3 w hw, (e4 w hm).2]
    exact ⟨rfl, rfl⟩
  · intro w hw
    have hm := List.mem_of_mem_drop hw
    have hnt : w ∉ ws.take k := by
      intro ht
      have hd := (List.take_append_drop k ws).symm ▸ hnd
      exact (List.disjoint_of_nodup_append hd) ht hw
    rw [i4 w hnt, (e4 w hm).1, (e4 w hm).2]
    exact ⟨rfl, rfl⟩

theorem notify_one_wakes_in_enqueue_order_witness :
    [10, 20, 30].Nodup ∧ 0 ∉ [10, 20, 30] ∧
    ∃ cv, condition_variable.enqueue_all 3 (condition_variable.ctor demoNodes) [10, 20, 30]
        = some cv ∧
      (condition_variable.notify_one^[1] cv).posted = [10] ∧
      (condition_variable.notify_one^[2] cv).posted = [10, 20] ∧
      (condition_variable.notify_one^[3] cv).posted = [10, 20, 30] :=
  ⟨by decide, by decide,
    (notify_one_wakes_in_enqueue_order demoNodes [10, 20, 30] 3 (by decide) (by decide)
      (by decide)).imp
      (fun _ h => ⟨h.1, (h.2.2.2 1 (by decide)).1, (h.2.2.2 2 (by decide)).1,
        (h.2.2.2 3 (by decide)).1⟩)⟩

/-- C22: `notify_one` on a queue with head `a` and rest `rest` leaves the queue
`rest` (the other nodes in the same order), sets the dequeued flag of `a`,
posts the signal of `a` once (one read of its link, one write of its flag and
one post are all its accesses) and changes no other node; on an empty queue it
changes nothing, so nobody is signalled. -/
theorem notify_one_signals_head_only (cv : condition_variable) (l : List Nat)
    (h : IsQueue cv.nodes cv.m_waitingThreads l) :
    (∀ a rest, l = a :: rest →
      IsQueue cv.notify_one.nodes cv.notify_one.m_waitingThreads rest ∧ a ∉ rest ∧
      cv.notify_one.nodes a
        = ⟨(cv.nodes a).next, ⟨(cv.nodes a).signal.value + 1⟩, true⟩ ∧
      cv.notify_one.events
        = cv.events ++ [CvEvent.read_next a, CvEvent.write_dequeued a, CvEvent.post a] ∧
      cv.notify_one.posted = cv.posted ++ [a] ∧
      (∀ b, b ≠ a → cv.notify_one.nodes b = cv.nodes b)) ∧
    (l = [] → cv.notify_one = cv ∧ cv.notify_one.posted = cv.posted) := by
  constructor
  · intro a rest hl
    subst hl
    obtain ⟨n1, n2, n3, n4, n5, n6, n7⟩ := notify_one_cons cv a rest h
    refine ⟨n4, n3, n6, ?_, n5, n7⟩
    rw [n1, ← n2]
    rfl
  · intro hl
    subst hl
    have h0 : cv.m_waitingThreads = 0 := h
    rw [notify_one_empty cv h0]
    exact ⟨rfl, rfl⟩

theorem notify_one_signals_head_only_witness :
    condition_variable.IsQueue demoQueue.nodes demoQueue.m_waitingThreads [10, 20, 30] ∧
    condition_variable.IsQueue demoQueue.notify_one.nodes
      demoQueue.notify_one.m_waitingThreads [20, 30] ∧
    demoQueue.notify_one.nodes 10 = ⟨20, ⟨1⟩, true⟩ ∧
    demoQueue.notify_one.posted = [10] ∧
    demoQueue.notify_one.nodes 20 = demoQueue.nodes 20 ∧
    demoQueue.notify_one.nodes 30 = demoQueue.nodes 30 :=
  have h := (notify_one_signals_head_only demoQueue [10, 20, 30] (by decide)).1 10 [20, 30] rfl
  ⟨by decide, h.1, h.2.2.1, h.2.2.2.2.1, h.2.2.2.2.2 20 (by decide),
    h.2.2.2.2.2 30 (by decide)⟩

/-- C23: on a queue `l`, `notify_all` with fuel for `l.length` rounds returns,
and its result is the result of `l.length` calls of `notify_one`: the queue is
empty, the signals posted are those of the nodes of `l`, each once, in the
order of the queue, every node of `l` is marked dequeued with one more token,
and no other node changes. -/
theorem notify_all_is_notify_one_per_node (cv : condition_variable) (l : List Nat)
    (fuel : Nat) (h : IsQueue cv.nodes cv.m_waitingThreads l) (hf : l.length ≤ fuel) :
    cv.notify_all fuel = some (notify_one^[l.length] cv) ∧
    ∃ cv1, cv.notify_all fuel = some cv1 ∧
      cv1.m_waitingThreads = 0 ∧ IsQueue cv1.nodes cv1.m_waitingThreads [] ∧
      cv1.posted = cv.posted ++ l ∧ l.Nodup ∧
      (∀ a ∈ l, cv1.nodes a
        = ⟨(cv.nodes a).next, ⟨(cv.nodes a).signal.value + 1⟩, true⟩) ∧
      (∀ b, b ∉ l → cv1.nodes b = cv.nodes b) := by
  have e := notify_all_eq_iterate l cv fuel h hf
  obtain ⟨i1, i2, i3, i4⟩ := notify_one_iterate l.length l cv h
  rw [List.drop_length] at i1
  rw [List.take_length] at i2 i3 i4
  exact ⟨e, _, e, i1, i1, i2, IsQueue_nodup cv.nodes l _ h, i3, i4⟩

theorem notify_all_is_notify_one_per_node_witness :
    condition_variable.IsQueue demoQueue.nodes demoQueue.m_waitingThreads [10, 20, 30] ∧
    demoQueue.notify_all 3 = some (condition_variable.notify_one^[3] demoQueue) ∧
    ∃ cv1, demoQueue.notify_all 3 = some cv1 ∧ cv1.m_waitingThreads = 0 ∧
      cv1.posted = [10, 20, 30] ∧ cv1.nodes 20 = ⟨30, ⟨1⟩, true⟩ :=
  have h := notify_all_is_notify_one_per_node demoQueue [10, 20, 30] 3 (by decide) (by decide)
  ⟨by decide, h.1, h.2.imp (fun _ g => ⟨g.1, g.2.1, g.2.2.2.1, g.2.2.2.2.2.1 20 (by decide)⟩)⟩

end condition_variable

namespace condition_variable

theorem wait_signal_blocked (s : condition_variable × Bool) (w : Nat)
    (h : (s.1.nodes w).signal.value = 0) : wait_signal s w = none := by
  simp [wait_signal, semaphore.wait, h]

theorem wait_signal_posted (s : condition_variable × Bool) (w : Nat)
    (h : 0 < (s.1.nodes w).signal.value) :
    wait_signal s w = some (⟨s.1.m_waitingThreads,
      Function.update s.1.nodes w
        { s.1.nodes w with signal := ⟨(s.1.nodes w).signal.value - 1⟩ },
      s.1.events ++ [.wait w]⟩, s.2) := by
  simp [wait_signal, semaphore.wait, h]

/-- C24: `wait` on a queue `l` with a new node at `w`, called with the lock
held: first `enqueue` returns with `w` linked behind the last node of `l`, by
accesses to links of nodes of `l` only, while the lock is still held; then the
lock is released; then the caller is blocked for as long as the signal of `w`
holds no token; once the other threads have posted it, `wait` returns with the
lock held again, and its events are, in this order, those of the enqueue, the
release of the lock, those of the other threads, the wait on the signal of `w`
and the acquisition of the lock. -/
theorem wait_enqueues_then_releases_then_blocks (cv : condition_variable) (l : List Nat)
    (w fuel : Nat) (others : condition_variable → condition_variable)
    (h : IsQueue cv.nodes cv.m_waitingThreads l) (hw0 : w ≠ 0) (hwl : w ∉ l)
    (hf : l.length ≤ fuel) :
    ∃ cv1 E,
      enqueue fuel (cv.new_waiter w) w = some cv1 ∧
      IsQueue cv1.nodes cv1.m_waitingThreads (l ++ [w]) ∧
      cv1.events = cv.events ++ E ∧
      (∀ e ∈ E, ∃ a ∈ l, e = CvEvent.read_next a ∨ e = CvEvent.write_next a) ∧
      CvEvent.release_lock ∉ E ∧
      wait_enter fuel (cv, true) w
        = some (⟨cv1.m_waitingThreads, cv1.nodes, cv.events ++ E ++ [CvEvent.release_lock]⟩,
            false) ∧
      wait_signal
        (⟨cv1.m_waitingThreads, cv1.nodes, cv.events ++ E ++ [CvEvent.release_lock]⟩, false) w
        = none ∧
      (((others ⟨cv1.m_waitingThreads, cv1.nodes,
            cv.events ++ E ++ [CvEvent.release_lock]⟩).nodes w).signal.value = 0 →
        wait fuel (cv, true) w others = none) ∧
      (0 < ((others ⟨cv1.m_waitingThreads, cv1.nodes,
            cv.events ++ E ++ [CvEvent.release_lock]⟩).nodes w).signal.value →
        ∃ r, wait fuel (cv, true) w others = some r ∧ r.2 = true ∧
          ∀ E2, (others ⟨cv1.m_waitingThreads, cv1.nodes,
              cv.events ++ E ++ [CvEvent.release_lock]⟩).events
                = cv.events ++ E ++ [CvEvent.release_lock] ++ E2 →
            r.1.events = cv.events ++ E ++ [CvEvent.release_lock] ++ E2
              ++ [CvEvent.wait w, CvEvent.acquire_lock]) := by
  obtain ⟨cv1, E, e1, e2, e3, e4, _, _, e7, _⟩ := enqueue_new_waiter cv l w fuel h hw0 hwl hf
  have hent : wait_enter fuel (cv, true) w
      = some (⟨cv1.m_waitingThreads, cv1.nodes, cv.events ++ E ++ [CvEvent.release_lock]⟩,
          false) := by
    simp only [wait_enter, e1, release_lock, e3]
  refine ⟨cv1, E, e1, e2, e3, e4, ?_, hent, ?_, ?_, ?_⟩
  · intro hin
    obtain ⟨a, _, ha | ha⟩ := e4 _ hin <;> exact absurd ha (by simp)
  · apply wait_signal_blocked
    show (cv1.nodes w).signal.value = 0
    rw [e7]
  · intro hv
    simp only [wait, hent]
    rw [wait_signal_blocked _ w hv]
  · intro hv
    simp only [wait, hent]
    rw [wait_signal_posted _ w hv]
    refine ⟨_, rfl, rfl, ?_⟩
    intro E2 hE2
    show (others _).events ++ [CvEvent.wait w] ++ [CvEvent.acquire_lock] = _
    rw [hE2]
    simp

theorem wait_enqueues_then_releases_then_blocks_witness :
    condition_variable.IsQueue demoQueue.nodes demoQueue.m_waitingThreads [10, 20, 30] ∧
    (40 : Nat) ≠ 0 ∧ 40 ∉ [10, 20, 30] ∧
    ∃ cv1 E,
      condition_variable.enqueue 3 (demoQueue.new_waiter 40) 40 = some cv1 ∧
      condition_variable.IsQueue cv1.nodes cv1.m_waitingThreads [10, 20, 30, 40] ∧
      condition_variable.wait_enter 3 (demoQueue, true) 40
        = some (⟨cv1.m_waitingThreads, cv1.nodes,
            demoQueue.events ++ E ++ [CvEvent.release_lock]⟩, false) ∧
      condition_variable.wait_signal
        (⟨cv1.m_waitingThreads, cv1.nodes,
            demoQueue.events ++ E ++ [CvEvent.release_lock]⟩, false) 40 = none :=
  have h := wait_enqueues_then_releases_then_blocks demoQueue [10, 20, 30] 40 3 id (by decide)
    (by decide) (by decide) (by decide)
  ⟨by decide, by decide, by decide,
    h.imp (fun _ g => g.imp (fun _ k => ⟨k.1, k.2.1, k.2.2.2.2.2.1, k.2.2.2.2.2.2.1⟩))⟩

/-- C25: for a node `w` of the queue `l` whose dequeued flag is not set,
`maybeDequeue(w)` returns normally with the queue `l` without `w`: `w` is gone,
every other node of `l` is still queued, in the same order, the queue is
shorter by one, and no signal is posted and no flag or signal changes. -/
theorem maybeDequeue_removes_exactly_the_waiter (cv : condition_variable) (l : List Nat)
    (w fuel : Nat) (h : IsQueue cv.nodes cv.m_waitingThreads l) (hw : w ∈ l)
    (hd : (cv.nodes w).dequeued = false) (hf : l.length ≤ fuel) :
    ∃ cv1, maybeDequeue fuel cv w = some (.ok cv1) ∧
      IsQueue cv1.nodes cv1.m_waitingThreads (l.filter (fun a => a ≠ w)) ∧
      w ∉ l.filter (fun a => a ≠ w) ∧
      (∀ a ∈ l, a ≠ w → a ∈ l.filter (fun a => a ≠ w)) ∧
      (l.filter (fun a => a ≠ w)).Sublist l ∧
      (l.filter (fun a => a ≠ w)).length + 1 = l.length ∧
      cv1.posted = cv.posted ∧
      (∀ b, (cv1.nodes b).dequeued = (cv.nodes b).dequeued ∧
        (cv1.nodes b).signal = (cv.nodes b).signal) ∧
      (∀ b, b ∉ l → cv1.nodes b = cv.nodes b) := by
  obtain ⟨cv1, E, e1, e2, e3, e4, e5, e6, _⟩ := maybeDequeue_erases cv l w fuel h hw hd hf
  have hnd := IsQueue_nodup cv.nodes l _ h
  have hfil : l.erase w = l.filter (fun a => a ≠ w) := by
    rw [List.Nodup.erase_eq_filter hnd]
    apply List.filter_congr
    intro a _
    by_cases hc : a = w <;> simp [hc]
  rw [hfil] at e2
  refine ⟨cv1, e1, e2, ?_, ?_, List.filter_sublist l, ?_, ?_, e5, e6⟩
  · simp
  · intro a ha hne
    simp [ha, hne]
  · rw [← hfil, List.length_erase_of_mem hw]
    have : 0 < l.length := List.length_pos_of_mem hw
    omega
  · apply posted_of_events cv1 cv E e3
    intro e he
    rcases e4 e he with he1 | ⟨a, _, ha | ha⟩
    · rw [he1]; rfl
    · rw [ha]; rfl
    · rw [ha]; rfl

theorem maybeDequeue_removes_exactly_the_waiter_witness :
    condition_variable.IsQueue demoQueue.nodes demoQueue.m_waitingThreads [10, 20, 30] ∧
    (∃ cv1, demoQueue.maybeDequeue 3 10 = some (.ok cv1) ∧
      condition_variable.IsQueue cv1.nodes cv1.m_waitingThreads [20, 30]) ∧
    (∃ cv1, demoQueue.maybeDequeue 3 20 = some (.ok cv1) ∧
      condition_variable.IsQueue cv1.nodes cv1.m_waitingThreads [10, 30]) ∧
    (∃ cv1, demoQueue.maybeDequeue 3 30 = some (.ok cv1) ∧
      condition_variable.IsQueue cv1.nodes cv1.m_waitingThreads [10, 20]) :=
  ⟨by decide,
    (maybeDequeue_removes_exactly_the_waiter demoQueue [10, 20, 30] 10 3 (by decide)
      (by decide) (by decide) (by decide)).imp (fun _ g => ⟨g.1, g.2.1⟩),
    (maybeDequeue_removes_exactly_the_waiter demoQueue [10, 20, 30] 20 3 (by decide)
      (by decide) (by decide) (by decide)).imp (fun _ g => ⟨g.1, g.2.1⟩),
    (maybeDequeue_removes_exactly_the_waiter demoQueue [10, 20, 30] 30 3 (by decide)
      (by decide) (by decide) (by decide)).imp (fun _ g => ⟨g.1, g.2.1⟩)⟩

/-- C26: in every state that a sequence of calls (new waiters, `notify_one`,
`notify_all`, `maybeDequeue`) reaches from a new `condition_variable`, the
queue holds exactly the waiters enqueued and not yet removed, and the assertion
of the destructor holds if and only if there is no such waiter; with a waiter
still queued it fails.  In general the assertion holds for a queue `l` if and
only if `l` is empty. -/
theorem destructor_asserts_queue_empty (nodes : Nat → WaitingThread) (ops : List CvOp)
    (s : CvRun) (hs : CvRun.exec ⟨ctor nodes, []⟩ ops = some s) :
    IsQueue s.cv.nodes s.cv.m_waitingThreads s.waiting ∧
    (s.cv.dtor = .ok () ↔ s.waiting = []) ∧
    (s.waiting ≠ [] → s.cv.dtor = .assertion_failed) ∧
    (∀ (cv : condition_variable) (l : List Nat), IsQueue cv.nodes cv.m_waitingThreads l →
      ((cv.dtor = .ok () ↔ l = []) ∧ (cv.dtor = .assertion_failed ↔ l ≠ []))) := by
  have gen : ∀ (cv : condition_variable) (l : List Nat),
      IsQueue cv.nodes cv.m_waitingThreads l →
      ((cv.dtor = .ok () ↔ l = []) ∧ (cv.dtor = .assertion_failed ↔ l ≠ [])) := by
    intro cv l hq
    cases l with
    | nil =>
      have h0 : cv.m_waitingThreads = 0 := hq
      simp [dtor, h0]
    | cons a l =>
      have hne : cv.m_waitingThreads ≠ 0 := by rw [hq.1]; exact hq.2.1
      simp [dtor, hne]
  obtain ⟨k1, _⟩ := CvRun.exec_keeps_queue ops ⟨ctor nodes, []⟩ s rfl (by simp) hs
  exact ⟨k1, (gen s.cv s.waiting k1).1, (gen s.cv s.waiting k1).2.2, gen⟩

theorem destructor_asserts_queue_empty_witness :
    (∃ s, CvRun.exec ⟨condition_variable.ctor demoNodes, []⟩
        [.enqueue 10, .enqueue 20, .enqueue 30, .enqueue 40, .notify_one, .maybeDequeue 30,
          .maybeDequeue 10, .notify_all] = some s ∧
      s.waiting = [] ∧ s.cv.dtor = .ok ()) ∧
    (∃ s, CvRun.exec ⟨condition_variable.ctor demoNodes, []⟩
        [.enqueue 10, .enqueue 20, .notify_one] = some s ∧
      s.waiting = [20] ∧ s.cv.dtor = .assertion_failed) :=
  ⟨⟨Option.get (CvRun.exec ⟨condition_variable.ctor demoNodes, []⟩
        [.enqueue 10, .enqueue 20, .enqueue 30, .enqueue 40, .notify_one, .maybeDequeue 30,
          .maybeDequeue 10, .notify_all]) (by decide),
      (Option.some_get _).symm, by decide,
      (destructor_asserts_queue_empty demoNodes _ _ (Option.some_get _).symm).2.1.2
        (by decide)⟩,
    ⟨Option.get (CvRun.exec ⟨condition_variable.ctor demoNodes, []⟩
        [.enqueue 10, .enqueue 20, .notify_one]) (by decide),
      (Option.some_get _).symm, by decide,
      (destructor_asserts_queue_empty demoNodes _ _ (Option.some_get _).symm).2.2.1
        (by decide)⟩⟩

end condition_variable

/-! ## The free list is a stack -/

namespace free_list

/-- C33, amended: for every state of the free list and every chunk `c`,
`free(c)` makes `c` the head and stores the old head in the link of `c`;
`allocate` directly after it returns `c` and makes the old head the head
again, with the memory changed in the link of `c` only; when the links of the
free chunks lie outside the link of `c` (as for every allocated chunk), the
list after `free(c)` is `c` followed by the old list and the list after the
`allocate` is the old list.  `allocate` on a list with head `a` and successor
chain `l` returns `a` and leaves the chain `l`. -/
theorem free_then_allocate_is_lifo (P : Nat) (fl : free_list) (c : Nat)
    (hfit : fl.m_first < 256 ^ P) :
    (fl.free P c).m_first = c ∧
    next P (fl.free P c).mem c = fl.m_first ∧
    ((fl.free P c).allocate P).1 = c ∧
    ((fl.free P c).allocate P).2.m_first = fl.m_first ∧
    (∀ x, x < c ∨ c + P ≤ x → ((fl.free P c).allocate P).2.mem x = fl.mem x) ∧
    (∀ l, IsChain P fl.mem fl.m_first l → (∀ a ∈ l, a + P ≤ c ∨ c + P ≤ a) →
      (c ≠ 0 → IsChain P (fl.free P c).mem (fl.free P c).m_first (c :: l)) ∧
      IsChain P ((fl.free P c).allocate P).2.mem ((fl.free P c).allocate P).2.m_first l) ∧
    (fl.allocate P).1 = fl.m_first ∧
    (fl.allocate P).2.m_first = next P fl.mem fl.m_first ∧
    (fl.allocate P).2.mem = fl.mem ∧
    (∀ a l, IsChain P fl.mem fl.m_first (a :: l) →
      (fl.allocate P).1 = a ∧ IsChain P (fl.allocate P).2.mem (fl.allocate P).2.m_first l) := by
  have hn : next P (set_next P fl.mem c fl.m_first) c = fl.m_first :=
    next_set_next_same P fl.mem c fl.m_first hfit
  have hch : ∀ l, IsChain P fl.mem fl.m_first l → (∀ a ∈ l, a + P ≤ c ∨ c + P ≤ a) →
      IsChain P (set_next P fl.mem c fl.m_first) fl.m_first l := by
    intro l hl hdis
    apply IsChain_congr P fl.mem _ l fl.m_first _ hl
    intro a ha
    rw [next_set_next_disjoint P fl.mem c fl.m_first a
      (by rcases hdis a ha with h | h; exact Or.inr h; exact Or.inl h)]
  refine ⟨rfl, hn, rfl, hn, ?_, ?_, rfl, rfl, rfl, ?_⟩
  · intro x hx
    exact set_next_outside P fl.mem c fl.m_first x hx
  · intro l hl hdis
    refine ⟨fun hc => ⟨rfl, hc, ?_⟩, ?_⟩
    · show IsChain P (set_next P fl.mem c fl.m_first)
        (next P (set_next P fl.mem c fl.m_first) c) l
      rw [hn]
      exact hch l hl hdis
    · show IsChain P (set_next P fl.mem c fl.m_first)
        (next P (set_next P fl.mem c fl.m_first) c) l
      rw [hn]
      exact hch l hl hdis
  · intro a l hl
    obtain ⟨h1, _, h3⟩ := hl
    refine ⟨h1, ?_⟩
    show IsChain P fl.mem (next P fl.mem fl.m_first) l
    rw [h1]
    exact h3

theorem free_then_allocate_is_lifo_witness :
    (20 : Nat) < 256 ^ 4 ∧
    ((⟨20, demoMemory⟩ : free_list).free 4 16).m_first = 16 ∧
    next 4 ((⟨20, demoMemory⟩ : free_list).free 4 16).mem 16 = 20 ∧
    (((⟨20, demoMemory⟩ : free_list).free 4 16).allocate 4).1 = 16 ∧
    (((⟨20, demoMemory⟩ : free_list).free 4 16).allocate 4).2.m_first = 20 :=
  have h := free_then_allocate_is_lifo 4 ⟨20, demoMemory⟩ 16 (by decide)
  ⟨by decide, h.1, h.2.1, h.2.2.1, h.2.2.2.1⟩

end free_list

namespace condition_variable

/-- C34: for a node `w` whose dequeued flag is set, `maybeDequeue(w)` returns
after the read of the flag and leaves the head of the queue and every node as
they were, so a queue `l` is still the queue `l`; this is the state of the
head of the queue after `notify_one` and of every queued node after
`notify_all`. -/
theorem maybeDequeue_of_notified_changes_nothing (cv : condition_variable) (w fuel : Nat)
    (hd : (cv.nodes w).dequeued = true) :
    ∃ cv1, maybeDequeue fuel cv w = some (.ok cv1) ∧
      cv1.m_waitingThreads = cv.m_waitingThreads ∧ cv1.nodes = cv.nodes ∧
      cv1.events = cv.events ++ [CvEvent.read_dequeued w] ∧
      cv1.posted = cv.posted ∧
      (∀ l, IsQueue cv.nodes cv.m_waitingThreads l →
        IsQueue cv1.nodes cv1.m_waitingThreads l) ∧
      (∀ (cv0 : condition_variable) (rest : List Nat),
        IsQueue cv0.nodes cv0.m_waitingThreads (w :: rest) →
        (cv0.notify_one.nodes w).dequeued = true) ∧
      (∀ (cv0 : condition_variable) (l : List Nat) (fuel0 : Nat),
        IsQueue cv0.nodes cv0.m_waitingThreads l → w ∈ l → l.length ≤ fuel0 →
        ∃ cv2, cv0.notify_all fuel0 = some cv2 ∧ (cv2.nodes w).dequeued = true) := by
  refine ⟨_, maybeDequeue_flagged cv w fuel hd, rfl, rfl, rfl, ?_, fun l h => h, ?_, ?_⟩
  · exact posted_append_quiet _ _ _ _ (by simp [CvEvent.post_target])
  · intro cv0 rest h
    obtain ⟨_, _, _, _, _, n6, _⟩ := notify_one_cons cv0 w rest h
    rw [n6]
  · intro cv0 l fuel0 h hw hf
    refine ⟨_, notify_all_eq_iterate l cv0 fuel0 h hf, ?_⟩
    obtain ⟨_, _, i3, _⟩ := notify_one_iterate l.length l cv0 h
    rw [List.take_length] at i3
    rw [i3 w hw]

theorem maybeDequeue_of_notified_changes_nothing_witness :
    (demoQueue.notify_one.nodes 10).dequeued = true ∧
    ∃ cv1, demoQueue.notify_one.maybeDequeue 3 10 = some (.ok cv1) ∧
      cv1.m_waitingThreads = demoQueue.notify_one.m_waitingThreads ∧
      cv1.nodes = demoQueue.notify_one.nodes ∧
      IsQueue cv1.nodes cv1.m_waitingThreads [20, 30] :=
  ⟨by decide,
    (maybeDequeue_of_notified_changes_nothing demoQueue.notify_one 10 3 (by decide)).imp
      (fun _ g => ⟨g.1, g.2.1, g.2.2.1, g.2.2.2.2.2.1 [20, 30] (by decide)⟩)⟩

theorem quiet_after_post_append (E1 E2 : List CvEvent)
    (h1 : CvEvent.quiet_after_post E1) (h2 : CvEvent.quiet_after_post E2)
    (h : ∀ w, CvEvent.post w ∈ E1 → ∀ e2 ∈ E2, CvEvent.node e2 ≠ some w) :
    CvEvent.quiet_after_post (E1 ++ E2) := by
  induction E1 with
  | nil => simpa using h2
  | cons e E1 ih =>
    obtain ⟨k1, k2⟩ := h1
    refine ⟨?_, ih k2 (fun w hw => h w (List.mem_cons_of_mem e hw))⟩
    intro w he e2 he2
    rcases List.mem_append.1 he2 with he2 | he2
    · exact k1 w he e2 he2
    · exact h w (by rw [he]; exact List.mem_cons_self _ _) e2 he2

theorem signal_events_quiet (a : Nat) :
    CvEvent.quiet_after_post
      [CvEvent.read_next a, CvEvent.write_dequeued a, CvEvent.post a] := by
  refine ⟨?_, ?_, ?_, trivial⟩
  · intro w h; exact absurd h (by simp)
  · intro w h; exact absurd h (by simp)
  · intro w _ e2 he2; exact absurd he2 (by simp)

theorem round_events_quiet :
    ∀ l : List Nat, l.Nodup →
      CvEvent.quiet_after_post
        (l.flatMap (fun a => [CvEvent.read_next a, CvEvent.write_dequeued a, CvEvent.post a]))
      := by
  intro l
  induction l with
  | nil => intro _; trivial
  | cons a l ih =>
    intro hnd
    rw [List.flatMap_cons]
    apply quiet_after_post_append _ _ (signal_events_quiet a) (ih (List.nodup_cons.1 hnd).2)
    intro w hw e2 he2
    have hwa : w = a := by
      simp only [List.mem_cons, List.mem_singleton, List.not_mem_nil, or_false] at hw
      rcases hw with hw | hw | hw
      · exact absurd hw (by simp)
      · exact absurd hw (by simp)
      · exact (CvEvent.post.inj hw)
    subst hwa
    rw [List.mem_flatMap] at he2
    obtain ⟨b, hb, he⟩ := he2
    have hbw : b ≠ w := fun e => (List.nodup_cons.1 hnd).1 (e ▸ hb)
    simp only [List.mem_cons, List.mem_singleton, List.not_mem_nil, or_false] at he
    rcases he with he | he | he <;> rw [he] <;> simp [CvEvent.node, hbw]

theorem notify_one_iterate_events :
    ∀ (k : Nat) (l : List Nat) (cv : condition_variable),
      IsQueue cv.nodes cv.m_waitingThreads l →
      (notify_one^[k] cv).events = cv.events ++
        (l.take k).flatMap
          (fun a => [CvEvent.read_next a, CvEvent.write_dequeued a, CvEvent.post a]) := by
  intro k
  induction k with
  | zero => intro l cv _; simp
  | succ k ih =>
    intro l cv h
    rw [Function.iterate_succ_apply]
    cases l with
    | nil =>
      have h0 : cv.m_waitingThreads = 0 := h
      rw [notify_one_empty cv h0, ih [] cv h]
      simp
    | cons a l =>
      obtain ⟨n1, n2, _, n4, _⟩ := notify_one_cons cv a l h
      rw [ih l cv.notify_one n4, n1]
      have he : cv.signal_head.events = cv.events
          ++ [CvEvent.read_next a, CvEvent.write_dequeued a, CvEvent.post a] := by
        rw [← n2]; rfl
      rw [he, List.take_succ_cons, List.flatMap_cons, List.append_assoc]

/-- C35: on a queue with head `a`, `notify_one` accesses the node `a` three
times, in this order: it reads the link, writes the dequeued flag and posts
the signal; `notify_all` on a queue `l` does the same for each node of `l` in
turn, one round per node.  In both lists of accesses no node is accessed
after its signal was posted; after the post only `m_waitingThreads` changes,
to the link read before.  In every state whatsoever the body of the `if` of
`notify_one`, which is the body of the loop of `notify_all`, makes these three
accesses to the head node in this order and then sets `m_waitingThreads`. -/
theorem notifier_leaves_node_alone_after_post (cv : condition_variable) (l : List Nat)
    (fuel : Nat) (h : IsQueue cv.nodes cv.m_waitingThreads l) (hf : l.length ≤ fuel) :
    (∀ a rest, l = a :: rest →
      cv.notify_one.events = cv.events
        ++ [CvEvent.read_next a, CvEvent.write_dequeued a, CvEvent.post a] ∧
      cv.notify_one.m_waitingThreads = (cv.nodes a).next ∧
      CvEvent.quiet_after_post
        [CvEvent.read_next a, CvEvent.write_dequeued a, CvEvent.post a]) ∧
    (l = [] → cv.notify_one.events = cv.events) ∧
    (∃ cv1, cv.notify_all fuel = some cv1 ∧
      cv1.events = cv.events ++
        l.flatMap (fun a => [CvEvent.read_next a, CvEvent.write_dequeued a, CvEvent.post a]) ∧
      CvEvent.quiet_after_post
        (l.flatMap
          (fun a => [CvEvent.read_next a, CvEvent.write_dequeued a, CvEvent.post a]))) ∧
    (∀ cv0 : condition_variable,
      cv0.signal_head.events = cv0.events
        ++ [CvEvent.read_next cv0.m_waitingThreads,
            CvEvent.write_dequeued cv0.m_waitingThreads,
            CvEvent.post cv0.m_waitingThreads] ∧
      cv0.signal_head.m_waitingThreads = (cv0.nodes cv0.m_waitingThreads).next ∧
      (cv0.m_waitingThreads ≠ 0 → cv0.notify_one = cv0.signal_head ∧
        ∀ fuel0, cv0.notify_all (fuel0 + 1) = cv0.signal_head.notify_all fuel0)) := by
  refine ⟨?_, ?_, ?_, ?_⟩
  · intro a rest hl
    subst hl
    obtain ⟨n1, n2, _, _⟩ := notify_one_cons cv a rest h
    refine ⟨?_, ?_, signal_events_quiet a⟩
    · rw [n1, ← n2]; rfl
    · rw [n1, ← n2]; rfl
  · intro hl
    subst hl
    have h0 : cv.m_waitingThreads = 0 := h
    rw [notify_one_empty cv h0]
  · refine ⟨_, notify_all_eq_iterate l cv fuel h hf, ?_, ?_⟩
    · rw [notify_one_iterate_events l.length l cv h, List.take_length]
    · exact round_events_quiet l (IsQueue_nodup cv.nodes l _ h)
  · intro cv0
    refine ⟨rfl, rfl, fun hne => ⟨notify_one_nonempty cv0 hne, fun fuel0 => ?_⟩⟩
    simp only [notify_all, if_neg hne]

theorem notifier_leaves_node_alone_after_post_witness :
    IsQueue demoQueue.nodes demoQueue.m_waitingThreads [10, 20, 30] ∧
    demoQueue.notify_one.events
      = [CvEvent.read_next 10, CvEvent.write_dequeued 10, CvEvent.post 10] ∧
    ∃ cv1, demoQueue.notify_all 3 = some cv1 ∧
      cv1.events = [CvEvent.read_next 10, CvEvent.write_dequeued 10, CvEvent.post 10,
        CvEvent.read_next 20, CvEvent.write_dequeued 20, CvEvent.post 20,
        CvEvent.read_next 30, CvEvent.write_dequeued 30, CvEvent.post 30] :=
  have h := notifier_leaves_node_alone_after_post demoQueue [10, 20, 30] 3 (by decide)
    (by decide)
  ⟨by decide, (h.1 10 [20, 30] rfl).1, h.2.2.1.imp (fun _ g => ⟨g.1, g.2.1⟩)⟩

/-- C36: in every state that a sequence of calls (enqueue of a new node,
`notify_one`, `notify_all`, `maybeDequeue`) reaches from a new
`condition_variable`, the queue is the list of the nodes enqueued and neither
notified nor removed, no node is twice in it and no queued node is marked
dequeued; for each such node `maybeDequeue` returns normally within as many
rounds of its loop as there are queued nodes (the queue is not empty, no
assertion fails) and leaves the queue without the node. -/
theorem queued_nodes_unmarked_and_once (nodes : Nat → WaitingThread) (ops : List CvOp)
    (s : CvRun) (hs : CvRun.exec ⟨ctor nodes, []⟩ ops = some s) :
    IsQueue s.cv.nodes s.cv.m_waitingThreads s.waiting ∧ s.waiting.Nodup ∧
    (∀ w ∈ s.waiting, (s.cv.nodes w).dequeued = false ∧ s.waiting.count w = 1 ∧ w ≠ 0) ∧
    (∀ w ∈ s.waiting, s.cv.m_waitingThreads ≠ 0 ∧
      ∃ cv1, s.cv.maybeDequeue s.waiting.length w = some (.ok cv1) ∧
        IsQueue cv1.nodes cv1.m_waitingThreads (s.waiting.erase w)) := by
  obtain ⟨k1, k2⟩ := CvRun.exec_keeps_queue ops ⟨ctor nodes, []⟩ s rfl (by simp) hs
  have hnd := IsQueue_nodup s.cv.nodes s.waiting _ k1
  have hne : ∀ (l : List Nat) (p : Nat) (cvn : Nat → WaitingThread), IsQueue cvn p l →
      ∀ w ∈ l, w ≠ 0 := by
    intro l
    induction l with
    | nil => intro _ _ _ w hw; exact absurd hw (by simp)
    | cons a l ih =>
      intro p cvn hq w hw
      rcases List.mem_cons.1 hw with hw | hw
      · rw [hw]; exact hq.2.1
      · exact ih _ cvn hq.2.2 w hw
  refine ⟨k1, hnd, ?_, ?_⟩
  · intro w hw
    exact ⟨k2 w hw, List.count_eq_one_of_mem hnd hw, hne _ _ _ k1 w hw⟩
  · intro w hw
    obtain ⟨cv1, _, e1, e2, _⟩ :=
      maybeDequeue_erases s.cv s.waiting w s.waiting.length k1 hw (k2 w hw) (Nat.le_refl _)
    refine ⟨?_, cv1, e1, e2⟩
    cases hl : s.waiting with
    | nil => rw [hl] at hw; exact absurd hw (by simp)
    | cons a l =>
      rw [hl] at k1
      rw [k1.1]; exact k1.2.1

theorem queued_nodes_unmarked_and_once_witness :
    ∃ s, CvRun.exec ⟨ctor demoNodes, []⟩
        [.enqueue 10, .enqueue 20, .enqueue 30, .notify_one, .enqueue 10, .maybeDequeue 30]
        = some s ∧
      s.waiting = [20, 10] ∧
      IsQueue s.cv.nodes s.cv.m_waitingThreads s.waiting ∧ s.waiting.Nodup :=
  ⟨Option.get (CvRun.exec ⟨ctor demoNodes, []⟩
      [.enqueue 10, .enqueue 20, .enqueue 30, .notify_one, .enqueue 10, .maybeDequeue 30])
      (by decide),
    (Option.some_get _).symm, by decide,
    (queued_nodes_unmarked_and_once demoNodes _ _ (Option.some_get _).symm).1,
    (queued_nodes_unmarked_and_once demoNodes _ _ (Option.some_get _).symm).2.1⟩

end condition_variable

/-! ## `function` -/

namespace function

theorem release_invoker (f : function) :
    f.release.m_invoker = f.m_invoker ∧ f.release.storage = f.storage := by
  unfold release
  split_ifs <;> exact ⟨rfl, rfl⟩

/-- C38, the code at every state of a `function`: `operator=(nullptr_t)` calls
`release()` and leaves `m_invoker` as it is, so `operator bool` gives what it
gave before, `true` for a function that held a target; the destructor then
releases the same target a second time.  Only for a function without a target
is the result of the assignment empty. -/
theorem assign_nullptr_keeps_invoker (f : function) :
    f.assign_nullptr.m_invoker = f.m_invoker ∧
    f.assign_nullptr.operator_bool = f.operator_bool ∧
    (f.assign_nullptr.operator_bool = false ↔ f.m_invoker = 0) ∧
    f.assign_nullptr.dtor = f.release.release ∧
    (f.m_invoker = f.storage →
      f.assign_nullptr.dtor.events
        = f.events ++ [.destroy f.m_invoker, .destroy f.m_invoker]) ∧
    (f.m_invoker ≠ f.storage → f.m_invoker ≠ 0 →
      f.assign_nullptr.dtor.events
        = f.events ++ [.destroyAndDeallocate f.m_invoker,
            .destroyAndDeallocate f.m_invoker]) ∧
    (f.m_invoker ≠ f.storage → f.m_invoker = 0 → f.assign_nullptr.dtor.events = f.events) ∧
    (ctor_callable 100 true true 0).assign_nullptr.operator_bool = true ∧
    (ctor_callable 100 true true 0).assign_nullptr.dtor.events
      = [.destroy 100, .destroy 100] ∧
    (ctor_callable 100 true false 200).assign_nullptr.operator_bool = true ∧
    (ctor_callable 100 true false 200).assign_nullptr.dtor.events
      = [.destroyAndDeallocate 200, .destroyAndDeallocate 200] ∧
    (ctor 100).assign_nullptr.operator_bool = false ∧
    (ctor 100).assign_nullptr.dtor.events = [] := by
  refine ⟨(release_invoker f).1, ?_, ?_, rfl, ?_, ?_, ?_, by decide, by decide, by decide,
    by decide, by decide, by decide⟩
  · simp only [operator_bool, assign_nullptr, (release_invoker f).1]
  · simp only [operator_bool, assign_nullptr, (release_invoker f).1]
    simp
  · intro h
    simp [assign_nullptr, dtor, release, h]
  · intro h1 h2
    simp [assign_nullptr, dtor, release, h1, h2]
  · intro h1 h2
    have hr : f.release = f := by
      unfold release
      rw [if_neg h1, if_neg (by simpa using h2)]
    simp only [assign_nullptr, dtor, hr]

theorem assign_nullptr_keeps_invoker_witness :
    (ctor_callable 100 true true 0).m_invoker = (ctor_callable 100 true true 0).storage ∧
    (ctor_callable 100 true true 0).assign_nullptr.dtor.events
      = (ctor_callable 100 true true 0).events
        ++ [.destroy (ctor_callable 100 true true 0).m_invoker,
            .destroy (ctor_callable 100 true true 0).m_invoker] ∧
    (ctor_callable 100 true true 0).assign_nullptr.operator_bool
      = (ctor_callable 100 true true 0).operator_bool :=
  ⟨rfl, (assign_nullptr_keeps_invoker (ctor_callable 100 true true 0)).2.2.2.2.1 rfl,
    (assign_nullptr_keeps_invoker (ctor_callable 100 true true 0)).2.1⟩

end function

/-! ## The sets of all signals -/

theorem cmsis.all_signals_eq (n : Nat) (h1 : 1 ≤ n) (h16 : n ≤ 16) :
    cmsis.all_signals n = 2 ^ n - 1 := by
  interval_cases n <;> decide

/-- C39: the set of all signals of the C++11 backend is `0xFFFFFFFF`, the 32
lowest bits, with `signals_count = 32`; for every `osFeature_Signals = n` with
`1 ≤ n ≤ 16` the set of all signals of the CMSIS backend is `2 ^ n - 1`, which
fits the 16 bit `signal_set` (nothing is cut off), and its bits are exactly
the `n` lowest. -/
theorem all_signals_are_the_lowest_bits (n : Nat) (h1 : 1 ≤ n) (h16 : n ≤ 16) :
    cxx11.all_signals = 4294967295 ∧
    cxx11.all_signals = 2 ^ cxx11.signals_count - 1 ∧
    (∀ i, cxx11.all_signals.testBit i = decide (i < cxx11.signals_count)) ∧
    cmsis.all_signals n = 2 ^ cmsis.signals_count n - 1 ∧
    cmsis.all_signals n = ((1 <<< n) % 2 ^ 32 + (2 ^ 32 - 1)) % 2 ^ 32 ∧
    cmsis.all_signals n < 2 ^ 16 ∧
    (∀ i, (cmsis.all_signals n).testBit i = decide (i < cmsis.signals_count n)) := by
  have e := cmsis.all_signals_eq n h1 h16
  refine ⟨by decide, by decide, ?_, e, ?_, ?_, ?_⟩
  · intro i
    show (2 ^ 32 - 1).testBit i = decide (i < 32)
    exact Nat.testBit_two_pow_sub_one 32 i
  · rw [e]
    interval_cases n <;> decide
  · rw [e]
    have : 2 ^ n ≤ 2 ^ 16 := Nat.pow_le_pow_right (by decide) h16
    have : 0 < 2 ^ n := Nat.pos_pow_of_pos _ (by decide)
    omega
  · intro i
    rw [e]
    exact Nat.testBit_two_pow_sub_one n i

theorem all_signals_are_the_lowest_bits_witness :
    1 ≤ 16 ∧ 16 ≤ 16 ∧ cmsis.all_signals 16 = 65535 ∧ cmsis.all_signals 1 = 1 ∧
    cmsis.all_signals 16 < 2 ^ 16 ∧ cxx11.all_signals = 4294967295 :=
  ⟨by decide, by decide, by decide, by decide,
    (all_signals_are_the_lowest_bits 16 (by decide) (by decide)).2.2.2.2.2.1,
    (all_signals_are_the_lowest_bits 16 (by decide) (by decide)).1⟩

/-! ## `sleep_for` -/

namespace cmsis

theorem wrap_of_range (w : Nat) (x : Int) (hw : 0 < w) (h1 : -(2 ^ (w - 1)) ≤ x)
    (h2 : x < 2 ^ (w - 1)) : wrap w x = x := by
  unfold wrap
  have hp : (2 : Int) ^ w = 2 * 2 ^ (w - 1) := by
    obtain ⟨k, rfl⟩ : ∃ k, w = k + 1 := ⟨w - 1, by omega⟩
    simp [pow_succ, mul_comm]
  rw [Int.emod_eq_of_lt (by omega) (by omega)]
  omega

theorem to_millisec_of_range (x : Int) (h0 : 0 ≤ x) (h1 : x ≤ 65534) :
    to_millisec x = x.toNat := by
  unfold to_millisec
  rw [Int.emod_eq_of_lt h0 (by norm_num; omega)]

/-- The loop of `sleep_for` from `ticks ≥ 0`: it returns when the fuel
suffices for the rounds, the delays are at most `0xFFFE` and add up to
`ticks`, the last round has the delay zero. -/
theorem sleep_for_loop_spec (w : Nat) (osDelay : Nat → osStatus) (hw : 0 < w) :
    ∀ (fuel : Nat) (ticks : Int) (rounds : List SleepRound),
      0 ≤ ticks → ticks < 2 ^ (w - 1) → ticks + 65534 ≤ 65534 * fuel →
      ∃ R, sleep_for_loop w osDelay fuel ticks rounds = some (rounds ++ R) ∧
        (∀ r ∈ R, r.millisec ≤ 65534 ∧ (r.millisec : Int) = r.delay ∧
          r.status = osDelay r.millisec ∧ 0 ≤ r.ticks) ∧
        ((R.map (fun r => (r.millisec : Int))).sum = ticks) ∧
        (∃ R0, R = R0 ++ [⟨0, 0, 0, osDelay 0⟩] ∧ ∀ r ∈ R0, r.delay ≠ 0) ∧
        (0 < ticks → ∃ r ∈ R, r.delay ≠ 0 ∧ r.ticks = 0) ∧
        (∀ r ∈ R, r.ticks ≠ 0 → r.delay ≠ 0) := by
  intro fuel
  induction fuel with
  | zero =>
    intro ticks rounds h0 _ hf
    omega
  | succ fuel ih =>
    intro ticks rounds h0 hlt hf
    have hpos : (0 : Int) < 2 ^ (w - 1) := by positivity
    by_cases hz : ticks = 0
    · subst hz
      refine ⟨[⟨0, 0, 0, osDelay 0⟩], ?_, ?_, ?_, ⟨[], rfl, by simp⟩, ?_, ?_⟩
      · have hwr : wrap w 0 = 0 := wrap_of_range w 0 hw (by omega) hpos
        simp [sleep_for_loop, hwr, to_millisec]
      · intro r hr
        simp only [List.mem_singleton] at hr
        subst hr
        simp
      · simp
      · intro h; omega
      · intro r hr
        simp only [List.mem_singleton] at hr
        subst hr
        simp
    · by_cases hbig : ticks > 65534
      · have hwr : wrap w (ticks - 65534) = ticks - 65534 :=
          wrap_of_range w _ hw (by omega) (by omega)
        obtain ⟨R, e1, e2, e3, ⟨R0, e4, e5⟩, e6, e7⟩ := ih (ticks - 65534)
          (rounds ++ [⟨65534, 65534, ticks - 65534, osDelay 65534⟩]) (by omega) (by omega)
          (by omega)
        refine ⟨⟨65534, 65534, ticks - 65534, osDelay 65534⟩ :: R, ?_, ?_, ?_, ?_, ?_, ?_⟩
        · have hm : to_millisec 65534 = 65534 := by decide
          simp only [sleep_for_loop, if_pos hbig, hwr, hm]
          rw [if_neg (by decide), e1, List.append_assoc]
          rfl
        · intro r hr
          rcases List.mem_cons.1 hr with hr | hr
          · subst hr
            exact ⟨Nat.le_refl _, rfl, rfl, by show (0 : Int) ≤ ticks - 65534; omega⟩
          · exact e2 r hr
        · simp only [List.map_cons, List.sum_cons, e3]
          norm_num
        · refine ⟨⟨65534, 65534, ticks - 65534, osDelay 65534⟩ :: R0, by rw [e4]; rfl, ?_⟩
          intro r hr
          rcases List.mem_cons.1 hr with hr | hr
          · subst hr; show (65534 : Int) ≠ 0; decide
          · exact e5 r hr
        · intro _
          obtain ⟨r, hr, k⟩ := e6 (by omega)
          exact ⟨r, List.mem_cons_of_mem _ hr, k⟩
        · intro r hr
          rcases List.mem_cons.1 hr with hr | hr
          · subst hr; intro _; show (65534 : Int) ≠ 0; decide
          · exact e7 r hr
      · have hle : ticks ≤ 65534 := by omega
        have hwr : wrap w (ticks - ticks) = 0 := by
          rw [sub_self]; exact wrap_of_range w 0 hw (by omega) hpos
        have hm : to_millisec ticks = ticks.toNat := to_millisec_of_range ticks h0 hle
        obtain ⟨R, e1, e2, e3, ⟨R0, e4, e5⟩, _, e7⟩ := ih 0
          (rounds ++ [⟨ticks, ticks.toNat, 0, osDelay ticks.toNat⟩]) (by omega) hpos
          (by omega)
        refine ⟨⟨ticks, ticks.toNat, 0, osDelay ticks.toNat⟩ :: R, ?_, ?_, ?_, ?_, ?_, ?_⟩
        · simp only [sleep_for_loop, if_neg hbig, hwr, hm]
          rw [if_neg hz, e1, List.append_assoc]
          rfl
        · intro r hr
          rcases List.mem_cons.1 hr with hr | hr
          · subst hr
            refine ⟨?_, Int.toNat_of_nonneg h0, rfl, Int.le_refl _⟩
            show ticks.toNat ≤ 65534
            omega
          · exact e2 r hr
        · simp only [List.map_cons, List.sum_cons, e3, Int.toNat_of_nonneg h0]
          omega
        · refine ⟨⟨ticks, ticks.toNat, 0, osDelay ticks.toNat⟩ :: R0, by rw [e4]; rfl, ?_⟩
          intro r hr
          rcases List.mem_cons.1 hr with hr | hr
          · subst hr; exact hz
          · exact e5 r hr
        · intro _
          exact ⟨_, List.mem_cons_self _ _, hz, rfl⟩
        · intro r hr
          rcases List.mem_cons.1 hr with hr | hr
          · subst hr; intro h; exact absurd rfl h
          · exact e7 r hr

end cmsis

namespace free_list

/-- C33 as stated fails for a chunk that is in the free list: on a new pool of
three four-byte chunks at address 16 the free list is 16, 20, 24; `free(20)`
followed by `allocate` returns 20 and makes 16 the head again, but the link of
20 now holds 16, so the links from the head visit 16, 20, 16, 20 and so on:
the free list is not the one of before and the chunk 24 is lost. -/
theorem free_then_allocate_loses_list_on_double_free :
    (memory_pool.ctor demoConfig demoMemory 16).map (fun p =>
      (p.m_freeList.m_first,
        chain 4 p.m_freeList.mem 4 p.m_freeList.m_first,
        ((p.m_freeList.free 4 20).allocate 4).1,
        ((p.m_freeList.free 4 20).allocate 4).2.m_first,
        chain 4 ((p.m_freeList.free 4 20).allocate 4).2.mem 4
          ((p.m_freeList.free 4 20).allocate 4).2.m_first))
      = some (16, [16, 20, 24], 20, 16, [16, 20, 16, 20]) := by
  decide

end free_list

/-! ## The guard of the counting pool -/

theorem memory_pool.allocate_guarded_eq (c : Config) (p : memory_pool) :
    p.allocate_guarded c = (p.allocate c, [.acquire, .acquire, .release, .release]) := by
  unfold memory_pool.allocate_guarded memory_pool.empty_guarded memory_pool.allocate
    memory_pool.empty
  by_cases h : p.m_freeList.empty = true <;> simp [h]

/-- With the guard `m`, `memory_pool::allocate` returns exactly when `m` lets
its owner lock again; then it returns what the completed call returns. -/
theorem memory_pool.pool_allocate_locked_eq (m : mutex) (c : Config) (p : memory_pool) :
    p.allocate_locked m c = if m.relock_returns = true then some (p.allocate c) else none := by
  unfold memory_pool.allocate_locked
  rw [memory_pool.allocate_guarded_eq]
  by_cases h : m.relock_returns = true <;> simp [GuardEvent.run, h]

namespace counting_memory_pool

theorem allocate_locked_eq (m : mutex) (c : Config) (q : counting_memory_pool) :
    q.allocate_locked m c = if m.relock_returns = true then q.allocate c else none := by
  unfold allocate_locked allocate
  rw [memory_pool.pool_allocate_locked_eq]
  cases hw : q.m_numElements.wait with
  | none => simp
  | some s => by_cases h : m.relock_returns = true <;> simp [h]

theorem try_allocate_locked_eq (m : mutex) (c : Config) (q : counting_memory_pool) :
    q.try_allocate_locked m c
      = if m.relock_returns = true ∨ q.m_numElements.value = 0 then some (q.try_allocate c)
        else none := by
  unfold try_allocate_locked try_allocate
  rw [memory_pool.pool_allocate_locked_eq]
  by_cases hv : q.m_numElements.value = 0
  · simp [semaphore.try_wait, hv]
  · have hpos : 0 < q.m_numElements.value := Nat.pos_of_ne_zero hv
    by_cases h : m.relock_returns = true <;> simp [semaphore.try_wait, hpos, hv, h]

/-- With a guard that does not let its owner lock again, `allocate` and
`try_allocate` do not return when a token is there: the caller blocks in the
second acquisition of the guard. -/
theorem locked_blocks (m : mutex) (c : Config) (q : counting_memory_pool)
    (hm : m.relock_returns = false) (hv : 0 < q.m_numElements.value) :
    q.allocate_locked m c = none ∧ q.try_allocate_locked m c = none := by
  rw [allocate_locked_eq, try_allocate_locked_eq]
  have : q.m_numElements.value ≠ 0 := by omega
  simp [hm, this]

end counting_memory_pool

/-- C8: in every state reached from a fresh `counting_memory_pool` by completed
calls and for every guard, `allocate` returns exactly when a token is
available (token count > 0) and the guard lets its owner lock again; whenever
it returns, its result is not null and the token count and the number of free
chunks are each exactly one less than before. -/
theorem counting_allocate_returns_chunk (c : Config) (mem : Memory) (base : Nat)
    (q : counting_memory_pool) (ops : List CountingOp) (s : CountingRun) (m : mutex)
    (hp : c.Placed base) (hc : counting_memory_pool.ctor c mem base = some q)
    (hs : CountingRun.exec c ⟨q, []⟩ ops = some s) :
    ((s.pool.allocate_locked m c).isSome = true
      ↔ 0 < s.pool.m_numElements.value ∧ m.relock_returns = true) ∧
    (∀ r, s.pool.allocate_locked m c = some r →
      r.1 ≠ 0 ∧ r.2.m_numElements.value + 1 = s.pool.m_numElements.value ∧
      r.2.size c + 1 = s.pool.size c ∧
      (r.2.free_chunks c).length + 1 = (s.pool.free_chunks c).length) := by
  have h := CountingRun.reached_counting_inv c mem base hp q ops s hc hs
  rw [counting_memory_pool.allocate_locked_eq]
  by_cases hm : m.relock_returns = true
  · simp only [hm, if_true, and_true]
    rcases Nat.eq_zero_or_pos s.pool.m_numElements.value with hv | hv
    · rw [counting_memory_pool.allocate_blocks c _ hv]
      refine ⟨?_, ?_⟩
      · simp [hv]
      · intro r hr
        exact absurd hr (by simp)
    · obtain ⟨a, l, hl, e2, e3, e4, _⟩ :=
        counting_memory_pool.take_spec c base s.pool s.live h hv
      rw [counting_memory_pool.allocate_eq c _ hv]
      refine ⟨?_, ?_⟩
      · simp [hv]
      · intro r hr
        rw [Option.some.injEq] at hr
        subst hr
        have hlen : (l.length + 1 = (s.pool.free_chunks c).length) := by rw [hl]; simp
        refine ⟨by rw [e3]; exact e2, ?_, ?_, ?_⟩
        · show s.pool.m_numElements.value - 1 + 1 = s.pool.m_numElements.value
          omega
        · unfold counting_memory_pool.size
          rw [e4]; exact hlen
        · rw [e4]; exact hlen
  · simp only [hm, if_false]
    refine ⟨by simp, ?_⟩
    intro r hr
    exact absurd hr (by simp)

theorem counting_allocate_returns_chunk_witness :
    demoConfig.Placed 16 ∧
    ∃ q s r, counting_memory_pool.ctor demoConfig demoMemory 16 = some q ∧
      CountingRun.exec demoConfig ⟨q, []⟩ [.allocate, .try_allocate, .free 16] = some s ∧
      s.pool.allocate_locked ⟨true⟩ demoConfig = some r ∧
      r.1 = 16 ∧ s.pool.m_numElements.value = 2 ∧
      ((s.pool.allocate_locked ⟨true⟩ demoConfig).isSome = true
        ↔ 0 < s.pool.m_numElements.value ∧ (⟨true⟩ : mutex).relock_returns = true) ∧
      r.1 ≠ 0 ∧ r.2.m_numElements.value + 1 = s.pool.m_numElements.value ∧
      r.2.size demoConfig + 1 = s.pool.size demoConfig ∧
      (r.2.free_chunks demoConfig).length + 1 = (s.pool.free_chunks demoConfig).length :=
  ⟨by decide, _, _, _, rfl, rfl, rfl, by decide, by decide,
    (counting_allocate_returns_chunk demoConfig demoMemory 16 _
      [.allocate, .try_allocate, .free 16] _ ⟨true⟩ (by decide) rfl rfl).1,
    (counting_allocate_returns_chunk demoConfig demoMemory 16 _
      [.allocate, .try_allocate, .free 16] _ ⟨true⟩ (by decide) rfl rfl).2 _ rfl⟩

namespace cmsis

theorem sleep_for_of_positive (w : Nat) (osDelay : Nat → osStatus) (fuel : Nat)
    (count : Int) (hw : 0 < w) (hpos : 0 < wrap w count)
    (hc : wrap w count + 1 < 2 ^ (w - 1)) (hf : wrap w count + 65535 ≤ 65534 * fuel) :
    ∃ R, sleep_for w osDelay fuel count = some R ∧
      (∀ r ∈ R, r.millisec ≤ 65534 ∧ (r.millisec : Int) = r.delay ∧
        r.status = osDelay r.millisec ∧ 0 ≤ r.ticks) ∧
      ((R.map (fun r => (r.millisec : Int))).sum = wrap w count + 1) ∧
      (∃ R0, R = R0 ++ [⟨0, 0, 0, osDelay 0⟩] ∧ ∀ r ∈ R0, r.delay ≠ 0) ∧
      (∃ r ∈ R, r.delay ≠ 0 ∧ r.ticks = 0) ∧
      (∀ r ∈ R, r.ticks ≠ 0 → r.delay ≠ 0) := by
  have hwr : wrap w (wrap w count + 1) = wrap w count + 1 :=
    wrap_of_range w _ hw (by omega) hc
  obtain ⟨R, e1, e2, e3, e4, e5, e6⟩ :=
    sleep_for_loop_spec w osDelay hw fuel (wrap w count + 1) [] (by omega) hc (by omega)
  refine ⟨R, ?_, e2, e3, e4, e5 (by omega), e6⟩
  simp only [sleep_for, if_neg (not_le.2 hpos), hwr, e1, List.nil_append]

theorem sleep_until_round_asserted (ticks : Int) :
    (sleep_until_round osDelay_model ticks).asserted = true := by
  unfold sleep_until_round
  by_cases h1 : ticks < 0
  · simp [h1, SleepRound.asserted, osDelay_model, to_millisec]
  · by_cases h2 : ticks > 65534
    · simp only [if_neg h1, if_pos h2]
      decide
    · simp only [if_neg h1, if_neg h2]
      have hm : to_millisec ticks = ticks.toNat :=
        to_millisec_of_range ticks (by omega) (by omega)
      by_cases hz : ticks = 0
      · subst hz
        decide
      · have hn : ticks.toNat ≠ 0 := by omega
        simp [SleepRound.asserted, osDelay_model, hm, hz, hn]

/-- C37, the code for every duration of `count > 0` milliseconds, under the OS
model (`osDelay(0)` returns `osOK`, every other delay `osEventTimeout`): the
assertion in the loop of `sleep_for` reads `ticks` after `ticks -= delay`, and
in the round whose delay uses up the ticks (`delay ≠ 0`, `ticks = 0`, status
`osEventTimeout`) its condition is false; it is false in exactly these
rounds.  The assertion of `sleep_until` reads the delay itself and holds in
every round. -/
theorem sleep_for_assertion_fails_on_last_delay (w : Nat) (fuel : Nat) (count : Int)
    (hw : 0 < w) (hpos : 0 < count) (hc : count + 1 < 2 ^ (w - 1))
    (hf : count + 65535 ≤ 65534 * fuel) :
    (∃ R, sleep_for w osDelay_model fuel count = some R ∧
      (∃ r ∈ R, r.delay ≠ 0 ∧ r.ticks = 0 ∧ r.status = .osEventTimeout ∧
        r.asserted = false) ∧
      (∀ r ∈ R, r.asserted = false ↔ (r.delay ≠ 0 ∧ r.ticks = 0))) ∧
    (∀ ticks : Int, (sleep_until_round osDelay_model ticks).asserted = true) := by
  refine ⟨?_, sleep_until_round_asserted⟩
  have hwc : wrap w count = count := wrap_of_range w count hw (by omega) (by omega)
  obtain ⟨R, e1, e2, _, _, ⟨r0, hr0, k1, k2⟩, e6⟩ :=
    sleep_for_of_positive w osDelay_model fuel count hw (by rw [hwc]; exact hpos)
      (by rw [hwc]; exact hc) (by rw [hwc]; exact hf)
  have key : ∀ r ∈ R, r.asserted = false ↔ (r.delay ≠ 0 ∧ r.ticks = 0) := by
    intro r hr
    obtain ⟨_, a2, a3, _⟩ := e2 r hr
    have a6 := e6 r hr
    by_cases hd : r.delay = 0
    · have hm : r.millisec = 0 := by
        have : (r.millisec : Int) = 0 := by rw [a2, hd]
        exact_mod_cast this
      have ht : r.ticks = 0 := by
        by_contra hne
        exact a6 hne hd
      simp [SleepRound.asserted, a3, osDelay_model, hm, hd, ht]
    · have hm : r.millisec ≠ 0 := by
        intro hm
        apply hd
        rw [← a2, hm]; rfl
      by_cases ht : r.ticks = 0
      · simp [SleepRound.asserted, a3, osDelay_model, hm, hd, ht]
      · simp [SleepRound.asserted, a3, osDelay_model, hm, hd, ht]
  refine ⟨R, e1, ⟨r0, hr0, k1, k2, ?_, (key r0 hr0).2 ⟨k1, k2⟩⟩, key⟩
  obtain ⟨_, a2, a3, _⟩ := e2 r0 hr0
  have hm : r0.millisec ≠ 0 := by
    intro hm
    apply k1
    rw [← a2, hm]; rfl
  simp [a3, osDelay_model, hm]

theorem sleep_for_assertion_fails_on_last_delay_witness :
    0 < 32 ∧ (0 : Int) < 1 ∧ (1 : Int) + 1 < 2 ^ (32 - 1) ∧
    sleep_for 32 osDelay_model 2 1
      = some [⟨2, 2, 0, .osEventTimeout⟩, ⟨0, 0, 0, .osOK⟩] ∧
    (⟨2, 2, 0, .osEventTimeout⟩ : SleepRound).asserted = false ∧
    ∃ R, sleep_for 32 osDelay_model 2 1 = some R ∧
      (∃ r ∈ R, r.delay ≠ 0 ∧ r.ticks = 0 ∧ r.status = .osEventTimeout ∧
        r.asserted = false) :=
  ⟨by decide, by decide, by decide, by decide, by decide,
    (sleep_for_assertion_fails_on_last_delay 32 2 1 (by decide) (by decide) (by decide)
      (by decide)).1.imp (fun _ k => ⟨k.1, k.2.1⟩)⟩

end cmsis

namespace cmsis

end cmsis

/-! ## Two threads on one counting pool -/

/-- With a guard that does not let its owner lock again, a thread that has
passed the wait blocks in `m_memoryPool.allocate()`. -/
theorem Race.blocked_in_guard (m : mutex) (c : Config) (s : Race) (t : Bool)
    (hpc : s.pc t = .waited) (hm : m.relock_returns = false) :
    s.step m c (.run t) = none := by
  simp [Race.step, hpc, memory_pool.pool_allocate_locked_eq, hm]

end weos
